import Mathlib

/-!
# Shortest-route engine of `dijkstra_c.c`: embedding and verification

The definitions below transcribe `src/backend/dijkstra_c.c` (the search engine
shared, line for line, with `dijkstra_c.cpp`).

Modelling conventions

* C `int` node identifiers, array indices into `distances`, `previous` and
  `visited`, and the `-1` predecessor sentinel are `Int`.
* Quantities that the program only ever counts upwards from zero (heap size,
  heap capacity, heap slots, `node_count`, `iterations`, `explored_count`)
  are `Nat`.
* C arrays are total functions on their index type; a bound is never assumed by
  the embedding, it is a hypothesis of the theorems (`node_count`, in-range
  edge endpoints).
* `double` values are whole numbers, carried as `Int`.  `DBL_MAX` is the exact
  value of the C constant, `2^1024 - 2^971`.  The definitions of the search
  (`relax_edge` and what is built on it) add two distances exactly.  The
  definitions with the suffix `_ieee` add them as the machine does
  (`double_add`: IEEE 754 binary64, round to nearest, ties to even), and are
  otherwise the same.  Both give the same result when the weights are whole
  numbers from `0` to `W` with `node_count * W ≤ 2^53`
  (`ieee_search_agrees`): every sum the search forms is then a whole number
  of at most `2^53`, which is a `double`.  The theorems that equate a
  returned distance with a sum of weights are stated for the machine
  addition, under that hypothesis.
* The adjacency list `graph[u].edges` is the `List Edge` met by following
  `next`, in that order.
* The loops of `heap_bubble_up` and `heap_sink_down` recurse on a bound of
  their trip count (`index`, resp. `size`); `bubble_up_loop_bound` and
  `sink_down_loop_bound` show that the bound never cuts a loop short.  The
  search loop and the predecessor walk take an explicit `fuel` and answer
  `none` when it runs out before the loop has ended; `enough_fuel node_count`
  always suffices for the search loop (`search_loop_terminates`).
* Edge lists are traversed in list order, so a graph is given by the order in
  which `next` links its edges, whichever way it was built.
-/

namespace PbfRouter

/-! ## Data model (lines 8-40) -/

/-- Graph edge: `struct Edge` without the `next` link, which the list carries;
the field `to` is spelled `to_` (`to` is reserved in Lean). -/
structure Edge where
  to_ : Int
  dist : Int
deriving DecidableEq, Repr

/-- Priority queue entry: `struct HeapNode`. -/
structure HeapNode where
  node : Int
  distance : Int
deriving DecidableEq, Repr

/-- Binary heap: `struct PriorityQueue`; `heap` is the backing array. -/
structure PriorityQueue where
  heap : Nat → HeapNode
  size : Nat
  capacity : Nat

/-- Search outcome: `struct DijkstraResult`; `none` stands for a `NULL` array. -/
structure DijkstraResult where
  path : Option (List Int)
  path_length : Nat
  distance : Int
  explored : Option (List Int)
  explored_count : Nat
  iterations : Nat
deriving DecidableEq, Repr

/-- The C constant `DBL_MAX`, `(2 - 2^-52) * 2^1023 = 2^1024 - 2^971`, written out. -/
def DBL_MAX : Int :=
  179769313486231570814527423731704356798070567525844996598917476803157260780028538760589558632766878171540458953514382464234321326889464182768467546703537516986049910576551282076245490090389328944075868508455133942304583236903222948165808559332123348274797826204144723168738177180919299881250404026184124858368

/-- An adjacency structure: `graph[u].edges` for every node index `u`. -/
abbrev Graph := Int → List Edge

/-! ## Priority queue (lines 55-123) -/

/-- Lines 55-61: an empty queue with the requested capacity. -/
def create_priority_queue (capacity : Nat) : PriorityQueue :=
  { heap := fun _ => ⟨0, 0⟩, size := 0, capacity := capacity }

/-- Lines 68-72: exchange the contents of slots `a` and `b`. -/
def heap_swap (heap : Nat → HeapNode) (a b : Nat) : Nat → HeapNode :=
  Function.update (Function.update heap a (heap b)) b (heap a)

/-- Lines 75-80, the loop of `heap_bubble_up`; the first argument bounds the
trip count and is an upper bound of `index`. -/
def heap_bubble_up_loop : Nat → (Nat → HeapNode) → Nat → (Nat → HeapNode)
  | 0, heap, _ => heap
  | fuel + 1, heap, index =>
    if index > 0 then
      let parent := (index - 1) / 2
      if (heap index).distance ≥ (heap parent).distance then heap
      else heap_bubble_up_loop fuel (heap_swap heap index parent) parent
    else heap

/-- Lines 74-81. -/
def heap_bubble_up (pq : PriorityQueue) (index : Nat) : PriorityQueue :=
  { pq with heap := heap_bubble_up_loop index pq.heap index }

/-- Lines 86-93 of `heap_sink_down`: the index of the smallest of `index` and
its children inside the first `length` slots. -/
def sink_smallest (heap : Nat → HeapNode) (length index : Nat) : Nat :=
  let left := 2 * index + 1
  let right := 2 * index + 2
  let smallest := index
  let smallest :=
    if left < length ∧ (heap left).distance < (heap smallest).distance then left
    else smallest
  let smallest :=
    if right < length ∧ (heap right).distance < (heap smallest).distance then right
    else smallest
  smallest

/-- Lines 85-98, the loop of `heap_sink_down`; the first argument bounds the
trip count (every trip strictly increases `index`, which stays below `length`). -/
def heap_sink_down_loop : Nat → (Nat → HeapNode) → Nat → Nat → (Nat → HeapNode)
  | 0, heap, _, _ => heap
  | fuel + 1, heap, length, index =>
    let smallest := sink_smallest heap length index
    if smallest = index then heap
    else heap_sink_down_loop fuel (heap_swap heap index smallest) length smallest

/-- Lines 83-99. -/
def heap_sink_down (pq : PriorityQueue) (index : Nat) : PriorityQueue :=
  { pq with heap := heap_sink_down_loop pq.size pq.heap pq.size index }

/-- Lines 101-107: a push into a full queue returns at once. -/
def heap_push (pq : PriorityQueue) (node : Int) (distance : Int) : PriorityQueue :=
  if pq.size ≥ pq.capacity then pq
  else
    let pq1 := { pq with heap := Function.update pq.heap pq.size ⟨node, distance⟩ }
    let pq2 := heap_bubble_up pq1 pq1.size
    { pq2 with size := pq2.size + 1 }

/-- Lines 109-119: `none` is the return value `0`, `some (entry, pq)` is the
return value `1` with the out-parameters `*node`, `*distance` and the queue left. -/
def heap_pop (pq : PriorityQueue) : Option (HeapNode × PriorityQueue) :=
  if pq.size = 0 then none
  else
    let top := pq.heap 0
    let pq1 := { pq with size := pq.size - 1 }
    if pq1.size > 0 then
      let pq2 := { pq1 with heap := Function.update pq1.heap 0 (pq1.heap pq1.size) }
      some (top, heap_sink_down pq2 0)
    else some (top, pq1)

/-- Lines 121-123. -/
def heap_is_empty (pq : PriorityQueue) : Bool := pq.size == 0

/-! ## Search (lines 126-241) -/

/-- The local variables of `dijkstra_path_c` that live across the main loop. -/
structure SearchState where
  distances : Int → Int
  previous : Int → Int
  visited : Int → Int
  pq : PriorityQueue
  explored_nodes : Nat → Int
  explored_distances : Nat → Int
  explored_count : Nat
  iterations : Nat
  destination_found : Bool

/-- Lines 137-162: the state on entry to the main loop. -/
def init_state (node_count : Nat) (start : Int) : SearchState :=
  { distances := Function.update (fun _ => DBL_MAX) start 0
    previous := fun _ => -1
    visited := fun _ => 0
    pq := heap_push (create_priority_queue (node_count * 2)) start 0
    explored_nodes := fun _ => 0
    explored_distances := fun _ => 0
    explored_count := 0
    iterations := 0
    destination_found := false }

/-- Lines 189-194: the body of the neighbour loop for one edge. -/
def relax_edge (current : Int) (current_dist : Int) (s : SearchState) (edge : Edge) :
    SearchState :=
  let alt := current_dist + edge.dist
  if alt < s.distances edge.to_ then
    { s with
      distances := Function.update s.distances edge.to_ alt
      previous := Function.update s.previous edge.to_ current
      pq := heap_push s.pq edge.to_ alt }
  else s

/-- Lines 187-196: the neighbour loop over `graph[current].edges`. -/
def relax_edges (current : Int) (current_dist : Int) : List Edge → SearchState → SearchState
  | [], s => s
  | edge :: rest, s => relax_edges current current_dist rest (relax_edge current current_dist s edge)

/-- Lines 171-179: mark `current` visited, count the iteration, record the trace. -/
def settle (with_steps : Bool) (explored_capacity : Nat) (current : Int) (current_dist : Int)
    (s : SearchState) : SearchState :=
  let s1 := { s with visited := Function.update s.visited current 1
                     iterations := s.iterations + 1 }
  if with_steps = true ∧ s1.explored_count < explored_capacity then
    { s1 with
      explored_nodes := Function.update s1.explored_nodes s1.explored_count current
      explored_distances := Function.update s1.explored_distances s1.explored_count current_dist
      explored_count := s1.explored_count + 1 }
  else s1

/-- Lines 166-196: one trip through the body of the main loop, entered with a
non-empty queue.  The flag says whether the loop goes on (`true`) or is left by
a `break` (`false`). -/
def loop_body (graph : Graph) (end_ : Int) (with_steps : Bool) (explored_capacity : Nat)
    (s : SearchState) : SearchState × Bool :=
  match heap_pop s.pq with
  | none => (s, false)
  | some (top, pq1) =>
    let s1 := { s with pq := pq1 }
    if s1.visited top.node ≠ 0 then (s1, true)
    else
      let s2 := settle with_steps explored_capacity top.node top.distance s1
      if top.node = end_ then ({ s2 with destination_found := true }, false)
      else (relax_edges top.node top.distance (graph top.node) s2, true)

/-- Lines 165-197: the main loop; `none` when `fuel` trips did not end it. -/
def search_loop (graph : Graph) (end_ : Int) (with_steps : Bool) (explored_capacity : Nat) :
    Nat → SearchState → Option SearchState
  | 0, s => if heap_is_empty s.pq then some s else none
  | fuel + 1, s =>
    if heap_is_empty s.pq then some s
    else
      let r := loop_body graph end_ with_steps explored_capacity s
      if r.2 then search_loop graph end_ with_steps explored_capacity fuel r.1
      else some r.1

/-- Lines 204-209: count the nodes met by following `previous` from `current`
to the `-1` sentinel; `none` when `fuel` steps did not reach it. -/
def count_path (previous : Int → Int) : Nat → Int → Nat → Option Nat
  | 0, current, path_len => if current ≠ -1 then none else some path_len
  | fuel + 1, current, path_len =>
    if current ≠ -1 then count_path previous fuel (previous current) (path_len + 1)
    else some path_len

/-- Lines 215-219: fill `path[path_len-1]`, ..., `path[0]` while following
`previous`; `filled` is the part of the array already written. -/
def build_path (previous : Int → Int) : Nat → Int → List Int → List Int
  | 0, _, filled => filled
  | i + 1, current, filled => build_path previous i (previous current) (current :: filled)

/-- Lines 199-230: the result built from the state the main loop ends in. -/
def finish (fuel : Nat) (end_ : Int) (with_steps : Bool) (s : SearchState) :
    Option DijkstraResult :=
  let explored : Option (List Int) :=
    if with_steps = true ∧ s.explored_count > 0 then
      some ((List.range s.explored_count).map s.explored_nodes)
    else none
  if s.destination_found = true ∧ s.distances end_ ≠ DBL_MAX then
    match count_path s.previous fuel end_ 0 with
    | none => none
    | some path_len =>
      some { path := some (build_path s.previous path_len end_ [])
             path_length := path_len
             distance := s.distances end_
             explored := explored
             explored_count := s.explored_count
             iterations := s.iterations }
  else
    some { path := none
           path_length := 0
           distance := DBL_MAX
           explored := explored
           explored_count := s.explored_count
           iterations := s.iterations }

/-- Line 153: `explored_capacity`, the length of the trace buffers. -/
def trace_capacity (with_steps : Bool) : Nat := if with_steps then 10000 else 0

/-- Lines 137-197: initialisation and main loop. -/
def dijkstra_search (fuel : Nat) (graph : Graph) (node_count : Nat) (start end_ : Int)
    (with_steps : Bool) : Option SearchState :=
  search_loop graph end_ with_steps (trace_capacity with_steps) fuel
    (init_state node_count start)

/-- Lines 126-241: `dijkstra_path_c`; `none` when one of its loops needs more
than `fuel` trips. -/
def dijkstra_path_c (fuel : Nat) (graph : Graph) (node_count : Nat) (start end_ : Int)
    (with_steps : Bool) : Option DijkstraResult :=
  match dijkstra_search fuel graph node_count start end_ with_steps with
  | none => none
  | some s => finish fuel end_ with_steps s

/-! ## Specification vocabulary -/

/-- Heap order on the first `size` slots: no entry is smaller than its parent,
the parent of slot `i` being slot `(i - 1) / 2`. -/
def HeapOrdered (heap : Nat → HeapNode) (size : Nat) : Prop :=
  ∀ i, 0 < i → i < size → (heap ((i - 1) / 2)).distance ≤ (heap i).distance

/-- The entries stored in the queue, slot by slot. -/
def entries (pq : PriorityQueue) : List HeapNode := (List.range pq.size).map pq.heap


/-- Heap order everywhere except possibly between `k` and its parent. -/
def OrderedAbove (heap : Nat → HeapNode) (size k : Nat) : Prop :=
  (∀ i, 0 < i → i < size → i ≠ k → (heap ((i - 1) / 2)).distance ≤ (heap i).distance) ∧
  (∀ i, 0 < i → i < size → (i - 1) / 2 = k → 0 < k →
    (heap ((k - 1) / 2)).distance ≤ (heap i).distance)

/-- Heap order everywhere except possibly between `k` and its children. -/
def OrderedBelow (heap : Nat → HeapNode) (size k : Nat) : Prop :=
  (∀ i, 0 < i → i < size → (i - 1) / 2 ≠ k →
    (heap ((i - 1) / 2)).distance ≤ (heap i).distance) ∧
  (∀ i, 0 < i → i < size → (i - 1) / 2 = k → 0 < k →
    (heap ((k - 1) / 2)).distance ≤ (heap i).distance)

/-- Every edge leaving a node of `[0, node_count)` ends in `[0, node_count)`. -/
def GraphInRange (graph : Graph) (node_count : Nat) : Prop :=
  ∀ u : Int, 0 ≤ u → u < node_count → ∀ e ∈ graph u, 0 ≤ e.to_ ∧ e.to_ < node_count

/-- No edge leaving a node of `[0, node_count)` has a negative weight. -/
def NonNegWeights (graph : Graph) (node_count : Nat) : Prop :=
  ∀ u : Int, 0 ≤ u → u < node_count → ∀ e ∈ graph u, 0 ≤ e.dist

/-- The number of edges of the graph, summed over the nodes `0 .. node_count - 1`. -/
def edge_count (graph : Graph) (node_count : Nat) : Nat :=
  ((List.range node_count).map (fun i : Nat => (graph (i : Int)).length)).sum

/-- The edge list `es` is a walk of the graph from `u` to `v`: every edge leaves
the node the walk has reached. -/
def IsWalk (graph : Graph) : Int → List Edge → Int → Prop
  | u, [], v => u = v
  | u, e :: es, v => e ∈ graph u ∧ IsWalk graph e.to_ es v

/-- The sum of the edge weights of a walk. -/
def walk_weight (es : List Edge) : Int := (es.map (fun e => e.dist)).sum

/-- The graph has an edge from `u` to `v`. -/
def HasEdge (graph : Graph) (u v : Int) : Prop := ∃ e ∈ graph u, e.to_ = v

/-- The trace buffer as a list: `explored_nodes[0 .. explored_count - 1]`. -/
def explored_list (s : SearchState) : List Int :=
  (List.range s.explored_count).map s.explored_nodes

/-- The entry settled by the loop trip entered in state `s` (line 171 runs for
it), if that trip settles one. -/
def settled_now (s : SearchState) : List HeapNode :=
  match heap_pop s.pq with
  | none => []
  | some (top, _) => if s.visited top.node ≠ 0 then [] else [top]

/-- The settle events of the main loop run from state `s`, in order: one
entry `(node, distance)` for every execution of line 171. -/
def settle_trace (graph : Graph) (end_ : Int) (with_steps : Bool) (explored_capacity : Nat) :
    Nat → SearchState → List HeapNode
  | 0, _ => []
  | fuel + 1, s =>
    if heap_is_empty s.pq then []
    else
      let r := loop_body graph end_ with_steps explored_capacity s
      settled_now s ++
        (if r.2 then settle_trace graph end_ with_steps explored_capacity fuel r.1 else [])

/-- The settle events of a whole search, in order. -/
def settle_order (fuel : Nat) (graph : Graph) (node_count : Nat) (start end_ : Int)
    (with_steps : Bool) : List HeapNode :=
  settle_trace graph end_ with_steps (trace_capacity with_steps) fuel
    (init_state node_count start)

/-- Fuel that always suffices for the loops of a search over `node_count` nodes. -/
def enough_fuel (node_count : Nat) : Nat := (2 * node_count + 1) * node_count + 1

/-- Facts about the loop state that need nothing but in-range edges: `o` lists
the settle events so far. -/
structure BaseInv (graph : Graph) (n : Nat) (start : Int) (ws : Bool) (cap : Nat)
    (o : List HeapNode) (s : SearchState) : Prop where
  cap_eq : s.pq.capacity = n * 2
  size_le : s.pq.size ≤ s.pq.capacity
  ordered : HeapOrdered s.pq.heap s.pq.size
  heap_range : ∀ e ∈ entries s.pq, 0 ≤ e.node ∧ e.node < (n : Int)
  heap_reach : ∀ e ∈ entries s.pq, ∃ es, IsWalk graph start es e.node
  order_nodup : (o.map (fun e => e.node)).Nodup
  order_mem : ∀ v, v ∈ o.map (fun e => e.node) ↔ s.visited v ≠ 0
  order_range : ∀ v ∈ o.map (fun e => e.node), 0 ≤ v ∧ v < (n : Int)
  order_reach : ∀ v ∈ o.map (fun e => e.node), ∃ es, IsWalk graph start es v
  iters : s.iterations = o.length
  trace : explored_list s = if ws = true then (o.map (fun e => e.node)).take cap else []
  dist_le : ∀ v, s.distances v ≤ DBL_MAX
  heap_lt : ∀ e ∈ entries s.pq, s.distances e.node < DBL_MAX
  order_lt : ∀ v ∈ o.map (fun e => e.node), s.distances v < DBL_MAX
  first : (o = [] ∧ entries s.pq = [⟨start, 0⟩]) ∨ (∃ rest, o = ⟨start, 0⟩ :: rest)

/-- The flag `destination_found` is set exactly when the target has been settled,
and the target, once settled, is the last settle event. -/
structure FoundInv (end_ : Int) (o : List HeapNode) (s : SearchState) : Prop where
  found : s.destination_found = true ↔ s.visited end_ ≠ 0
  last : s.visited end_ ≠ 0 → ∃ o1 top, o = o1 ++ [top] ∧ top.node = end_

/-- A node index of the graph: `0 ≤ v < node_count`. -/
def ValidNode (node_count : Nat) (v : Int) : Prop := 0 ≤ v ∧ v < (node_count : Int)

/-- The number of nodes of `[0, node_count)` whose `visited` mark is set. -/
def visited_count (visited : Int → Int) (node_count : Nat) : Nat :=
  ((List.range node_count).filter (fun i : Nat => visited (i : Int) ≠ 0)).length

/-- Facts about the loop state that hold when no weight is negative. -/
structure ChainInv (graph : Graph) (start : Int) (o : List HeapNode) (s : SearchState) :
    Prop where
  key_nonneg : ∀ e ∈ entries s.pq, 0 ≤ e.distance
  key_ge : ∀ e ∈ entries s.pq, s.distances e.node ≤ e.distance
  order_dist : ∀ x ∈ o, s.distances x.node ≤ x.distance
  order_le_heap : ∀ x ∈ o, ∀ e ∈ entries s.pq, x.distance ≤ e.distance
  order_keys : (o.map (fun e => e.distance)).Pairwise (fun a b => a ≤ b)
  start_dist : s.distances start = 0
  start_prev : s.previous start = -1
  heap_prev : ∀ e ∈ entries s.pq, e.node = start ∨ s.previous e.node ∈ o.map (fun e => e.node)
  prev_edge : ∀ v, s.previous v ≠ -1 →
    s.previous v ∈ o.map (fun e => e.node) ∧ HasEdge graph (s.previous v) v
  chain : ∀ v ∈ o.map (fun e => e.node), v ≠ start →
    s.previous v ∈ o.map (fun e => e.node) ∧
    (o.map (fun e => e.node)).indexOf (s.previous v) < (o.map (fun e => e.node)).indexOf v

/-- The nodes met by following `previous` for `m` steps from `v`, last step first. -/
def pred_chain (previous : Int → Int) : Nat → Int → List Int
  | 0, _ => []
  | m + 1, v => pred_chain previous m (previous v) ++ [v]

/-- The number of edges leaving the nodes settled so far. -/
def used_edges (graph : Graph) (o : List HeapNode) : Nat :=
  (o.map (fun x => (graph x.node).length)).sum

/-- Facts about distances that hold when no weight is negative and no push
has been dropped: queue keys and tentative distances are weights of walks, and
a settled node carries the least weight of a walk from the source. -/
structure OptInv (graph : Graph) (start : Int) (o : List HeapNode) (s : SearchState) :
    Prop where
  key_walk : ∀ e ∈ entries s.pq, ∃ es, IsWalk graph start es e.node ∧ walk_weight es = e.distance
  dist_walk : ∀ v, s.distances v < DBL_MAX →
    ∃ es, IsWalk graph start es v ∧ walk_weight es = s.distances v
  order_exact : ∀ x ∈ o, s.distances x.node = x.distance
  settled_opt : ∀ x ∈ o, ∀ es, IsWalk graph start es x.node → x.distance ≤ walk_weight es

/-- The frontier at the head of the loop: every discovered node that is not
settled has a queue entry carrying its tentative distance, the edges of the
settled nodes are relaxed, and the queue holds at most one entry per edge
used, plus the initial one. -/
structure FrontInv (graph : Graph) (o : List HeapNode) (s : SearchState) : Prop where
  complete : ∀ v, s.distances v < DBL_MAX →
    v ∈ o.map (fun e => e.node) ∨ (⟨v, s.distances v⟩ : HeapNode) ∈ entries s.pq
  relaxed : ∀ x ∈ o, ∀ e ∈ graph x.node, s.distances e.to_ ≤ x.distance + e.dist
  budget : s.pq.size ≤ used_edges graph o + 1

/-- The frontier inside the neighbour loop of node `u`, settled at distance
`k`: `done` are the edges of `u` already handled, `rest` those still to come. -/
structure PhaseInv (graph : Graph) (o : List HeapNode) (u k : Int) (done rest : List Edge)
    (s : SearchState) : Prop where
  complete : ∀ v, s.distances v < DBL_MAX →
    v ∈ o.map (fun e => e.node) ∨ (⟨v, s.distances v⟩ : HeapNode) ∈ entries s.pq
  relaxed_old : ∀ x ∈ o, x.node ≠ u → ∀ e ∈ graph x.node,
    s.distances e.to_ ≤ x.distance + e.dist
  relaxed_done : ∀ e ∈ done, s.distances e.to_ ≤ k + e.dist
  budget : s.pq.size + rest.length ≤ used_edges graph o

/-! ## Concrete inputs -/

/-- Scenario A of the specification: 4 nodes, edges `0→1 (1)`, `1→2 (1)`,
`0→2 (5)`, `2→3 (1)`, the edges of node 0 in the order given. -/
def scenarioA : Graph := fun u =>
  if u = 0 then [⟨1, 1⟩, ⟨2, 5⟩]
  else if u = 1 then [⟨2, 1⟩]
  else if u = 2 then [⟨3, 1⟩]
  else []

/-- Scenario B of the specification: no edges. -/
def scenarioB : Graph := fun _ => []

/-- Scenario C of the specification: 2 nodes, parallel edges `0→1 (2)`, `0→1 (1)`. -/
def scenarioC : Graph := fun u => if u = 0 then [⟨1, 2⟩, ⟨1, 1⟩] else []

/-- Three nodes; node 0 has six parallel edges to node 1 with falling weights
`7, 6, 5, 4, 3, 2`, then an edge to node 2 of weight `1`. -/
def dropGraph : Graph := fun u =>
  if u = 0 then [⟨1, 7⟩, ⟨1, 6⟩, ⟨1, 5⟩, ⟨1, 4⟩, ⟨1, 3⟩, ⟨1, 2⟩, ⟨2, 1⟩] else []

/-- The search on `dropGraph` from node 0 at the point where the neighbour loop
of node 0 has handled its first six edges: the initial entry popped, node 0
settled, six edges relaxed. -/
def dropState6 : Option SearchState :=
  match heap_pop (init_state 3 0).pq with
  | none => none
  | some (top, pq1) =>
    some (relax_edges top.node top.distance ((dropGraph 0).take 6)
      (settle false 0 top.node top.distance { init_state 3 0 with pq := pq1 }))

/-- The weight `2^1023`, a finite `double`, written out. -/
def HUGE_WEIGHT : Int :=
  89884656743115795386465259539451236680898848947115328636715040578866337902750481566354238661203768010560056939935696678829394884407208311246423715319737062188883946712432742638151109800623047059726541476042502884419075341171231440736956555270413618581675255342293149119973622969239858152417678164812112068608

/-- Three nodes in a line, `0→1` and `1→2`, both of weight `2^1023`. -/
def overflowGraph : Graph := fun u =>
  if u = 0 then [⟨1, HUGE_WEIGHT⟩]
  else if u = 1 then [⟨2, HUGE_WEIGHT⟩]
  else []

/-- A line of 10001 nodes: the edge `u → u + 1` of weight `1` for `0 ≤ u < 10000`. -/
def lineGraph : Graph := fun u => if 0 ≤ u ∧ u < 10000 then [⟨u + 1, 1⟩] else []

/-- The edges of `lineGraph` met in `k` steps from node `a`. -/
def line_walk (a : Int) : Nat → List Edge
  | 0 => []
  | k + 1 => ⟨a + 1, 1⟩ :: line_walk (a + 1) k

/-- A three-entry heap: root `(5, 1)`, children `(7, 3)` and `(9, 2)`. -/
def sampleQueue : PriorityQueue :=
  { heap := fun i => if i = 0 then ⟨5, 1⟩ else if i = 1 then ⟨7, 3⟩ else ⟨9, 2⟩
    size := 3
    capacity := 4 }

/-- Scenario A with the two edges of node 0 in the other order. -/
def scenarioA_swapped : Graph := fun u =>
  if u = 0 then [⟨2, 5⟩, ⟨1, 1⟩]
  else if u = 1 then [⟨2, 1⟩]
  else if u = 2 then [⟨3, 1⟩]
  else []

/-- Three nodes with a cycle of negative weight: `0→1 (-1)`, `1→0 (-1)`,
`1→2 (5)`, the edges of node 1 in that order. -/
def negCycleGraph : Graph := fun u =>
  if u = 0 then [⟨1, -1⟩]
  else if u = 1 then [⟨0, -1⟩, ⟨2, 5⟩]
  else []

/-- A queue that is full: capacity 1, one entry `(4, 9)`. -/
def fullQueue : PriorityQueue :=
  { heap := fun _ => ⟨4, 9⟩, size := 1, capacity := 1 }

/-! ## The states a search passes through -/

/-- Lines 187-196, statement by statement: the states after each edge of the
neighbour loop run from state `s`. -/
def relax_states (current : Int) (current_dist : Int) :
    List Edge → SearchState → List SearchState
  | [], _ => []
  | edge :: rest, s =>
    relax_edge current current_dist s edge ::
      relax_states current current_dist rest (relax_edge current current_dist s edge)

/-- Lines 166-196, statement by statement: the states one trip through the
loop body passes through after the state `s` it is entered in: after the pop,
after settling the popped node, and then either after setting
`destination_found` or after each edge of the neighbour loop. -/
def trip_states (graph : Graph) (end_ : Int) (with_steps : Bool) (explored_capacity : Nat)
    (s : SearchState) : List SearchState :=
  match heap_pop s.pq with
  | none => []
  | some (top, pq1) =>
    let s1 := { s with pq := pq1 }
    if s1.visited top.node ≠ 0 then [s1]
    else
      let s2 := settle with_steps explored_capacity top.node top.distance s1
      if top.node = end_ then [s1, s2, { s2 with destination_found := true }]
      else s1 :: s2 :: relax_states top.node top.distance (graph top.node) s2

/-- The states the main loop passes through after state `s`, in order, for at
most `fuel` trips. -/
def search_steps (graph : Graph) (end_ : Int) (with_steps : Bool) (explored_capacity : Nat) :
    Nat → SearchState → List SearchState
  | 0, _ => []
  | fuel + 1, s =>
    if heap_is_empty s.pq then []
    else
      let r := loop_body graph end_ with_steps explored_capacity s
      trip_states graph end_ with_steps explored_capacity s ++
        (if r.2 then search_steps graph end_ with_steps explored_capacity fuel r.1 else [])

/-- The states of a whole search, in order, from the state the main loop is
entered in. -/
def search_history (fuel : Nat) (graph : Graph) (node_count : Nat) (start end_ : Int)
    (with_steps : Bool) : List SearchState :=
  init_state node_count start ::
    search_steps graph end_ with_steps (trace_capacity with_steps) fuel
      (init_state node_count start)

/-- Between an earlier state `s` and a later state `t`: no tentative distance
is greater in `t`, and every node settled in `s` is settled in `t` with the
distance and the predecessor it has in `s`. -/
def Frozen (s t : SearchState) : Prop :=
  (∀ v, t.distances v ≤ s.distances v) ∧
  (∀ v, s.visited v ≠ 0 →
    t.visited v ≠ 0 ∧ t.distances v = s.distances v ∧ t.previous v = s.previous v)

/-- The nodes a walk from `u` along the edges `es` visits, in order. -/
def walk_nodes (u : Int) (es : List Edge) : List Int := u :: es.map (fun e => e.to_)

/-- Predecessor and tentative distance are written together: a node `v` with
a predecessor has its tentative distance from an edge out of that
predecessor, added to the key the predecessor was settled with. -/
def PredInv (graph : Graph) (o : List HeapNode) (s : SearchState) : Prop :=
  ∀ v, s.previous v ≠ -1 →
    ∃ x ∈ o, x.node = s.previous v ∧
      ∃ e ∈ graph (s.previous v), e.to_ = v ∧ s.distances v = x.distance + e.dist

/-- Two states agree on everything the search reads: all fields but the trace
buffers `explored_nodes`, `explored_distances` and their count. -/
def SameSearch (s t : SearchState) : Prop :=
  s.distances = t.distances ∧ s.previous = t.previous ∧ s.visited = t.visited ∧
  s.pq = t.pq ∧ s.iterations = t.iterations ∧ s.destination_found = t.destination_found

/-- The fields of a result other than the trace. -/
def search_outcome (r : DijkstraResult) : Option (List Int) × Nat × Int × Nat :=
  (r.path, r.path_length, r.distance, r.iterations)

/-- The entry popped by the loop trip entered in state `s` (line 168). -/
def popped_now (s : SearchState) : List HeapNode :=
  match heap_pop s.pq with
  | none => []
  | some (top, _) => [top]

/-- The entries popped by the main loop run from state `s`, in order: one
entry `(node, distance)` for every execution of line 168, stale ones included. -/
def pop_trace (graph : Graph) (end_ : Int) (with_steps : Bool) (explored_capacity : Nat) :
    Nat → SearchState → List HeapNode
  | 0, _ => []
  | fuel + 1, s =>
    if heap_is_empty s.pq then []
    else
      let r := loop_body graph end_ with_steps explored_capacity s
      popped_now s ++
        (if r.2 then pop_trace graph end_ with_steps explored_capacity fuel r.1 else [])

/-- The entries popped in a whole search, in order. -/
def pop_order (fuel : Nat) (graph : Graph) (node_count : Nat) (start end_ : Int)
    (with_steps : Bool) : List HeapNode :=
  pop_trace graph end_ with_steps (trace_capacity with_steps) fuel
    (init_state node_count start)

/-- The buffer of distances at settle time as a list:
`explored_distances[0 .. explored_count - 1]`. -/
def explored_distance_list (s : SearchState) : List Int :=
  (List.range s.explored_count).map s.explored_distances

/-! ## Machine addition of `double` (line 189)

The definitions above add distances exactly.  The definitions of this section
repeat the neighbour loop and what is built on it with the addition of the
machine: IEEE 754 binary64, round to nearest, ties to even. -/

/-- The C constant `DBL_MANT_DIG`: the number of significand bits of a `double`. -/
def DBL_MANT_DIG : Nat := 53

/-- The number of binary digits of `m`, by halving at most `fuel` times;
`bit_length m m` is the number of binary digits of `m`. -/
def bit_length : Nat → Nat → Nat
  | 0, _ => 0
  | fuel + 1, m => if m = 0 then 0 else bit_length fuel (m / 2) + 1

/-- The `double` nearest to the whole number `x`, ties going to the even
significand: the magnitude is cut to its `DBL_MANT_DIG` leading binary digits,
and rounded up when the part cut off is more than half a unit of the last
digit kept, or exactly half and the digit kept is odd.  A magnitude of at
most `2^53` is kept as it is.  A result greater than `DBL_MAX` stands for
`+inf`: the search only ever compares it with stored distances, none of which
exceeds `DBL_MAX`. -/
def double_round (x : Int) : Int :=
  let m := x.natAbs
  let e := bit_length m m - DBL_MANT_DIG
  let q := m / 2 ^ e
  let r := m % 2 ^ e
  let q1 := if 2 ^ e < 2 * r ∨ (2 * r = 2 ^ e ∧ q % 2 = 1) then q + 1 else q
  Int.sign x * ((q1 * 2 ^ e : Nat) : Int)

/-- The sum `a + b` of two whole-number `double` values as the machine
computes it: the exact sum, rounded. -/
def double_add (a b : Int) : Int := double_round (a + b)

/-- Lines 189-194 with machine addition: the body of the neighbour loop for
one edge. -/
def relax_edge_ieee (current : Int) (current_dist : Int) (s : SearchState) (edge : Edge) :
    SearchState :=
  let alt := double_add current_dist edge.dist
  if alt < s.distances edge.to_ then
    { s with
      distances := Function.update s.distances edge.to_ alt
      previous := Function.update s.previous edge.to_ current
      pq := heap_push s.pq edge.to_ alt }
  else s

/-- Lines 187-196 with machine addition: the neighbour loop. -/
def relax_edges_ieee (current : Int) (current_dist : Int) :
    List Edge → SearchState → SearchState
  | [], s => s
  | edge :: rest, s =>
    relax_edges_ieee current current_dist rest (relax_edge_ieee current current_dist s edge)

/-- Lines 166-196 with machine addition: one trip through the body of the
main loop. -/
def loop_body_ieee (graph : Graph) (end_ : Int) (with_steps : Bool) (explored_capacity : Nat)
    (s : SearchState) : SearchState × Bool :=
  match heap_pop s.pq with
  | none => (s, false)
  | some (top, pq1) =>
    let s1 := { s with pq := pq1 }
    if s1.visited top.node ≠ 0 then (s1, true)
    else
      let s2 := settle with_steps explored_capacity top.node top.distance s1
      if top.node = end_ then ({ s2 with destination_found := true }, false)
      else (relax_edges_ieee top.node top.distance (graph top.node) s2, true)

/-- Lines 165-197 with machine addition: the main loop. -/
def search_loop_ieee (graph : Graph) (end_ : Int) (with_steps : Bool)
    (explored_capacity : Nat) : Nat → SearchState → Option SearchState
  | 0, s => if heap_is_empty s.pq then some s else none
  | fuel + 1, s =>
    if heap_is_empty s.pq then some s
    else
      let r := loop_body_ieee graph end_ with_steps explored_capacity s
      if r.2 then search_loop_ieee graph end_ with_steps explored_capacity fuel r.1
      else some r.1

/-- Lines 137-197 with machine addition: initialisation and main loop. -/
def dijkstra_search_ieee (fuel : Nat) (graph : Graph) (node_count : Nat) (start end_ : Int)
    (with_steps : Bool) : Option SearchState :=
  search_loop_ieee graph end_ with_steps (trace_capacity with_steps) fuel
    (init_state node_count start)

/-- Lines 126-241 with machine addition: `dijkstra_path_c`. -/
def dijkstra_path_c_ieee (fuel : Nat) (graph : Graph) (node_count : Nat) (start end_ : Int)
    (with_steps : Bool) : Option DijkstraResult :=
  match dijkstra_search_ieee fuel graph node_count start end_ with_steps with
  | none => none
  | some s => finish fuel end_ with_steps s

/-- The number `2^53`: every whole number up to it is a `double`. -/
def MAX_EXACT : Int := 9007199254740992

/-- No edge leaving a node of `[0, node_count)` weighs more than `W`. -/
def WeightsAtMost (graph : Graph) (node_count : Nat) (W : Int) : Prop :=
  ∀ u : Int, 0 ≤ u → u < node_count → ∀ e ∈ graph u, e.dist ≤ W

/-- With weights of at most `W`, the keys in the queue and the keys of the
settle events so far are at most `W` times the number of settle events. -/
def BoundInv (W : Int) (o : List HeapNode) (s : SearchState) : Prop :=
  (∀ e ∈ entries s.pq, e.distance ≤ o.length * W) ∧ (∀ x ∈ o, x.distance ≤ o.length * W)

/-- Three nodes, edges `0→1 (3)`, `0→2 (2^53 + 4)`, `1→2 (2^53)`: the walk
through node 1 weighs `2^53 + 3`, which is no `double`. -/
def roundGraph : Graph := fun u =>
  if u = 0 then [⟨1, 3⟩, ⟨2, 9007199254740996⟩]
  else if u = 1 then [⟨2, 9007199254740992⟩]
  else []

/-- Three nodes in a line, edges `0→1 (2^53)`, `1→2 (1)`. -/
def tieGraph : Graph := fun u =>
  if u = 0 then [⟨1, 9007199254740992⟩]
  else if u = 1 then [⟨2, 1⟩]
  else []

/-! ## The binary heap -/

theorem heap_swap_apply (heap : Nat → HeapNode) (a b x : Nat) :
    heap_swap heap a b x = if x = b then heap a else if x = a then heap b else heap x := by
  unfold heap_swap
  simp only [Function.update_apply]

theorem heap_swap_eq_comp (heap : Nat → HeapNode) (a b : Nat) :
    heap_swap heap a b = heap ∘ (Equiv.swap a b) := by
  funext x
  rw [heap_swap_apply, Function.comp_apply, Equiv.swap_apply_def]
  split_ifs <;> simp_all

theorem map_range_swap_perm (heap : Nat → HeapNode) (n a b : Nat) (ha : a < n) (hb : b < n) :
    ((List.range n).map (heap_swap heap a b)).Perm ((List.range n).map heap) := by
  rw [heap_swap_eq_comp, ← List.map_map]
  apply List.Perm.map
  rw [List.perm_ext_iff_of_nodup ((List.nodup_range n).map (Equiv.injective _)) (List.nodup_range n)]
  intro x
  simp only [List.mem_map, List.mem_range]
  constructor
  · rintro ⟨y, hy, rfl⟩
    rw [Equiv.swap_apply_def]
    split_ifs <;> omega
  · intro hx
    refine ⟨Equiv.swap a b x, ?_, Equiv.swap_apply_self a b x⟩
    rw [Equiv.swap_apply_def]
    split_ifs <;> omega

theorem bubble_up_loop_perm (n : Nat) :
    ∀ (fuel : Nat) (heap : Nat → HeapNode) (index : Nat), index < n →
      ((List.range n).map (heap_bubble_up_loop fuel heap index)).Perm
        ((List.range n).map heap) := by
  intro fuel
  induction fuel with
  | zero => intro heap index _; exact List.Perm.refl _
  | succ fuel ih =>
    intro heap index hlt
    unfold heap_bubble_up_loop
    by_cases h0 : index > 0
    · simp only [h0, if_true]
      by_cases hge : (heap index).distance ≥ (heap ((index - 1) / 2)).distance
      · simp only [hge, if_true]; exact List.Perm.refl _
      · simp only [hge, if_false]
        have hp : (index - 1) / 2 < n := by omega
        exact (ih _ _ hp).trans (map_range_swap_perm heap n index _ hlt hp)
    · simp only [h0, if_false]; exact List.Perm.refl _

theorem bubble_up_loop_ordered (size : Nat) :
    ∀ (fuel : Nat) (heap : Nat → HeapNode) (k : Nat), k ≤ fuel → k < size →
      OrderedAbove heap size k → HeapOrdered (heap_bubble_up_loop fuel heap k) size := by
  intro fuel
  induction fuel with
  | zero =>
    intro heap k hk _ hinv i hi0 hi
    exact hinv.1 i hi0 hi (by omega)
  | succ fuel ih =>
    intro heap k hk hks hinv
    unfold heap_bubble_up_loop
    by_cases h0 : k > 0
    · simp only [h0, if_true]
      by_cases hge : (heap k).distance ≥ (heap ((k - 1) / 2)).distance
      · simp only [hge, if_true]
        intro i hi0 hi
        by_cases hik : i = k
        · subst hik; exact hge
        · exact hinv.1 i hi0 hi hik
      · simp only [hge, if_false]
        have hlt : (heap k).distance < (heap ((k - 1) / 2)).distance := lt_of_not_ge hge
        apply ih _ _ (by omega) (by omega)
        constructor
        · intro i hi0 hi hip
          simp only [heap_swap_apply]
          by_cases hik : i = k
          · subst hik
            have e1 : ¬ ((i - 1) / 2 = i) := by omega
            simp only [e1, if_true, if_false, hip]
            exact le_of_lt hlt
          · have e1 : ¬ ((i - 1) / 2 = (k - 1) / 2) ∨ (i - 1) / 2 = (k - 1) / 2 := by omega
            by_cases hq : (i - 1) / 2 = k
            · have e2 : ¬ (k = (k - 1) / 2) := by omega
              simp only [hq, e2, hip, hik, if_true, if_false]
              exact hinv.2 i hi0 hi hq h0
            · by_cases hq2 : (i - 1) / 2 = (k - 1) / 2
              · simp only [hq2, hip, hik, if_true, if_false]
                have := hinv.1 i hi0 hi hik
                rw [hq2] at this
                exact le_trans (le_of_lt hlt) this
              · simp only [hq, hq2, hip, hik, if_false]
                exact hinv.1 i hi0 hi hik
        · intro i hi0 hi hip hp0
          simp only [heap_swap_apply]
          have e1 : ¬ ((((k - 1) / 2 - 1) / 2) = (k - 1) / 2) := by omega
          have e2 : ¬ ((((k - 1) / 2 - 1) / 2) = k) := by omega
          have e3 : ¬ (i = (k - 1) / 2) := by omega
          simp only [e1, e2, e3, if_false]
          have hpp := hinv.1 ((k - 1) / 2) hp0 (by omega) (by omega)
          by_cases hik : i = k
          · simp only [hik, if_true]; exact hpp
          · simp only [hik, if_false]
            have := hinv.1 i hi0 hi hik
            rw [hip] at this
            exact le_trans hpp this
    · simp only [h0, if_false]
      intro i hi0 hi
      exact hinv.1 i hi0 hi (by omega)

theorem sink_smallest_spec (heap : Nat → HeapNode) (n k : Nat) :
    (sink_smallest heap n k = k ∨
      ((sink_smallest heap n k = 2 * k + 1 ∨ sink_smallest heap n k = 2 * k + 2) ∧
        sink_smallest heap n k < n ∧
        (heap (sink_smallest heap n k)).distance < (heap k).distance)) ∧
    (∀ c, (c = 2 * k + 1 ∨ c = 2 * k + 2) → c < n →
      (heap (sink_smallest heap n k)).distance ≤ (heap c).distance) := by
  unfold sink_smallest
  simp only []
  split_ifs with h1 h2 h2
  · refine ⟨Or.inr ⟨Or.inr rfl, h2.1, by omega⟩, ?_⟩
    rintro c (rfl | rfl) hc <;> omega
  · refine ⟨Or.inr ⟨Or.inl rfl, h1.1, h1.2⟩, ?_⟩
    rintro c (rfl | rfl) hc
    · omega
    · have : ¬ (heap (2 * k + 2)).distance < (heap (2 * k + 1)).distance := fun h => h2 ⟨hc, h⟩
      omega
  · refine ⟨Or.inr ⟨Or.inr rfl, h2.1, h2.2⟩, ?_⟩
    rintro c (rfl | rfl) hc
    · have : ¬ (heap (2 * k + 1)).distance < (heap k).distance := fun h => h1 ⟨hc, h⟩
      omega
    · omega
  · refine ⟨Or.inl rfl, ?_⟩
    rintro c (rfl | rfl) hc
    · have : ¬ (heap (2 * k + 1)).distance < (heap k).distance := fun h => h1 ⟨hc, h⟩
      omega
    · have : ¬ (heap (2 * k + 2)).distance < (heap k).distance := fun h => h2 ⟨hc, h⟩
      omega

theorem sink_down_loop_perm (n : Nat) :
    ∀ (fuel : Nat) (heap : Nat → HeapNode) (index : Nat), index < n →
      ((List.range n).map (heap_sink_down_loop fuel heap n index)).Perm
        ((List.range n).map heap) := by
  intro fuel
  induction fuel with
  | zero => intro heap index _; exact List.Perm.refl _
  | succ fuel ih =>
    intro heap index hlt
    unfold heap_sink_down_loop
    simp only []
    by_cases hm : sink_smallest heap n index = index
    · simp only [hm, if_true]; exact List.Perm.refl _
    · simp only [hm, if_false]
      have hs := (sink_smallest_spec heap n index).1
      have hmn : sink_smallest heap n index < n := by
        rcases hs with h | h
        · exact absurd h hm
        · exact h.2.1
      exact (ih _ _ hmn).trans (map_range_swap_perm heap n index _ hlt hmn)

theorem sink_down_loop_ordered (size : Nat) :
    ∀ (fuel : Nat) (heap : Nat → HeapNode) (k : Nat), size ≤ k + fuel →
      OrderedBelow heap size k → HeapOrdered (heap_sink_down_loop fuel heap size k) size := by
  intro fuel
  induction fuel with
  | zero =>
    intro heap k hk hinv i hi0 hi
    exact hinv.1 i hi0 hi (by omega)
  | succ fuel ih =>
    intro heap k hk hinv
    unfold heap_sink_down_loop
    simp only []
    obtain ⟨hs1, hs2⟩ := sink_smallest_spec heap size k
    by_cases hm : sink_smallest heap size k = k
    · simp only [hm, if_true]
      rw [hm] at hs2
      intro i hi0 hi
      by_cases hq : (i - 1) / 2 = k
      · rw [hq]; exact hs2 i (by omega) hi
      · exact hinv.1 i hi0 hi hq
    · simp only [hm, if_false]
      rcases hs1 with h | ⟨hchild, hmn, hlt⟩
      · exact absurd h hm
      generalize sink_smallest heap size k = m at hm hs2 hchild hmn hlt
      have hmk : (m - 1) / 2 = k := by omega
      apply ih _ _ (by omega)
      constructor
      · intro i hi0 hi hip
        simp only [heap_swap_apply]
        by_cases hq : (i - 1) / 2 = k
        · have e1 : ¬ (k = m) := by omega
          have e2 : ¬ (i = k) := by omega
          simp only [hq, e1, e2, if_true, if_false]
          by_cases him : i = m
          · simp only [him, if_true]; exact le_of_lt hlt
          · simp only [him, if_false]; exact hs2 i (by omega) hi
        · have e0 : ¬ (i = m) := by omega
          simp only [hq, hip, e0, if_false]
          by_cases hik : i = k
          · simp only [hik, if_true]
            have := hinv.2 m (by omega) hmn hmk (by omega)
            rw [hik] at hi0 hq
            exact this
          · simp only [hik, if_false]; exact hinv.1 i hi0 hi hq
      · intro i hi0 hi hip hm0
        simp only [heap_swap_apply]
        have e1 : ¬ ((m - 1) / 2 = m) := by omega
        have e2 : ¬ (i = m) := by omega
        have e3 : ¬ (i = k) := by omega
        have e4 : ¬ (k = m) := by omega
        simp only [hmk, e1, e2, e3, e4, if_true, if_false]
        have := hinv.1 i hi0 hi (by omega)
        rw [hip] at this
        exact this

theorem heap_root_le (heap : Nat → HeapNode) (size : Nat) (h : HeapOrdered heap size) :
    ∀ i, i < size → (heap 0).distance ≤ (heap i).distance := by
  intro i
  induction i using Nat.strong_induction_on with
  | _ i ih =>
    intro hi
    by_cases h0 : i = 0
    · subst h0; exact le_refl _
    · exact le_trans (ih ((i - 1) / 2) (by omega) (by omega)) (h i (by omega) hi)

theorem heap_push_full (pq : PriorityQueue) (node distance : Int)
    (h : pq.capacity ≤ pq.size) : heap_push pq node distance = pq := by
  unfold heap_push
  simp [h]

theorem heap_push_spec (pq : PriorityQueue) (node distance : Int)
    (hcap : pq.size < pq.capacity) (hord : HeapOrdered pq.heap pq.size) :
    (heap_push pq node distance).size = pq.size + 1 ∧
    (heap_push pq node distance).capacity = pq.capacity ∧
    HeapOrdered (heap_push pq node distance).heap (heap_push pq node distance).size ∧
    (entries (heap_push pq node distance)).Perm (⟨node, distance⟩ :: entries pq) := by
  have hnot : ¬ (pq.size ≥ pq.capacity) := by omega
  unfold heap_push
  simp only [hnot, if_false, heap_bubble_up, entries]
  refine ⟨trivial, trivial, ?_, ?_⟩
  · apply bubble_up_loop_ordered _ _ _ _ (le_refl _) (by omega)
    constructor
    · intro i hi0 hi hik
      have e1 : i ≠ pq.size := hik
      have e2 : (i - 1) / 2 ≠ pq.size := by omega
      rw [Function.update_noteq e1, Function.update_noteq e2]
      exact hord i hi0 (by omega)
    · intro i hi0 hi hip _
      omega
  · refine (bubble_up_loop_perm (pq.size + 1) _ _ _ (by omega)).trans ?_
    rw [List.range_succ, List.map_append, List.map_singleton, Function.update_same]
    have : (List.range pq.size).map (Function.update pq.heap pq.size ⟨node, distance⟩) =
        (List.range pq.size).map pq.heap := by
      apply List.map_congr_left
      intro a ha
      rw [List.mem_range] at ha
      exact Function.update_noteq (by omega) _ _
    rw [this]
    exact List.perm_append_singleton _ _

theorem heap_pop_spec (pq : PriorityQueue) (hsize : 0 < pq.size)
    (hord : HeapOrdered pq.heap pq.size) :
    ∃ top pq1, heap_pop pq = some (top, pq1) ∧
      top = pq.heap 0 ∧
      pq1.size = pq.size - 1 ∧ pq1.capacity = pq.capacity ∧
      HeapOrdered pq1.heap pq1.size ∧
      (entries pq).Perm (top :: entries pq1) ∧
      ∀ e ∈ entries pq, top.distance ≤ e.distance := by
  have hmin : ∀ e ∈ entries pq, (pq.heap 0).distance ≤ e.distance := by
    intro e he
    simp only [entries, List.mem_map, List.mem_range] at he
    obtain ⟨i, hi, rfl⟩ := he
    exact heap_root_le pq.heap pq.size hord i hi
  have hne : ¬ (pq.size = 0) := by omega
  unfold heap_pop
  simp only [hne, if_false]
  by_cases h1 : pq.size - 1 > 0
  · simp only [h1, if_true]
    refine ⟨_, _, rfl, rfl, rfl, rfl, ?_, ?_, hmin⟩
    · simp only [heap_sink_down]
      apply sink_down_loop_ordered _ _ _ _ (by omega)
      constructor
      · intro i hi0 hi hip
        have e1 : i ≠ 0 := by omega
        have e2 : (i - 1) / 2 ≠ 0 := hip
        rw [Function.update_noteq e1, Function.update_noteq e2]
        exact hord i hi0 (by omega)
      · intro i _ _ _ h0
        omega
    · simp only [heap_sink_down, entries]
      refine List.Perm.trans ?_ (List.Perm.cons _ (sink_down_loop_perm _ _ _ 0 h1).symm)
      obtain ⟨m, hm⟩ : ∃ m, pq.size = m + 2 := ⟨pq.size - 2, by omega⟩
      rw [hm]
      rw [show m + 2 - 1 = m + 1 by omega]
      rw [List.range_succ (n := m + 1), List.map_append, List.map_singleton,
        List.range_succ_eq_map, List.map_cons, List.map_cons, Function.update_same,
        List.map_map, List.map_map]
      have : (List.range m).map (Function.update pq.heap 0 (pq.heap (m + 1)) ∘ Nat.succ) =
          (List.range m).map (pq.heap ∘ Nat.succ) := by
        apply List.map_congr_left
        intro a _
        simp only [Function.comp_apply]
        exact Function.update_noteq (Nat.succ_ne_zero a) _ _
      rw [this, List.cons_append]
      exact List.Perm.cons _ (List.perm_append_singleton _ _)
  · simp only [h1, if_false]
    refine ⟨_, _, rfl, rfl, rfl, rfl, ?_, ?_, hmin⟩
    · intro i hi0 hi
      simp only at hi
      omega
    · have h1' : pq.size = 1 := by omega
      simp only [entries, h1']
      simp [List.range_succ]

theorem heap_pop_empty (pq : PriorityQueue) (h : pq.size = 0) : heap_pop pq = none := by
  unfold heap_pop
  simp [h]

/-! ### The loop bounds are adequate

The bounded loops stop for the reason the C loops stop, never because the
bound ran out: any bound at least as large gives the same array. -/

theorem bubble_up_loop_bound :
    ∀ (fuel1 fuel2 : Nat) (heap : Nat → HeapNode) (index : Nat),
      index ≤ fuel1 → index ≤ fuel2 →
      heap_bubble_up_loop fuel1 heap index = heap_bubble_up_loop fuel2 heap index := by
  intro fuel1
  induction fuel1 with
  | zero =>
    intro fuel2 heap index h1 _
    have h0 : index = 0 := by omega
    subst h0
    cases fuel2 <;> simp [heap_bubble_up_loop]
  | succ fuel1 ih =>
    intro fuel2 heap index h1 h2
    cases fuel2 with
    | zero =>
      have h0 : index = 0 := by omega
      subst h0
      simp [heap_bubble_up_loop]
    | succ fuel2 =>
      simp only [heap_bubble_up_loop]
      by_cases hpos : index > 0
      · simp only [hpos, if_true]
        by_cases hge : (heap index).distance ≥ (heap ((index - 1) / 2)).distance
        · simp only [hge, if_true]
        · simp only [hge, if_false]
          exact ih fuel2 _ _ (by omega) (by omega)
      · simp only [hpos, if_false]

theorem sink_smallest_out_of_range (heap : Nat → HeapNode) (length index : Nat)
    (h : length ≤ index) : sink_smallest heap length index = index := by
  unfold sink_smallest
  simp only []
  rw [if_neg (fun hc => by omega), if_neg (fun hc => by omega)]

theorem sink_down_loop_bound :
    ∀ (fuel1 fuel2 : Nat) (heap : Nat → HeapNode) (length index : Nat),
      length ≤ index + fuel1 → length ≤ index + fuel2 →
      heap_sink_down_loop fuel1 heap length index =
        heap_sink_down_loop fuel2 heap length index := by
  intro fuel1
  induction fuel1 with
  | zero =>
    intro fuel2 heap length index h1 _
    have hs := sink_smallest_out_of_range heap length index (by omega)
    cases fuel2 <;> simp [heap_sink_down_loop, hs]
  | succ fuel1 ih =>
    intro fuel2 heap length index h1 h2
    cases fuel2 with
    | zero =>
      have hs := sink_smallest_out_of_range heap length index (by omega)
      simp [heap_sink_down_loop, hs]
    | succ fuel2 =>
      simp only [heap_sink_down_loop]
      by_cases hm : sink_smallest heap length index = index
      · simp only [hm, if_true]
      · simp only [hm, if_false]
        have hgt : index < sink_smallest heap length index := by
          rcases (sink_smallest_spec heap length index).1 with h | h
          · exact absurd h hm
          · omega
        exact ih fuel2 _ _ _ (by omega) (by omega)

/-! ## The search loop: frame facts -/

theorem heap_push_general (pq : PriorityQueue) (node distance : Int)
    (hsz : pq.size ≤ pq.capacity) (hord : HeapOrdered pq.heap pq.size) :
    (heap_push pq node distance).capacity = pq.capacity ∧
    (heap_push pq node distance).size ≤ pq.capacity ∧
    pq.size ≤ (heap_push pq node distance).size ∧
    (heap_push pq node distance).size ≤ pq.size + 1 ∧
    HeapOrdered (heap_push pq node distance).heap (heap_push pq node distance).size ∧
    (∀ x ∈ entries (heap_push pq node distance), x ∈ entries pq ∨ x = ⟨node, distance⟩) ∧
    (∀ x ∈ entries pq, x ∈ entries (heap_push pq node distance)) := by
  by_cases hfull : pq.capacity ≤ pq.size
  · rw [heap_push_full pq node distance hfull]
    exact ⟨rfl, hsz, le_refl _, Nat.le_succ _, hord, fun x hx => Or.inl hx, fun x hx => hx⟩
  · obtain ⟨h1, h2, h3, h4⟩ := heap_push_spec pq node distance (by omega) hord
    refine ⟨h2, by omega, by omega, by omega, h3, ?_, ?_⟩
    · intro x hx
      have := (h4.mem_iff).1 hx
      rcases List.mem_cons.1 this with h | h
      · exact Or.inr h
      · exact Or.inl h
    · intro x hx
      exact (h4.mem_iff).2 (List.mem_cons_of_mem _ hx)

theorem relax_edge_frame (u k : Int) (s : SearchState) (e : Edge) :
    (relax_edge u k s e).visited = s.visited ∧
    (relax_edge u k s e).iterations = s.iterations ∧
    (relax_edge u k s e).explored_nodes = s.explored_nodes ∧
    (relax_edge u k s e).explored_distances = s.explored_distances ∧
    (relax_edge u k s e).explored_count = s.explored_count ∧
    (relax_edge u k s e).destination_found = s.destination_found := by
  unfold relax_edge
  simp only []
  split_ifs <;> exact ⟨rfl, rfl, rfl, rfl, rfl, rfl⟩

theorem relax_edges_frame (u k : Int) (es : List Edge) :
    ∀ s : SearchState,
    (relax_edges u k es s).visited = s.visited ∧
    (relax_edges u k es s).iterations = s.iterations ∧
    (relax_edges u k es s).explored_nodes = s.explored_nodes ∧
    (relax_edges u k es s).explored_distances = s.explored_distances ∧
    (relax_edges u k es s).explored_count = s.explored_count ∧
    (relax_edges u k es s).destination_found = s.destination_found := by
  induction es with
  | nil => intro s; exact ⟨rfl, rfl, rfl, rfl, rfl, rfl⟩
  | cons e rest ih =>
    intro s
    obtain ⟨a1, a2, a3, a4, a5, a6⟩ := ih (relax_edge u k s e)
    obtain ⟨b1, b2, b3, b4, b5, b6⟩ := relax_edge_frame u k s e
    simp only [relax_edges]
    exact ⟨a1.trans b1, a2.trans b2, a3.trans b3, a4.trans b4, a5.trans b5, a6.trans b6⟩

/-- An invariant of the single-edge step is an invariant of the neighbour loop. -/
theorem relax_edges_induct (J : SearchState → Prop) (u k : Int) :
    ∀ (es : List Edge), (∀ s e, e ∈ es → J s → J (relax_edge u k s e)) →
      ∀ s, J s → J (relax_edges u k es s) := by
  intro es
  induction es with
  | nil => intro _ s hs; exact hs
  | cons e rest ih =>
    intro hJ s hs
    simp only [relax_edges]
    exact ih (fun s' e' he' => hJ s' e' (List.mem_cons_of_mem _ he')) _
      (hJ s e (List.mem_cons_self _ _) hs)

theorem explored_list_relax_edges (u k : Int) (es : List Edge) (s : SearchState) :
    explored_list (relax_edges u k es s) = explored_list s := by
  obtain ⟨_, _, h3, _, h5, _⟩ := relax_edges_frame u k es s
  simp only [explored_list, h3, h5]

theorem settle_fields (ws : Bool) (cap : Nat) (u k : Int) (s : SearchState) :
    (settle ws cap u k s).visited = Function.update s.visited u 1 ∧
    (settle ws cap u k s).iterations = s.iterations + 1 ∧
    (settle ws cap u k s).pq = s.pq ∧
    (settle ws cap u k s).distances = s.distances ∧
    (settle ws cap u k s).previous = s.previous ∧
    (settle ws cap u k s).destination_found = s.destination_found := by
  unfold settle
  simp only []
  split_ifs <;> exact ⟨rfl, rfl, rfl, rfl, rfl, rfl⟩

theorem explored_list_settle (ws : Bool) (cap : Nat) (u k : Int) (s : SearchState) :
    explored_list (settle ws cap u k s) =
      if ws = true ∧ s.explored_count < cap then explored_list s ++ [u] else explored_list s := by
  unfold settle
  simp only []
  split_ifs with h
  · simp only [explored_list, List.range_succ, List.map_append, List.map_singleton,
      Function.update_same]
    congr 1
    apply List.map_congr_left
    intro a ha
    rw [List.mem_range] at ha
    exact Function.update_noteq (by omega) _ _
  · rfl

theorem loop_body_eq (graph : Graph) (end_ : Int) (ws : Bool) (cap : Nat) (s : SearchState)
    (top : HeapNode) (pq1 : PriorityQueue) (h : heap_pop s.pq = some (top, pq1)) :
    loop_body graph end_ ws cap s =
      if s.visited top.node ≠ 0 then ({ s with pq := pq1 }, true)
      else if top.node = end_ then
        ({ settle ws cap top.node top.distance { s with pq := pq1 } with
            destination_found := true }, false)
      else
        (relax_edges top.node top.distance (graph top.node)
          (settle ws cap top.node top.distance { s with pq := pq1 }), true) := by
  unfold loop_body
  rw [h]

theorem settled_now_eq (s : SearchState) (top : HeapNode) (pq1 : PriorityQueue)
    (h : heap_pop s.pq = some (top, pq1)) :
    settled_now s = if s.visited top.node ≠ 0 then [] else [top] := by
  unfold settled_now
  rw [h]

theorem loop_body_found (graph : Graph) (end_ : Int) (ws : Bool) (cap : Nat) (s : SearchState)
    (hgo : (loop_body graph end_ ws cap s).2 = true) :
    (loop_body graph end_ ws cap s).1.destination_found = s.destination_found := by
  cases hpop : heap_pop s.pq with
  | none =>
    have : (loop_body graph end_ ws cap s).2 = false := by
      unfold loop_body
      rw [hpop]
    rw [this] at hgo
    exact absurd hgo Bool.false_ne_true
  | some r =>
    obtain ⟨top, pq1⟩ := r
    rw [loop_body_eq graph end_ ws cap s top pq1 hpop] at hgo ⊢
    by_cases hvis : s.visited top.node ≠ 0
    · rw [if_pos hvis]
    · rw [if_neg hvis] at hgo ⊢
      by_cases hend : top.node = end_
      · rw [if_pos hend] at hgo
        exact absurd hgo Bool.false_ne_true
      · rw [if_neg hend]
        rw [(relax_edges_frame _ _ _ _).2.2.2.2.2]
        exact (settle_fields _ _ _ _ _).2.2.2.2.2

/-- The loop rule: a property of (settle events so far, state) kept by every
trip of the loop body entered with the flag `destination_found` unset holds of
the state the loop ends in. -/
theorem search_loop_rule (graph : Graph) (end_ : Int) (ws : Bool) (cap : Nat)
    (Inv : List HeapNode → SearchState → Prop)
    (hstep : ∀ o s, Inv o s → s.destination_found = false → s.pq.size ≠ 0 →
      Inv (o ++ settled_now s) (loop_body graph end_ ws cap s).1) :
    ∀ (fuel : Nat) (o : List HeapNode) (s s1 : SearchState), Inv o s →
      s.destination_found = false →
      search_loop graph end_ ws cap fuel s = some s1 →
      Inv (o ++ settle_trace graph end_ ws cap fuel s) s1 := by
  intro fuel
  induction fuel with
  | zero =>
    intro o s s1 hinv _ hrun
    simp only [search_loop] at hrun
    split_ifs at hrun with hempty
    simp only [settle_trace, List.append_nil]
    cases hrun
    exact hinv
  | succ fuel ih =>
    intro o s s1 hinv hnf hrun
    simp only [search_loop] at hrun
    simp only [settle_trace]
    by_cases hempty : heap_is_empty s.pq = true
    · simp only [hempty, if_true] at hrun ⊢
      cases hrun
      simpa using hinv
    · simp only [hempty] at hrun ⊢
      have hsz : s.pq.size ≠ 0 := by
        intro h0
        apply hempty
        simp [heap_is_empty, h0]
      have hnext := hstep o s hinv hnf hsz
      by_cases hgo : (loop_body graph end_ ws cap s).2 = true
      · simp only [hgo, if_true] at hrun ⊢
        have hnf1 := (loop_body_found graph end_ ws cap s hgo).trans hnf
        have := ih _ _ _ hnext hnf1 hrun
        simpa [List.append_assoc] using this
      · simp only [hgo] at hrun ⊢
        have hrun1 : (loop_body graph end_ ws cap s).1 = s1 := by simpa using hrun
        rw [← hrun1]
        simpa using hnext

/-! ## Walks -/

theorem isWalk_append (graph : Graph) :
    ∀ (es fs : List Edge) (a b c : Int), IsWalk graph a es b → IsWalk graph b fs c →
      IsWalk graph a (es ++ fs) c := by
  intro es
  induction es with
  | nil =>
    intro fs a b c h1 h2
    simp only [IsWalk] at h1
    subst h1
    simpa using h2
  | cons e rest ih =>
    intro fs a b c h1 h2
    simp only [IsWalk, List.cons_append] at h1 ⊢
    exact ⟨h1.1, ih fs _ _ _ h1.2 h2⟩

theorem isWalk_snoc (graph : Graph) (es : List Edge) (a b : Int) (e : Edge)
    (h1 : IsWalk graph a es b) (he : e ∈ graph b) : IsWalk graph a (es ++ [e]) e.to_ :=
  isWalk_append graph es [e] a b e.to_ h1 (by simp [IsWalk, he])

theorem walk_weight_append (es fs : List Edge) :
    walk_weight (es ++ fs) = walk_weight es + walk_weight fs := by
  simp [walk_weight]

theorem walk_weight_cons (e : Edge) (es : List Edge) :
    walk_weight (e :: es) = e.dist + walk_weight es := by
  simp [walk_weight]

/-! ## The search loop: base invariant -/

theorem relax_edge_base (graph : Graph) (n : Nat) (start : Int) (ws : Bool) (cap : Nat)
    (hg : GraphInRange graph n) (u k : Int) (hu0 : 0 ≤ u) (hun : u < n)
    (hreach : ∃ es, IsWalk graph start es u) (o : List HeapNode) (ho : o ≠ [])
    (s : SearchState) (e : Edge)
    (he : e ∈ graph u) (hinv : BaseInv graph n start ws cap o s) :
    BaseInv graph n start ws cap o (relax_edge u k s e) := by
  unfold relax_edge
  simp only []
  split_ifs with hlt
  · obtain ⟨h1, h2, _, _, h5, h6, _⟩ :=
      heap_push_general s.pq e.to_ (k + e.dist) hinv.size_le hinv.ordered
    have hmax := hinv.dist_le e.to_
    have hlower : ∀ v, Function.update s.distances e.to_ (k + e.dist) v ≤ s.distances v := by
      intro v
      by_cases hv : v = e.to_
      · subst hv; rw [Function.update_same]; exact le_of_lt hlt
      · rw [Function.update_noteq hv]
    refine ⟨h1.trans hinv.cap_eq, by rw [h1]; exact h2, h5, ?_, ?_, hinv.order_nodup,
      hinv.order_mem, hinv.order_range, hinv.order_reach, hinv.iters, hinv.trace, ?_, ?_, ?_,
      ?_⟩
    · intro x hx
      rcases h6 x hx with h | h
      · exact hinv.heap_range x h
      · subst h; exact hg u hu0 hun e he
    · intro x hx
      rcases h6 x hx with h | h
      · exact hinv.heap_reach x h
      · subst h
        obtain ⟨es, hes⟩ := hreach
        exact ⟨es ++ [e], isWalk_snoc graph es start u e hes he⟩
    · intro v
      exact le_trans (hlower v) (hinv.dist_le v)
    · intro x hx
      rcases h6 x hx with h | h
      · exact lt_of_le_of_lt (hlower _) (hinv.heap_lt x h)
      · subst h
        show Function.update s.distances e.to_ (k + e.dist) e.to_ < DBL_MAX
        rw [Function.update_same]
        exact lt_of_lt_of_le hlt hmax
    · intro v hv
      exact lt_of_le_of_lt (hlower _) (hinv.order_lt v hv)
    · rcases hinv.first with h | h
      · exact absurd h.1 ho
      · exact Or.inr h
  · exact hinv

theorem base_settle (graph : Graph) (n : Nat) (start : Int) (ws : Bool) (cap : Nat)
    (o : List HeapNode) (s : SearchState) (hinv : BaseInv graph n start ws cap o s)
    (top : HeapNode) (pq1 : PriorityQueue) (hpop : heap_pop s.pq = some (top, pq1))
    (hv0 : s.visited top.node = 0) :
    BaseInv graph n start ws cap (o ++ [top])
      (settle ws cap top.node top.distance { s with pq := pq1 }) := by
  have hsz : 0 < s.pq.size := by
    rcases Nat.eq_zero_or_pos s.pq.size with h | h
    · rw [heap_pop_empty s.pq h] at hpop; exact absurd hpop (by simp)
    · exact h
  obtain ⟨top', pq1', hpop', _, hsize1, hcap1, hord1, hperm, _⟩ :=
    heap_pop_spec s.pq hsz hinv.ordered
  rw [hpop] at hpop'
  simp only [Option.some.injEq, Prod.mk.injEq] at hpop'
  obtain ⟨rfl, rfl⟩ := hpop'
  have hsub : ∀ x ∈ entries pq1, x ∈ entries s.pq :=
    fun x hx => hperm.mem_iff.2 (List.mem_cons_of_mem _ hx)
  have htop : top ∈ entries s.pq := hperm.mem_iff.2 (List.mem_cons_self _ _)
  have hnot : top.node ∉ o.map (fun e => e.node) := fun h => (hinv.order_mem _).1 h hv0
  obtain ⟨f1, f2, f3, f4, _, _⟩ := settle_fields ws cap top.node top.distance { s with pq := pq1 }
  refine ⟨?_, ?_, ?_, ?_, ?_, ?_, ?_, ?_, ?_, ?_, ?_, ?_, ?_, ?_, ?_⟩
  · rw [f3]; exact hcap1.trans hinv.cap_eq
  · rw [f3]; show pq1.size ≤ pq1.capacity
    rw [hsize1, hcap1]; exact le_trans (Nat.sub_le _ _) hinv.size_le
  · rw [f3]; exact hord1
  · rw [f3]; exact fun x hx => hinv.heap_range x (hsub x hx)
  · rw [f3]; exact fun x hx => hinv.heap_reach x (hsub x hx)
  · rw [List.map_append, List.map_singleton]
    exact List.Nodup.append hinv.order_nodup (List.nodup_singleton _)
      (by simpa using hnot)
  · intro v
    rw [f1, List.map_append, List.map_singleton, List.mem_append, List.mem_singleton]
    by_cases hv : v = top.node
    · subst hv; simp
    · rw [Function.update_noteq hv]
      simp only [hv, or_false]
      exact hinv.order_mem v
  · intro v hv
    rw [List.map_append, List.map_singleton, List.mem_append, List.mem_singleton] at hv
    rcases hv with hv | hv
    · exact hinv.order_range v hv
    · subst hv; exact hinv.heap_range top htop
  · intro v hv
    rw [List.map_append, List.map_singleton, List.mem_append, List.mem_singleton] at hv
    rcases hv with hv | hv
    · exact hinv.order_reach v hv
    · subst hv; exact hinv.heap_reach top htop
  · rw [f2, List.length_append, List.length_singleton]
    exact congrArg (· + 1) hinv.iters
  · rw [explored_list_settle]
    have htr := hinv.trace
    have hcount : ({ s with pq := pq1 } : SearchState).explored_count = s.explored_count := rfl
    have hlist : explored_list ({ s with pq := pq1 } : SearchState) = explored_list s := rfl
    rw [hcount, hlist]
    have hlen : s.explored_count = (explored_list s).length := by
      simp [explored_list]
    by_cases hws : ws = true
    · simp only [hws, if_true, true_and] at htr ⊢
      rw [List.map_append, List.map_singleton]
      rw [htr, List.length_take, List.length_map] at hlen
      by_cases hc : s.explored_count < cap
      · simp only [hc, if_true]
        have hol : o.length < cap := by omega
        rw [htr, List.take_of_length_le (by simp; omega),
          List.take_of_length_le (by simp; omega)]
      · simp only [hc, if_false]
        have hol : cap ≤ o.length := by omega
        rw [htr, List.take_append_of_le_length (by simp; omega)]
    · simp only [hws, if_false, false_and] at htr ⊢
      exact htr
  · rw [f4]; exact hinv.dist_le
  · rw [f3, f4]; exact fun x hx => hinv.heap_lt x (hsub x hx)
  · intro v hv
    rw [f4]
    rw [List.map_append, List.map_singleton, List.mem_append, List.mem_singleton] at hv
    rcases hv with hv | hv
    · exact hinv.order_lt v hv
    · subst hv; exact hinv.heap_lt top htop
  · right
    rcases hinv.first with h | ⟨rest, h⟩
    · refine ⟨[], ?_⟩
      rw [h.2, List.mem_singleton] at htop
      rw [h.1, htop, List.nil_append]
    · exact ⟨rest ++ [top], by rw [h, List.cons_append]⟩

theorem relax_edges_base (graph : Graph) (n : Nat) (start : Int) (ws : Bool) (cap : Nat)
    (hg : GraphInRange graph n) (u k : Int) (hu0 : 0 ≤ u) (hun : u < n)
    (hreach : ∃ es, IsWalk graph start es u) (o : List HeapNode) (ho : o ≠ [])
    (s : SearchState) (hinv : BaseInv graph n start ws cap o s) :
    BaseInv graph n start ws cap o (relax_edges u k (graph u) s) :=
  relax_edges_induct (BaseInv graph n start ws cap o) u k (graph u)
    (fun s' e he hs' => relax_edge_base graph n start ws cap hg u k hu0 hun hreach o ho s' e he hs')
    s hinv

theorem base_step (graph : Graph) (n : Nat) (start end_ : Int) (ws : Bool) (cap : Nat)
    (hg : GraphInRange graph n) (o : List HeapNode) (s : SearchState)
    (hinv : BaseInv graph n start ws cap o s) (hsz : s.pq.size ≠ 0) :
    BaseInv graph n start ws cap (o ++ settled_now s) (loop_body graph end_ ws cap s).1 := by
  obtain ⟨top, pq1, hpop, _, hsize1, hcap1, hord1, hperm, _⟩ :=
    heap_pop_spec s.pq (Nat.pos_of_ne_zero hsz) hinv.ordered
  have hsub : ∀ x ∈ entries pq1, x ∈ entries s.pq :=
    fun x hx => hperm.mem_iff.2 (List.mem_cons_of_mem _ hx)
  have htop : top ∈ entries s.pq := hperm.mem_iff.2 (List.mem_cons_self _ _)
  rw [loop_body_eq graph end_ ws cap s top pq1 hpop, settled_now_eq s top pq1 hpop]
  by_cases hvis : s.visited top.node ≠ 0
  · rw [if_pos hvis, if_pos hvis, List.append_nil]
    refine ⟨hcap1.trans hinv.cap_eq, ?_, hord1, fun x hx => hinv.heap_range x (hsub x hx),
      fun x hx => hinv.heap_reach x (hsub x hx), hinv.order_nodup, hinv.order_mem,
      hinv.order_range, hinv.order_reach, hinv.iters, hinv.trace, hinv.dist_le,
      fun x hx => hinv.heap_lt x (hsub x hx), hinv.order_lt, ?_⟩
    · show pq1.size ≤ pq1.capacity
      rw [hsize1, hcap1]; exact le_trans (Nat.sub_le _ _) hinv.size_le
    · rcases hinv.first with h | h
      · exfalso
        have := (hinv.order_mem top.node).2 hvis
        rw [h.1] at this
        simp at this
      · exact Or.inr h
  · rw [if_neg hvis, if_neg hvis]
    have hsettled := base_settle graph n start ws cap o s hinv top pq1 hpop (not_not.1 hvis)
    by_cases hend : top.node = end_
    · rw [if_pos hend]
      exact ⟨hsettled.cap_eq, hsettled.size_le, hsettled.ordered, hsettled.heap_range,
        hsettled.heap_reach, hsettled.order_nodup, hsettled.order_mem, hsettled.order_range,
        hsettled.order_reach, hsettled.iters, hsettled.trace, hsettled.dist_le,
        hsettled.heap_lt, hsettled.order_lt, hsettled.first⟩
    · rw [if_neg hend]
      obtain ⟨r0, rn⟩ := hinv.heap_range top htop
      exact relax_edges_base graph n start ws cap hg top.node top.distance r0 rn
        (hinv.heap_reach top htop) _ (by simp) _ hsettled

/-- The three ways through the loop body, with what the pop delivered. -/
theorem loop_body_cases (graph : Graph) (end_ : Int) (ws : Bool) (cap : Nat) (s : SearchState)
    (hsz : s.pq.size ≠ 0) (hord : HeapOrdered s.pq.heap s.pq.size) :
    ∃ top pq1, heap_pop s.pq = some (top, pq1) ∧
      pq1.size = s.pq.size - 1 ∧ pq1.capacity = s.pq.capacity ∧
      HeapOrdered pq1.heap pq1.size ∧
      (entries s.pq).Perm (top :: entries pq1) ∧
      (∀ e ∈ entries s.pq, top.distance ≤ e.distance) ∧
      ((s.visited top.node ≠ 0 ∧
          loop_body graph end_ ws cap s = ({ s with pq := pq1 }, true) ∧
          settled_now s = []) ∨
        (s.visited top.node = 0 ∧ top.node = end_ ∧
          loop_body graph end_ ws cap s =
            ({ settle ws cap top.node top.distance { s with pq := pq1 } with
                destination_found := true }, false) ∧
          settled_now s = [top]) ∨
        (s.visited top.node = 0 ∧ top.node ≠ end_ ∧
          loop_body graph end_ ws cap s =
            (relax_edges top.node top.distance (graph top.node)
              (settle ws cap top.node top.distance { s with pq := pq1 }), true) ∧
          settled_now s = [top])) := by
  obtain ⟨top, pq1, hpop, _, hsize1, hcap1, hord1, hperm, hmin⟩ :=
    heap_pop_spec s.pq (Nat.pos_of_ne_zero hsz) hord
  refine ⟨top, pq1, hpop, hsize1, hcap1, hord1, hperm, hmin, ?_⟩
  rw [loop_body_eq graph end_ ws cap s top pq1 hpop, settled_now_eq s top pq1 hpop]
  by_cases hvis : s.visited top.node ≠ 0
  · left
    rw [if_pos hvis, if_pos hvis]
    exact ⟨hvis, rfl, rfl⟩
  · right
    rw [if_neg hvis, if_neg hvis]
    by_cases hend : top.node = end_
    · left
      rw [if_pos hend]
      exact ⟨not_not.1 hvis, hend, rfl, rfl⟩
    · right
      rw [if_neg hend]
      exact ⟨not_not.1 hvis, hend, rfl, rfl⟩

theorem found_step (graph : Graph) (end_ : Int) (ws : Bool) (cap : Nat)
    (o : List HeapNode) (s : SearchState) (hord : HeapOrdered s.pq.heap s.pq.size)
    (hinv : FoundInv end_ o s) (hnf : s.destination_found = false) (hsz : s.pq.size ≠ 0) :
    FoundInv end_ (o ++ settled_now s) (loop_body graph end_ ws cap s).1 := by
  have hunv : s.visited end_ = 0 := by
    by_contra h
    have := hinv.found.2 h
    rw [hnf] at this
    exact Bool.false_ne_true this
  obtain ⟨top, pq1, _, _, _, _, _, _, hcase⟩ := loop_body_cases graph end_ ws cap s hsz hord
  rcases hcase with ⟨_, hb, hs⟩ | ⟨_, hend, hb, hs⟩ | ⟨_, hend, hb, hs⟩
  · rw [hb, hs, List.append_nil]
    exact ⟨hinv.found, hinv.last⟩
  · rw [hb, hs]
    have hv : (settle ws cap top.node top.distance { s with pq := pq1 }).visited end_ ≠ 0 := by
      rw [(settle_fields _ _ _ _ _).1, hend, Function.update_same]
      decide
    exact ⟨⟨fun _ => hv, fun _ => rfl⟩, fun _ => ⟨o, top, rfl, hend⟩⟩
  · rw [hb, hs]
    have hv : (relax_edges top.node top.distance (graph top.node)
        (settle ws cap top.node top.distance { s with pq := pq1 })).visited end_ = 0 := by
      rw [(relax_edges_frame _ _ _ _).1, (settle_fields _ _ _ _ _).1,
        Function.update_noteq (Ne.symm hend)]
      exact hunv
    have hf : (relax_edges top.node top.distance (graph top.node)
        (settle ws cap top.node top.distance { s with pq := pq1 })).destination_found = false := by
      rw [(relax_edges_frame _ _ _ _).2.2.2.2.2, (settle_fields _ _ _ _ _).2.2.2.2.2]
      exact hnf
    refine ⟨⟨fun h => ?_, fun h => absurd hv h⟩, fun h => absurd hv h⟩
    rw [hf] at h
    exact absurd h Bool.false_ne_true

theorem nodup_in_range_length (l : List Int) (n : Nat) (hnd : l.Nodup)
    (hr : ∀ v ∈ l, 0 ≤ v ∧ v < (n : Int)) : l.length ≤ n := by
  have hsub : l.toFinset ⊆ Finset.Ico (0 : Int) n := by
    intro v hv
    rw [List.mem_toFinset] at hv
    rw [Finset.mem_Ico]
    exact hr v hv
  have hcard := Finset.card_le_card hsub
  rw [List.toFinset_card_of_nodup hnd, Int.card_Ico] at hcard
  simpa using hcard

theorem base_order_length (graph : Graph) (n : Nat) (start : Int) (ws : Bool) (cap : Nat)
    (o : List HeapNode) (s : SearchState) (hinv : BaseInv graph n start ws cap o s) :
    o.length ≤ n := by
  have := nodup_in_range_length _ n hinv.order_nodup hinv.order_range
  simpa using this

/-- Every trip that continues the loop lowers the variant
`size + (2 n + 1) * (n - settled)`. -/
theorem loop_body_progress (graph : Graph) (n : Nat) (start end_ : Int) (ws : Bool) (cap : Nat)
    (hg : GraphInRange graph n) (o : List HeapNode) (s : SearchState)
    (hinv : BaseInv graph n start ws cap o s) (hsz : s.pq.size ≠ 0)
    (hgo : (loop_body graph end_ ws cap s).2 = true) :
    (loop_body graph end_ ws cap s).1.pq.size +
        (2 * n + 1) * (n - (o ++ settled_now s).length) <
      s.pq.size + (2 * n + 1) * (n - o.length) := by
  have hnext := base_step graph n start end_ ws cap hg o s hinv hsz
  have hlen := base_order_length graph n start ws cap _ _ hnext
  have hsize := hnext.size_le
  rw [hnext.cap_eq] at hsize
  obtain ⟨top, pq1, _, hsz1, _, _, _, _, hcase⟩ :=
    loop_body_cases graph end_ ws cap s hsz hinv.ordered
  rcases hcase with ⟨_, hb, hs⟩ | ⟨_, _, hb, _⟩ | ⟨_, _, _, hs⟩
  · rw [hb, hs, List.append_nil]
    show pq1.size + _ < _
    omega
  · rw [hb] at hgo
    exact absurd hgo Bool.false_ne_true
  · rw [hs] at hlen ⊢
    rw [List.length_append, List.length_singleton] at hlen ⊢
    obtain ⟨a, ha⟩ : ∃ a, n - o.length = a + 1 := ⟨n - o.length - 1, by omega⟩
    have ha2 : n - (o.length + 1) = a := by omega
    rw [ha, ha2, Nat.mul_succ]
    omega

/-- With fuel at least the variant, the main loop ends. -/
theorem search_loop_terminates (graph : Graph) (n : Nat) (start end_ : Int) (ws : Bool)
    (cap : Nat) (hg : GraphInRange graph n) :
    ∀ (fuel : Nat) (o : List HeapNode) (s : SearchState),
      BaseInv graph n start ws cap o s →
      s.pq.size + (2 * n + 1) * (n - o.length) ≤ fuel →
      ∃ s1, search_loop graph end_ ws cap fuel s = some s1 := by
  intro fuel
  induction fuel with
  | zero =>
    intro o s _ hfuel
    have h0 : s.pq.size = 0 := by omega
    exact ⟨s, by simp [search_loop, heap_is_empty, h0]⟩
  | succ fuel ih =>
    intro o s hinv hfuel
    simp only [search_loop]
    by_cases hempty : heap_is_empty s.pq = true
    · exact ⟨s, by simp [hempty]⟩
    · simp only [hempty]
      have hsz : s.pq.size ≠ 0 := by
        intro h0
        apply hempty
        simp [heap_is_empty, h0]
      by_cases hgo : (loop_body graph end_ ws cap s).2 = true
      · simp only [hgo, if_true]
        have hprog := loop_body_progress graph n start end_ ws cap hg o s hinv hsz hgo
        exact ih _ _ (base_step graph n start end_ ws cap hg o s hinv hsz) (by omega)
      · exact ⟨(loop_body graph end_ ws cap s).1, by simp [hgo]⟩

theorem DBL_MAX_pos : 0 < DBL_MAX := by decide

theorem init_base (graph : Graph) (n : Nat) (start : Int) (ws : Bool) (cap : Nat)
    (h0 : 0 ≤ start) (hn : start < n) :
    BaseInv graph n start ws cap [] (init_state n start) ∧
    (init_state n start).pq.size = 1 ∧
    entries (init_state n start).pq = [⟨start, 0⟩] := by
  have hpos : 0 < n := by omega
  obtain ⟨h1, h2, h3, h4⟩ := heap_push_spec (create_priority_queue (n * 2)) start 0
    (by simp only [create_priority_queue]; omega)
    (by intro i _ hi; simp only [create_priority_queue] at hi; omega)
  have hent : entries (heap_push (create_priority_queue (n * 2)) start 0) = [⟨start, 0⟩] := by
    have : entries (create_priority_queue (n * 2)) = [] := by
      simp [entries, create_priority_queue]
    rw [this] at h4
    exact List.perm_singleton.1 h4
  have hsize : (heap_push (create_priority_queue (n * 2)) start 0).size = 1 := by
    rw [h1]; rfl
  refine ⟨⟨?_, ?_, ?_, ?_, ?_, ?_, ?_, ?_, ?_, ?_, ?_, ?_, ?_, ?_, Or.inl ⟨rfl, hent⟩⟩, hsize, hent⟩
  · exact h2
  · show (heap_push (create_priority_queue (n * 2)) start 0).size ≤
      (heap_push (create_priority_queue (n * 2)) start 0).capacity
    rw [hsize, h2]
    simp only [create_priority_queue]
    omega
  · exact h3
  · intro e he
    have he' : e ∈ entries (heap_push (create_priority_queue (n * 2)) start 0) := he
    rw [hent, List.mem_singleton] at he'
    subst he'
    exact ⟨h0, hn⟩
  · intro e he
    have he' : e ∈ entries (heap_push (create_priority_queue (n * 2)) start 0) := he
    rw [hent, List.mem_singleton] at he'
    subst he'
    exact ⟨[], rfl⟩
  · exact List.nodup_nil
  · intro v
    simp [init_state]
  · intro v hv
    simp at hv
  · intro v hv
    simp at hv
  · rfl
  · simp [explored_list, init_state]
  · intro v
    show Function.update (fun _ => DBL_MAX) start 0 v ≤ DBL_MAX
    by_cases hv : v = start
    · subst hv
      rw [Function.update_same]
      exact le_of_lt DBL_MAX_pos
    · rw [Function.update_noteq hv]
  · intro e he
    have he' : e ∈ entries (heap_push (create_priority_queue (n * 2)) start 0) := he
    rw [hent, List.mem_singleton] at he'
    subst he'
    show Function.update (fun _ => DBL_MAX) start 0 start < DBL_MAX
    rw [Function.update_same]
    exact DBL_MAX_pos
  · intro v hv
    simp at hv

/-! ## Whole searches -/

theorem dijkstra_search_eq (fuel : Nat) (graph : Graph) (n : Nat) (start end_ : Int)
    (ws : Bool) :
    dijkstra_search fuel graph n start end_ ws =
      search_loop graph end_ ws (trace_capacity ws) fuel (init_state n start) := rfl

theorem settle_order_eq (fuel : Nat) (graph : Graph) (n : Nat) (start end_ : Int)
    (ws : Bool) :
    settle_order fuel graph n start end_ ws =
      settle_trace graph end_ ws (trace_capacity ws) fuel (init_state n start) := rfl

theorem init_variant (n : Nat) (start : Int) (h0 : 0 ≤ start) (hn : start < n) :
    (init_state n start).pq.size + (2 * n + 1) * (n - ([] : List HeapNode).length) ≤
      enough_fuel n := by
  have h := (init_base (fun _ => []) n start false 0 h0 hn).2.1
  rw [h]
  simp only [List.length_nil, Nat.sub_zero, enough_fuel]
  omega

theorem search_loop_fuel_mono (graph : Graph) (end_ : Int) (ws : Bool) (cap : Nat) :
    ∀ (fuel : Nat) (s s1 : SearchState),
      search_loop graph end_ ws cap fuel s = some s1 →
      ∀ fuel2, fuel ≤ fuel2 → search_loop graph end_ ws cap fuel2 s = some s1 := by
  intro fuel
  induction fuel with
  | zero =>
    intro s s1 h fuel2 _
    simp only [search_loop] at h
    split_ifs at h with hempty
    cases fuel2 with
    | zero => simp [search_loop, hempty, h]
    | succ f => simp [search_loop, hempty, h]
  | succ fuel ih =>
    intro s s1 h fuel2 hle
    obtain ⟨f2, rfl⟩ : ∃ f2, fuel2 = f2 + 1 := ⟨fuel2 - 1, by omega⟩
    simp only [search_loop] at h ⊢
    by_cases hempty : heap_is_empty s.pq = true
    · simpa [hempty] using h
    · simp only [hempty] at h ⊢
      by_cases hgo : (loop_body graph end_ ws cap s).2 = true
      · simp only [hgo, if_true] at h ⊢
        exact ih _ _ h f2 (by omega)
      · simpa [hgo] using h

/-- Every search with a valid source and in-range edges ends, and the base
facts hold of the state it ends in, together with any further property that
the loop body keeps. -/
theorem search_invariant (graph : Graph) (n : Nat) (start end_ : Int) (ws : Bool)
    (hg : GraphInRange graph n) (hs : ValidNode n start)
    (Extra : List HeapNode → SearchState → Prop) (hinit : Extra [] (init_state n start))
    (hstep : ∀ o s, BaseInv graph n start ws (trace_capacity ws) o s → FoundInv end_ o s →
      Extra o s → s.destination_found = false → s.pq.size ≠ 0 →
      Extra (o ++ settled_now s) (loop_body graph end_ ws (trace_capacity ws) s).1)
    (fuel : Nat) (hfuel : enough_fuel n ≤ fuel) :
    ∃ s1, dijkstra_search fuel graph n start end_ ws = some s1 ∧
      BaseInv graph n start ws (trace_capacity ws)
        (settle_order fuel graph n start end_ ws) s1 ∧
      FoundInv end_ (settle_order fuel graph n start end_ ws) s1 ∧
      Extra (settle_order fuel graph n start end_ ws) s1 := by
  obtain ⟨hbase, _, _⟩ := init_base graph n start ws (trace_capacity ws) hs.1 hs.2
  obtain ⟨s1, hrun⟩ := search_loop_terminates graph n start end_ ws (trace_capacity ws) hg
    fuel [] (init_state n start) hbase (le_trans (init_variant n start hs.1 hs.2) hfuel)
  refine ⟨s1, hrun, ?_⟩
  have hfound0 : FoundInv end_ [] (init_state n start) :=
    ⟨⟨fun h => absurd h Bool.false_ne_true, fun h => absurd rfl h⟩, fun h => absurd rfl h⟩
  have := search_loop_rule graph end_ ws (trace_capacity ws)
    (fun o s => BaseInv graph n start ws (trace_capacity ws) o s ∧ FoundInv end_ o s ∧
      Extra o s)
    (fun o s hinv hnf hsz =>
      ⟨base_step graph n start end_ ws _ hg o s hinv.1 hsz,
        found_step graph end_ ws _ o s hinv.1.ordered hinv.2.1 hnf hsz,
        hstep o s hinv.1 hinv.2.1 hinv.2.2 hnf hsz⟩)
    fuel [] (init_state n start) s1 ⟨hbase, hfound0, hinit⟩ rfl hrun
  simpa [settle_order_eq] using this

theorem search_base (graph : Graph) (n : Nat) (start end_ : Int) (ws : Bool)
    (hg : GraphInRange graph n) (hs : ValidNode n start) (fuel : Nat)
    (hfuel : enough_fuel n ≤ fuel) :
    ∃ s1, dijkstra_search fuel graph n start end_ ws = some s1 ∧
      BaseInv graph n start ws (trace_capacity ws)
        (settle_order fuel graph n start end_ ws) s1 ∧
      FoundInv end_ (settle_order fuel graph n start end_ ws) s1 := by
  obtain ⟨s1, h1, h2, h3, _⟩ := search_invariant graph n start end_ ws hg hs
    (fun _ _ => True) trivial (fun _ _ _ _ _ _ _ => trivial) fuel hfuel
  exact ⟨s1, h1, h2, h3⟩

theorem finish_not_found (fuel : Nat) (end_ : Int) (ws : Bool) (s : SearchState)
    (h : s.destination_found = false) :
    finish fuel end_ ws s =
      some { path := none
             path_length := 0
             distance := DBL_MAX
             explored :=
               if ws = true ∧ s.explored_count > 0 then some (explored_list s) else none
             explored_count := s.explored_count
             iterations := s.iterations } := by
  unfold finish
  simp [h, explored_list]

theorem finish_found (fuel : Nat) (end_ : Int) (ws : Bool) (s : SearchState) (len : Nat)
    (h : s.destination_found = true) (hd : s.distances end_ ≠ DBL_MAX)
    (hc : count_path s.previous fuel end_ 0 = some len) :
    finish fuel end_ ws s =
      some { path := some (build_path s.previous len end_ [])
             path_length := len
             distance := s.distances end_
             explored :=
               if ws = true ∧ s.explored_count > 0 then some (explored_list s) else none
             explored_count := s.explored_count
             iterations := s.iterations } := by
  unfold finish
  simp [h, hd, hc, explored_list]

/-- A search whose target is not a reachable node of the graph ends without
`destination_found` and returns the no-path result. -/
theorem no_path_result (graph : Graph) (n : Nat) (start end_ : Int) (ws : Bool)
    (hg : GraphInRange graph n) (hs : ValidNode n start)
    (hno : ¬ (ValidNode n end_ ∧ ∃ es, IsWalk graph start es end_))
    (fuel : Nat) (hfuel : enough_fuel n ≤ fuel) :
    ∃ r, dijkstra_path_c fuel graph n start end_ ws = some r ∧
      r.path = none ∧ r.path_length = 0 ∧ r.distance = DBL_MAX := by
  obtain ⟨s1, hrun, hbase, hfound⟩ := search_base graph n start end_ ws hg hs fuel hfuel
  have hnf : s1.destination_found = false := by
    cases hf : s1.destination_found with
    | false => rfl
    | true =>
      exfalso
      have hv := hfound.found.1 hf
      have hmem := (hbase.order_mem end_).2 hv
      exact hno ⟨hbase.order_range _ hmem, hbase.order_reach _ hmem⟩
  have hres := finish_not_found fuel end_ ws s1 hnf
  have hrun2 : dijkstra_path_c fuel graph n start end_ ws = finish fuel end_ ws s1 := by
    unfold dijkstra_path_c
    rw [hrun]
  rw [← hrun2] at hres
  exact ⟨_, hres, rfl, rfl, rfl⟩

/-! ## The search loop with non-negative weights: predecessor chains -/

theorem relax_edge_chain (graph : Graph) (start : Int) (u k : Int) (o : List HeapNode)
    (s : SearchState) (e : Edge) (he : e ∈ graph u) (hw : 0 ≤ e.dist) (hk0 : 0 ≤ k)
    (hu : u ∈ o.map (fun e => e.node)) (hk : ∀ x ∈ o, x.distance ≤ k)
    (hsz : s.pq.size ≤ s.pq.capacity) (hord : HeapOrdered s.pq.heap s.pq.size)
    (hinv : ChainInv graph start o s) :
    ChainInv graph start o (relax_edge u k s e) := by
  unfold relax_edge
  simp only []
  split_ifs with hlt
  · obtain ⟨_, _, _, _, _, h6, _⟩ := heap_push_general s.pq e.to_ (k + e.dist) hsz hord
    have hnotin : e.to_ ∉ o.map (fun e => e.node) := by
      intro hmem
      obtain ⟨x, hx, hxe⟩ := List.mem_map.1 hmem
      have h1 := hinv.order_dist x hx
      have h2 := hk x hx
      have hxe' : x.node = e.to_ := hxe
      rw [hxe'] at h1
      omega
    have hnes : e.to_ ≠ start := by
      intro h
      have := hinv.start_dist
      rw [← h] at this
      omega
    have hlower : ∀ v, Function.update s.distances e.to_ (k + e.dist) v ≤ s.distances v := by
      intro v
      by_cases hv : v = e.to_
      · subst hv; rw [Function.update_same]; exact le_of_lt hlt
      · rw [Function.update_noteq hv]
    refine ⟨?_, ?_, ?_, ?_, hinv.order_keys, ?_, ?_, ?_, ?_, ?_⟩
    · intro x hx
      rcases h6 x hx with h | h
      · exact hinv.key_nonneg x h
      · subst h; show 0 ≤ k + e.dist; omega
    · intro x hx
      rcases h6 x hx with h | h
      · exact le_trans (hlower _) (hinv.key_ge x h)
      · subst h
        show Function.update s.distances e.to_ (k + e.dist) e.to_ ≤ k + e.dist
        rw [Function.update_same]
    · intro x hx
      exact le_trans (hlower _) (hinv.order_dist x hx)
    · intro x hx y hy
      rcases h6 y hy with h | h
      · exact hinv.order_le_heap x hx y h
      · subst h
        have := hk x hx
        show x.distance ≤ k + e.dist
        omega
    · show Function.update s.distances e.to_ (k + e.dist) start = 0
      rw [Function.update_noteq (Ne.symm hnes)]
      exact hinv.start_dist
    · show Function.update s.previous e.to_ u start = -1
      rw [Function.update_noteq (Ne.symm hnes)]
      exact hinv.start_prev
    · intro x hx
      show x.node = start ∨ Function.update s.previous e.to_ u x.node ∈ _
      by_cases hxe : x.node = e.to_
      · right; rw [hxe, Function.update_same]; exact hu
      · rw [Function.update_noteq hxe]
        rcases h6 x hx with h | h
        · exact hinv.heap_prev x h
        · subst h; exact absurd rfl hxe
    · intro v
      show Function.update s.previous e.to_ u v ≠ -1 →
        Function.update s.previous e.to_ u v ∈ _ ∧
          HasEdge graph (Function.update s.previous e.to_ u v) v
      by_cases hv : v = e.to_
      · subst hv
        rw [Function.update_same]
        intro _
        exact ⟨hu, e, he, rfl⟩
      · rw [Function.update_noteq hv]
        exact hinv.prev_edge v
    · intro v hv hvs
      show Function.update s.previous e.to_ u v ∈ _ ∧
        List.indexOf (Function.update s.previous e.to_ u v) _ < _
      have hne : v ≠ e.to_ := fun h => hnotin (h ▸ hv)
      rw [Function.update_noteq hne]
      exact hinv.chain v hv hvs
  · exact hinv

theorem chain_step (graph : Graph) (n : Nat) (start end_ : Int) (ws : Bool) (cap : Nat)
    (hg : GraphInRange graph n) (hw : NonNegWeights graph n) (o : List HeapNode)
    (s : SearchState) (hbase : BaseInv graph n start ws cap o s)
    (hinv : ChainInv graph start o s) (hsz : s.pq.size ≠ 0) :
    ChainInv graph start (o ++ settled_now s) (loop_body graph end_ ws cap s).1 := by
  obtain ⟨top, pq1, hpop, hsize1, hcap1, hord1, hperm, hmin, hcase⟩ :=
    loop_body_cases graph end_ ws cap s hsz hbase.ordered
  have hsub : ∀ x ∈ entries pq1, x ∈ entries s.pq :=
    fun x hx => hperm.mem_iff.2 (List.mem_cons_of_mem _ hx)
  have htop : top ∈ entries s.pq := hperm.mem_iff.2 (List.mem_cons_self _ _)
  have hstale : ChainInv graph start o { s with pq := pq1 } :=
    ⟨fun x hx => hinv.key_nonneg x (hsub x hx), fun x hx => hinv.key_ge x (hsub x hx),
      hinv.order_dist, fun x hx y hy => hinv.order_le_heap x hx y (hsub y hy), hinv.order_keys,
      hinv.start_dist, hinv.start_prev, fun x hx => hinv.heap_prev x (hsub x hx),
      hinv.prev_edge, hinv.chain⟩
  have hsettle : s.visited top.node = 0 → ChainInv graph start (o ++ [top])
      (settle ws cap top.node top.distance { s with pq := pq1 }) := by
    intro hv0
    have hnot : top.node ∉ o.map (fun e => e.node) :=
      fun h => (hbase.order_mem _).1 h hv0
    obtain ⟨_, _, f3, f4, f5, _⟩ := settle_fields ws cap top.node top.distance { s with pq := pq1 }
    have hmap : (o ++ [top]).map (fun e => e.node) = o.map (fun e => e.node) ++ [top.node] := by
      rw [List.map_append, List.map_singleton]
    refine ⟨?_, ?_, ?_, ?_, ?_, ?_, ?_, ?_, ?_, ?_⟩
    · rw [f3]; exact hstale.key_nonneg
    · rw [f3, f4]; exact hstale.key_ge
    · intro x hx
      rw [f4]
      rcases List.mem_append.1 hx with h | h
      · exact hinv.order_dist x h
      · rw [List.mem_singleton] at h; subst h; exact hinv.key_ge x htop
    · intro x hx y hy
      rw [f3] at hy
      rcases List.mem_append.1 hx with h | h
      · exact hinv.order_le_heap x h y (hsub y hy)
      · rw [List.mem_singleton] at h; subst h; exact hmin y (hsub y hy)
    · rw [List.map_append, List.map_singleton, List.pairwise_append]
      refine ⟨hinv.order_keys, List.pairwise_singleton _ _, ?_⟩
      intro a ha b hb
      rw [List.mem_singleton] at hb
      subst hb
      obtain ⟨x, hx, rfl⟩ := List.mem_map.1 ha
      exact hinv.order_le_heap x hx top htop
    · rw [f4]; exact hinv.start_dist
    · rw [f5]; exact hinv.start_prev
    · intro x hx
      rw [f3] at hx
      rw [f5, hmap]
      rcases hinv.heap_prev x (hsub x hx) with h | h
      · exact Or.inl h
      · exact Or.inr (List.mem_append_left _ h)
    · intro v hv
      rw [f5] at hv ⊢
      rw [hmap]
      exact ⟨List.mem_append_left _ (hinv.prev_edge v hv).1, (hinv.prev_edge v hv).2⟩
    · intro v hv hvs
      rw [f5, hmap] at *
      rcases List.mem_append.1 hv with h | h
      · obtain ⟨c1, c2⟩ := hinv.chain v h hvs
        refine ⟨List.mem_append_left _ c1, ?_⟩
        rw [List.indexOf_append_of_mem c1, List.indexOf_append_of_mem h]
        exact c2
      · rw [List.mem_singleton] at h
        subst h
        rcases hinv.heap_prev top htop with h1 | h1
        · exact absurd h1 hvs
        · refine ⟨List.mem_append_left _ h1, ?_⟩
          rw [List.indexOf_append_of_mem h1, List.indexOf_append_of_not_mem hnot]
          have := List.indexOf_lt_length.2 h1
          omega
  rcases hcase with ⟨_, hb, hs⟩ | ⟨hv0, _, hb, hs⟩ | ⟨hv0, _, hb, hs⟩
  · rw [hb, hs, List.append_nil]
    exact hstale
  · rw [hb, hs]
    have h := hsettle hv0
    exact ⟨h.key_nonneg, h.key_ge, h.order_dist, h.order_le_heap, h.order_keys, h.start_dist,
      h.start_prev, h.heap_prev, h.prev_edge, h.chain⟩
  · rw [hb, hs]
    obtain ⟨r0, rn⟩ := hbase.heap_range top htop
    have hbs := base_settle graph n start ws cap o s hbase top pq1 hpop hv0
    have hk : ∀ x ∈ o ++ [top], x.distance ≤ top.distance := by
      intro x hx
      rcases List.mem_append.1 hx with h | h
      · exact hinv.order_le_heap x h top htop
      · rw [List.mem_singleton] at h; subst h; exact le_refl _
    have hJ := relax_edges_induct
      (fun s' => BaseInv graph n start ws cap (o ++ [top]) s' ∧
        ChainInv graph start (o ++ [top]) s')
      top.node top.distance (graph top.node)
      (fun s' e he hs' =>
        ⟨relax_edge_base graph n start ws cap hg top.node top.distance r0 rn
            (hbase.heap_reach top htop) _ (by simp) s' e he hs'.1,
          relax_edge_chain graph start top.node top.distance _ s' e he
            (hw top.node r0 rn e he) (hinv.key_nonneg top htop) (by simp) hk
            hs'.1.size_le hs'.1.ordered hs'.2⟩)
      _ ⟨hbs, hsettle hv0⟩
    exact hJ.2

theorem init_chain (graph : Graph) (n : Nat) (start : Int) (h0 : 0 ≤ start) (hn : start < n) :
    ChainInv graph start [] (init_state n start) := by
  obtain ⟨_, _, hent⟩ := init_base graph n start false 0 h0 hn
  have hd : (init_state n start).distances start = 0 := by
    simp [init_state]
  refine ⟨?_, ?_, ?_, ?_, ?_, hd, rfl, ?_, ?_, ?_⟩
  · intro e he
    rw [hent, List.mem_singleton] at he
    subst he
    exact le_refl _
  · intro e he
    rw [hent, List.mem_singleton] at he
    subst he
    exact le_of_eq hd
  · intro x hx; simp at hx
  · intro x hx; simp at hx
  · simp
  · intro e he
    rw [hent, List.mem_singleton] at he
    subst he
    exact Or.inl rfl
  · intro v hv
    exact absurd rfl hv
  · intro v hv; simp at hv

/-! ## Path reconstruction -/

theorem build_path_eq (previous : Int → Int) :
    ∀ (m : Nat) (v : Int) (filled : List Int),
      build_path previous m v filled = pred_chain previous m v ++ filled := by
  intro m
  induction m with
  | zero => intro v filled; rfl
  | succ m ih =>
    intro v filled
    simp only [build_path, pred_chain, ih, List.append_assoc, List.singleton_append]

theorem pred_chain_length (previous : Int → Int) :
    ∀ (m : Nat) (v : Int), (pred_chain previous m v).length = m := by
  intro m
  induction m with
  | zero => intro v; rfl
  | succ m ih => intro v; simp [pred_chain, ih]

theorem count_path_stop (previous : Int → Int) (fuel len : Nat) :
    count_path previous fuel (-1) len = some len := by
  cases fuel <;> simp [count_path]

theorem count_path_next (previous : Int → Int) (fuel len : Nat) (v : Int) (hv : v ≠ -1) :
    count_path previous (fuel + 1) v len = count_path previous fuel (previous v) (len + 1) := by
  simp [count_path, hv]

/-- From a settled node the predecessor walk reaches the `-1` sentinel, and the
nodes it meets form a simple path of the graph from the source. -/
theorem chain_walk (graph : Graph) (n : Nat) (start : Int) (ws : Bool) (cap : Nat)
    (o : List HeapNode) (s : SearchState) (hbase : BaseInv graph n start ws cap o s)
    (hchain : ChainInv graph start o s) :
    ∀ (k : Nat) (v : Int), v ∈ o.map (fun e => e.node) →
      (o.map (fun e => e.node)).indexOf v = k →
      ∀ (fuel len : Nat), k < fuel →
      ∃ m, 1 ≤ m ∧ m ≤ k + 1 ∧
        count_path s.previous fuel v len = some (len + m) ∧
        (pred_chain s.previous m v).head? = some start ∧
        (pred_chain s.previous m v).getLast? = some v ∧
        List.Chain' (HasEdge graph) (pred_chain s.previous m v) ∧
        (∀ x ∈ pred_chain s.previous m v,
          x ∈ o.map (fun e => e.node) ∧ (o.map (fun e => e.node)).indexOf x ≤ k) ∧
        (pred_chain s.previous m v).Nodup := by
  intro k
  induction k using Nat.strong_induction_on with
  | _ k ih =>
    intro v hv hk fuel len hfuel
    obtain ⟨f, rfl⟩ : ∃ f, fuel = f + 1 := ⟨fuel - 1, by omega⟩
    have hv0 : v ≠ -1 := by
      have := (hbase.order_range v hv).1
      omega
    rw [count_path_next _ _ _ _ hv0]
    by_cases hvs : v = start
    · subst hvs
      refine ⟨1, le_refl _, by omega, ?_, ?_, ?_, ?_, ?_, ?_⟩
      · rw [hchain.start_prev, count_path_stop]
      · simp [pred_chain]
      · simp [pred_chain]
      · simp [pred_chain]
      · intro x hx
        simp only [pred_chain, List.nil_append, List.mem_singleton] at hx
        subst hx
        exact ⟨hv, le_of_eq hk⟩
      · simp [pred_chain]
    · obtain ⟨c1, c2⟩ := hchain.chain v hv hvs
      rw [hk] at c2
      obtain ⟨m, hm1, hm2, hcount, hhead, hlast, hch, hmem, hnd⟩ :=
        ih _ c2 (s.previous v) c1 rfl f (len + 1) (by omega)
      have hne : pred_chain s.previous m (s.previous v) ≠ [] := by
        intro h
        have := pred_chain_length s.previous m (s.previous v)
        rw [h] at this
        simp at this
        omega
      have hp0 : s.previous v ≠ -1 := by
        have := (hbase.order_range _ c1).1
        omega
      refine ⟨m + 1, by omega, by omega, ?_, ?_, ?_, ?_, ?_, ?_⟩
      · rw [hcount]; congr 1; omega
      · simp only [pred_chain]
        rw [List.head?_append_of_ne_nil _ hne]
        exact hhead
      · simp only [pred_chain]
        exact List.getLast?_concat _
      · simp only [pred_chain]
        apply List.Chain'.append hch (List.chain'_singleton _)
        intro x hx y hy
        rw [hlast] at hx
        have hx' : s.previous v = x := by simpa using hx
        have hy' : v = y := by simpa using hy
        rw [← hx', ← hy']
        exact (hchain.prev_edge v hp0).2
      · intro x hx
        simp only [pred_chain, List.mem_append, List.mem_singleton] at hx
        rcases hx with h | h
        · exact ⟨(hmem x h).1, by have := (hmem x h).2; omega⟩
        · subst h; exact ⟨hv, le_of_eq hk⟩
      · simp only [pred_chain]
        apply List.Nodup.append hnd (List.nodup_singleton _)
        intro x hx1 hx2
        rw [List.mem_singleton] at hx2
        subst hx2
        have := (hmem x hx1).2
        omega

theorem enough_fuel_ge (n : Nat) : n < enough_fuel n := by
  unfold enough_fuel
  nlinarith

theorem dijkstra_path_c_eq (fuel : Nat) (graph : Graph) (n : Nat) (start end_ : Int)
    (ws : Bool) (s1 : SearchState)
    (h : dijkstra_search fuel graph n start end_ ws = some s1) :
    dijkstra_path_c fuel graph n start end_ ws = finish fuel end_ ws s1 := by
  unfold dijkstra_path_c
  rw [h]

/-- With non-negative weights every search returns, and what it returns is
described by the state the main loop ended in. -/
theorem search_result (graph : Graph) (n : Nat) (start end_ : Int) (ws : Bool)
    (hg : GraphInRange graph n) (hw : NonNegWeights graph n) (hs : ValidNode n start)
    (Extra : List HeapNode → SearchState → Prop) (hinit : Extra [] (init_state n start))
    (hstep : ∀ o s, BaseInv graph n start ws (trace_capacity ws) o s → FoundInv end_ o s →
      ChainInv graph start o s →
      Extra o s → s.destination_found = false → s.pq.size ≠ 0 →
      Extra (o ++ settled_now s) (loop_body graph end_ ws (trace_capacity ws) s).1)
    (fuel : Nat) (hfuel : enough_fuel n ≤ fuel) :
    ∃ s1 r, dijkstra_search fuel graph n start end_ ws = some s1 ∧
      dijkstra_path_c fuel graph n start end_ ws = some r ∧
      BaseInv graph n start ws (trace_capacity ws)
        (settle_order fuel graph n start end_ ws) s1 ∧
      FoundInv end_ (settle_order fuel graph n start end_ ws) s1 ∧
      ChainInv graph start (settle_order fuel graph n start end_ ws) s1 ∧
      Extra (settle_order fuel graph n start end_ ws) s1 ∧
      r.iterations = s1.iterations ∧
      r.explored_count = s1.explored_count ∧
      r.explored =
        (if ws = true ∧ s1.explored_count > 0 then some (explored_list s1) else none) ∧
      ((s1.destination_found = false ∧ r.path = none ∧ r.path_length = 0 ∧
          r.distance = DBL_MAX) ∨
        (s1.destination_found = true ∧
          ∃ p, r.path = some p ∧ r.path_length = p.length ∧
            r.distance = s1.distances end_ ∧
            p = pred_chain s1.previous p.length end_ ∧
            p.head? = some start ∧ p.getLast? = some end_ ∧
            List.Chain' (HasEdge graph) p ∧ p.Nodup ∧
            ∀ x ∈ p, x ∈ (settle_order fuel graph n start end_ ws).map (fun e => e.node))) := by
  obtain ⟨s1, hrun, hbase, hfound, hchain, hextra⟩ :=
    search_invariant graph n start end_ ws hg hs
      (fun o s => ChainInv graph start o s ∧ Extra o s)
      ⟨init_chain graph n start hs.1 hs.2, hinit⟩
      (fun o s hb hf hx hnf hsz =>
        ⟨chain_step graph n start end_ ws _ hg hw o s hb hx.1 hsz,
          hstep o s hb hf hx.1 hx.2 hnf hsz⟩)
      fuel hfuel
  have hres := dijkstra_path_c_eq fuel graph n start end_ ws s1 hrun
  cases hf : s1.destination_found with
  | false =>
    rw [finish_not_found fuel end_ ws s1 hf] at hres
    exact ⟨s1, _, hrun, hres, hbase, hfound, hchain, hextra, rfl, rfl, rfl,
      Or.inl ⟨hf, rfl, rfl, rfl⟩⟩
  | true =>
    have hv := hfound.found.1 hf
    have hmem := (hbase.order_mem end_).2 hv
    have hlt := hbase.order_lt end_ hmem
    have hidx := List.indexOf_lt_length.2 hmem
    have hlen := base_order_length graph n start ws _ _ s1 hbase
    rw [List.length_map] at hidx
    have hn := enough_fuel_ge n
    obtain ⟨m, _, _, hcount, hhead, hlast, hch, hmemp, hnd⟩ :=
      chain_walk graph n start ws _ _ s1 hbase hchain _ end_ hmem rfl fuel 0 (by omega)
    rw [Nat.zero_add] at hcount
    rw [finish_found fuel end_ ws s1 m hf (ne_of_lt hlt) hcount] at hres
    have hp : build_path s1.previous m end_ [] = pred_chain s1.previous m end_ := by
      rw [build_path_eq, List.append_nil]
    have hpl := pred_chain_length s1.previous m end_
    refine ⟨s1, _, hrun, hres, hbase, hfound, hchain, hextra, rfl, rfl, rfl, Or.inr ⟨hf, ?_⟩⟩
    refine ⟨pred_chain s1.previous m end_, ?_, ?_, rfl, ?_, hhead, hlast, hch, hnd, ?_⟩
    · simp only [hp]
    · simp only [hpl]
    · rw [hpl]
    · intro x hx
      exact (hmemp x hx).1

/-! ## The search loop without dropped pushes: optimality -/

theorem walk_stays_valid (graph : Graph) (n : Nat) (hg : GraphInRange graph n)
    (hw : NonNegWeights graph n) :
    ∀ (es : List Edge) (a b : Int), ValidNode n a → IsWalk graph a es b →
      ValidNode n b ∧ 0 ≤ walk_weight es := by
  intro es
  induction es with
  | nil =>
    intro a b ha h
    simp only [IsWalk] at h
    subst h
    exact ⟨ha, by simp [walk_weight]⟩
  | cons e rest ih =>
    intro a b ha h
    simp only [IsWalk] at h
    obtain ⟨hb, hnn⟩ := ih e.to_ b (hg a ha.1 ha.2 e h.1) h.2
    refine ⟨hb, ?_⟩
    rw [walk_weight_cons]
    have := hw a ha.1 ha.2 e h.1
    omega

/-- A walk from a node inside `S` to a node outside `S` crosses an edge that
leaves `S`; the part up to that edge weighs no more than the whole walk. -/
theorem walk_crossing (graph : Graph) (n : Nat) (hg : GraphInRange graph n)
    (hw : NonNegWeights graph n) (S : Int → Prop) :
    ∀ (es : List Edge) (a b : Int), ValidNode n a → S a → ¬ S b → IsWalk graph a es b →
      ∃ p x e, IsWalk graph a p x ∧ S x ∧ ValidNode n x ∧ e ∈ graph x ∧ ¬ S e.to_ ∧
        walk_weight p + e.dist ≤ walk_weight es := by
  intro es
  induction es with
  | nil =>
    intro a b _ hSa hSb h
    simp only [IsWalk] at h
    subst h
    exact absurd hSa hSb
  | cons e rest ih =>
    intro a b ha hSa hSb h
    simp only [IsWalk] at h
    have hto := hg a ha.1 ha.2 e h.1
    by_cases hS : S e.to_
    · obtain ⟨p, x, e', h1, h2, h3, h4, h5, h6⟩ := ih e.to_ b hto hS hSb h.2
      refine ⟨e :: p, x, e', ?_, h2, h3, h4, h5, ?_⟩
      · simp only [IsWalk]; exact ⟨h.1, h1⟩
      · rw [walk_weight_cons, walk_weight_cons]; omega
    · refine ⟨[], a, e, rfl, hSa, ha, h.1, hS, ?_⟩
      have := (walk_stays_valid graph n hg hw rest e.to_ b hto h.2).2
      rw [walk_weight_cons]
      simp only [walk_weight, List.map_nil, List.sum_nil, zero_add]
      simp only [walk_weight] at this
      omega

theorem used_edges_le (graph : Graph) (n : Nat) (o : List HeapNode)
    (hnd : (o.map (fun e => e.node)).Nodup)
    (hr : ∀ v ∈ o.map (fun e => e.node), 0 ≤ v ∧ v < (n : Int)) :
    used_edges graph o ≤ edge_count graph n := by
  have hsub : ((o.map (fun e => e.node)).map Int.toNat).Subperm (List.range n) := by
    apply List.subperm_of_subset
    · apply List.Nodup.map_on _ hnd
      intro a ha b hb hab
      have h1 := (hr a ha).1
      have h2 := (hr b hb).1
      omega
    · intro i hi
      obtain ⟨v, hv, rfl⟩ := List.mem_map.1 hi
      rw [List.mem_range]
      have := hr v hv
      omega
  obtain ⟨l0, hp0, hs0⟩ := hsub
  have hmap : ∃ l : List Nat, l.Perm (((o.map (fun e => e.node)).map Int.toNat).map
      (fun i : Nat => (graph (i : Int)).length)) ∧
      l.Sublist ((List.range n).map (fun i : Nat => (graph (i : Int)).length)) :=
    ⟨l0.map _, hp0.map _, hs0.map _⟩
  have heq : ((o.map (fun e => e.node)).map Int.toNat).map
      (fun i : Nat => (graph (i : Int)).length) = o.map (fun x => (graph x.node).length) := by
    rw [List.map_map, List.map_map]
    apply List.map_congr_left
    intro x hx
    simp only [Function.comp_apply]
    have := (hr x.node (List.mem_map_of_mem _ hx)).1
    rw [Int.toNat_of_nonneg this]
  rw [heq] at hmap
  unfold used_edges edge_count
  obtain ⟨l, hl1, hl2⟩ := hmap
  rw [← hl1.sum_eq]
  exact List.Sublist.sum_le_sum hl2 (fun _ _ => Nat.zero_le _)

theorem search_loop_end (graph : Graph) (end_ : Int) (ws : Bool) (cap : Nat) :
    ∀ (fuel : Nat) (s s1 : SearchState), search_loop graph end_ ws cap fuel s = some s1 →
      s1.pq.size = 0 ∨ s1.destination_found = true := by
  intro fuel
  induction fuel with
  | zero =>
    intro s s1 h
    simp only [search_loop] at h
    split_ifs at h with hempty
    cases h
    left
    simpa [heap_is_empty] using hempty
  | succ fuel ih =>
    intro s s1 h
    simp only [search_loop] at h
    by_cases hempty : heap_is_empty s.pq = true
    · simp only [hempty, if_true] at h
      cases h
      left
      simpa [heap_is_empty] using hempty
    · simp only [hempty] at h
      by_cases hgo : (loop_body graph end_ ws cap s).2 = true
      · simp only [hgo, if_true] at h
        exact ih _ _ h
      · simp only [hgo] at h
        have h1 : (loop_body graph end_ ws cap s).1 = s1 := by simpa using h
        cases hpop : heap_pop s.pq with
        | none =>
          exfalso
          apply hempty
          unfold heap_pop at hpop
          by_cases h0 : s.pq.size = 0
          · simp [heap_is_empty, h0]
          · simp only [h0, if_false] at hpop
            split_ifs at hpop
        | some r =>
          obtain ⟨top, pq1⟩ := r
          rw [loop_body_eq graph end_ ws cap s top pq1 hpop] at h1 hgo
          by_cases hvis : s.visited top.node ≠ 0
          · rw [if_pos hvis] at hgo
            exact absurd rfl hgo
          · rw [if_neg hvis] at h1 hgo
            by_cases hend : top.node = end_
            · rw [if_pos hend] at h1
              right
              rw [← h1]
            · rw [if_neg hend] at hgo
              exact absurd rfl hgo

theorem relax_edge_full (graph : Graph) (n : Nat) (start : Int) (ws : Bool) (cap : Nat)
    (o : List HeapNode) (u k : Int) (hused : used_edges graph o < n * 2)
    (hkwalk : ∃ es, IsWalk graph start es u ∧ walk_weight es = k)
    (hk : ∀ x ∈ o, x.distance ≤ k) (done rest : List Edge) (s : SearchState) (e : Edge)
    (he : e ∈ graph u) (hw : 0 ≤ e.dist)
    (hbase : BaseInv graph n start ws cap o s) (hchain : ChainInv graph start o s)
    (hopt : OptInv graph start o s) (hph : PhaseInv graph o u k done (e :: rest) s) :
    OptInv graph start o (relax_edge u k s e) ∧
    PhaseInv graph o u k (done ++ [e]) rest (relax_edge u k s e) := by
  have hbud := hph.budget
  rw [List.length_cons] at hbud
  unfold relax_edge
  simp only []
  split_ifs with hlt
  · obtain ⟨h1, _, _, h4⟩ := heap_push_spec s.pq e.to_ (k + e.dist)
      (by rw [hbase.cap_eq]; omega) hbase.ordered
    have hmem : ∀ x, x ∈ entries (heap_push s.pq e.to_ (k + e.dist)) ↔
        x = ⟨e.to_, k + e.dist⟩ ∨ x ∈ entries s.pq := by
      intro x
      rw [h4.mem_iff, List.mem_cons]
    have hnotin : e.to_ ∉ o.map (fun e => e.node) := by
      intro hm
      obtain ⟨x, hx, hxe⟩ := List.mem_map.1 hm
      have h1 := hchain.order_dist x hx
      have h2 := hk x hx
      have hxe' : x.node = e.to_ := hxe
      rw [hxe'] at h1
      omega
    have hlower : ∀ v, Function.update s.distances e.to_ (k + e.dist) v ≤ s.distances v := by
      intro v
      by_cases hv : v = e.to_
      · subst hv; rw [Function.update_same]; exact le_of_lt hlt
      · rw [Function.update_noteq hv]
    have hnewwalk : ∃ es, IsWalk graph start es e.to_ ∧ walk_weight es = k + e.dist := by
      obtain ⟨es, hes1, hes2⟩ := hkwalk
      refine ⟨es ++ [e], isWalk_snoc graph es start u e hes1 he, ?_⟩
      rw [walk_weight_append, hes2]
      simp [walk_weight]
    constructor
    · refine ⟨?_, ?_, ?_, hopt.settled_opt⟩
      · intro x hx
        rcases (hmem x).1 hx with h | h
        · subst h; exact hnewwalk
        · exact hopt.key_walk x h
      · intro v
        show Function.update s.distances e.to_ (k + e.dist) v < DBL_MAX →
          ∃ es, IsWalk graph start es v ∧
            walk_weight es = Function.update s.distances e.to_ (k + e.dist) v
        by_cases hv : v = e.to_
        · subst hv
          rw [Function.update_same]
          exact fun _ => hnewwalk
        · rw [Function.update_noteq hv]
          exact hopt.dist_walk v
      · intro x hx
        show Function.update s.distances e.to_ (k + e.dist) x.node = x.distance
        have hne : x.node ≠ e.to_ := fun h => hnotin (h ▸ List.mem_map_of_mem _ hx)
        rw [Function.update_noteq hne]
        exact hopt.order_exact x hx
    · refine ⟨?_, ?_, ?_, ?_⟩
      · intro v
        show Function.update s.distances e.to_ (k + e.dist) v < DBL_MAX →
          v ∈ o.map (fun e => e.node) ∨
            (⟨v, Function.update s.distances e.to_ (k + e.dist) v⟩ : HeapNode) ∈
              entries (heap_push s.pq e.to_ (k + e.dist))
        by_cases hv : v = e.to_
        · subst hv
          rw [Function.update_same]
          exact fun _ => Or.inr ((hmem _).2 (Or.inl rfl))
        · rw [Function.update_noteq hv]
          intro hd
          rcases hph.complete v hd with h | h
          · exact Or.inl h
          · exact Or.inr ((hmem _).2 (Or.inr h))
      · intro x hx hxu e' he'
        exact le_trans (hlower _) (hph.relaxed_old x hx hxu e' he')
      · intro e' he'
        rcases List.mem_append.1 he' with h | h
        · exact le_trans (hlower _) (hph.relaxed_done e' h)
        · rw [List.mem_singleton] at h
          subst h
          show Function.update s.distances e'.to_ (k + e'.dist) e'.to_ ≤ k + e'.dist
          rw [Function.update_same]
      · show (heap_push s.pq e.to_ (k + e.dist)).size + rest.length ≤ used_edges graph o
        rw [h1]
        omega
  · refine ⟨hopt, hph.complete, hph.relaxed_old, ?_, by omega⟩
    intro e' he'
    rcases List.mem_append.1 he' with h | h
    · exact hph.relaxed_done e' h
    · rw [List.mem_singleton] at h
      subst h
      exact not_lt.1 hlt

theorem relax_edges_full (graph : Graph) (n : Nat) (start : Int) (ws : Bool) (cap : Nat)
    (hg : GraphInRange graph n) (hw : NonNegWeights graph n)
    (o : List HeapNode) (ho : o ≠ []) (u k : Int) (hu : ValidNode n u)
    (humem : u ∈ o.map (fun e => e.node)) (hk0 : 0 ≤ k)
    (hused : used_edges graph o < n * 2)
    (hkwalk : ∃ es, IsWalk graph start es u ∧ walk_weight es = k)
    (hk : ∀ x ∈ o, x.distance ≤ k) :
    ∀ (rest done : List Edge) (s : SearchState), (∀ e ∈ rest, e ∈ graph u) →
      BaseInv graph n start ws cap o s → ChainInv graph start o s →
      OptInv graph start o s → PhaseInv graph o u k done rest s →
      BaseInv graph n start ws cap o (relax_edges u k rest s) ∧
      ChainInv graph start o (relax_edges u k rest s) ∧
      OptInv graph start o (relax_edges u k rest s) ∧
      PhaseInv graph o u k (done ++ rest) [] (relax_edges u k rest s) := by
  intro rest
  induction rest with
  | nil =>
    intro done s _ hb hc ho hp
    simp only [relax_edges, List.append_nil]
    exact ⟨hb, hc, ho, hp⟩
  | cons e rest ih =>
    intro done s hsub hb hc hop hp
    simp only [relax_edges]
    have he : e ∈ graph u := hsub e (List.mem_cons_self _ _)
    have hwe := hw u hu.1 hu.2 e he
    obtain ⟨hop1, hp1⟩ := relax_edge_full graph n start ws cap o u k hused hkwalk hk done rest
      s e he hwe hb hc hop hp
    have hb1 := relax_edge_base graph n start ws cap hg u k hu.1 hu.2
      (hkwalk.elim fun es h => ⟨es, h.1⟩) o ho s e he hb
    have hc1 := relax_edge_chain graph start u k o s e he hwe hk0 humem hk hb.size_le
      hb.ordered hc
    have := ih (done ++ [e]) _ (fun e' he' => hsub e' (List.mem_cons_of_mem _ he')) hb1 hc1
      hop1 hp1
    simpa [List.append_assoc] using this

theorem used_edges_append (graph : Graph) (o : List HeapNode) (top : HeapNode) :
    used_edges graph (o ++ [top]) = used_edges graph o + (graph top.node).length := by
  simp [used_edges]

theorem opt_step (graph : Graph) (n : Nat) (start end_ : Int) (ws : Bool) (cap : Nat)
    (hg : GraphInRange graph n) (hw : NonNegWeights graph n)
    (hE : edge_count graph n < 2 * n) (hs : ValidNode n start)
    (o : List HeapNode) (s : SearchState)
    (hbase : BaseInv graph n start ws cap o s) (hchain : ChainInv graph start o s)
    (hopt : OptInv graph start o s) (hfront : FrontInv graph o s) (hsz : s.pq.size ≠ 0) :
    OptInv graph start (o ++ settled_now s) (loop_body graph end_ ws cap s).1 ∧
    ((loop_body graph end_ ws cap s).1.destination_found = false →
      FrontInv graph (o ++ settled_now s) (loop_body graph end_ ws cap s).1) := by
  obtain ⟨top, pq1, hpop, hsize1, hcap1, hord1, hperm, hmin, hcase⟩ :=
    loop_body_cases graph end_ ws cap s hsz hbase.ordered
  have hsub : ∀ x ∈ entries pq1, x ∈ entries s.pq :=
    fun x hx => hperm.mem_iff.2 (List.mem_cons_of_mem _ hx)
  have htop : top ∈ entries s.pq := hperm.mem_iff.2 (List.mem_cons_self _ _)
  have hsplit : ∀ x ∈ entries s.pq, x = top ∨ x ∈ entries pq1 :=
    fun x hx => List.mem_cons.1 (hperm.mem_iff.1 hx)
  have hbud := hfront.budget
  rcases hcase with ⟨hvis, hb, hst⟩ | ⟨hv0, hend, hb, hst⟩ | ⟨hv0, hend, hb, hst⟩
  · rw [hb, hst, List.append_nil]
    refine ⟨⟨fun x hx => hopt.key_walk x (hsub x hx), hopt.dist_walk, hopt.order_exact,
      hopt.settled_opt⟩, fun _ => ⟨?_, hfront.relaxed, ?_⟩⟩
    · intro v hd
      rcases hfront.complete v hd with h | h
      · exact Or.inl h
      · rcases hsplit _ h with h1 | h1
        · left
          have hv : v = top.node := by rw [← h1]
          rw [hv]
          exact (hbase.order_mem _).2 hvis
        · exact Or.inr h1
    · show pq1.size ≤ _
      omega
  all_goals
    have hnot : top.node ∉ o.map (fun e => e.node) := fun h => (hbase.order_mem _).1 h hv0
    have hd := hbase.heap_lt top htop
    have hkD : s.distances top.node = top.distance := by
      rcases hfront.complete top.node hd with h | h
      · exact absurd h hnot
      · have h1 := hmin _ h
        have h2 := hchain.key_ge top htop
        exact le_antisymm h2 h1
    have hkopt : ∀ es, IsWalk graph start es top.node → top.distance ≤ walk_weight es := by
      intro es hes
      rcases hbase.first with ⟨_, h2⟩ | ⟨rest, h2⟩
      · rw [h2, List.mem_singleton] at htop
        rw [htop]
        exact (walk_stays_valid graph n hg hw es start _ hs (by rw [htop] at hes; exact hes)).2
      · have hstart : start ∈ o.map (fun e => e.node) := by rw [h2]; simp
        obtain ⟨p, x, e, hp, hSx, _, he, hSy, hle⟩ := walk_crossing graph n hg hw
          (fun v => v ∈ o.map (fun e => e.node)) es start top.node hs hstart hnot hes
        obtain ⟨x', hx', hxx⟩ := List.mem_map.1 hSx
        have hxx' : x'.node = x := hxx
        rw [← hxx'] at hp he
        have h3 := hopt.settled_opt x' hx' p hp
        have h4 := hfront.relaxed x' hx' e he
        by_cases hdy : s.distances e.to_ < DBL_MAX
        · rcases hfront.complete e.to_ hdy with h | h
          · exact absurd h hSy
          · have h5 := hmin _ h
            have h5' : top.distance ≤ s.distances e.to_ := h5
            omega
        · omega
    obtain ⟨_, _, f3, f4, _, _⟩ := settle_fields ws cap top.node top.distance { s with pq := pq1 }
    have hopt1 : OptInv graph start (o ++ [top])
        (settle ws cap top.node top.distance { s with pq := pq1 }) := by
      refine ⟨?_, ?_, ?_, ?_⟩
      · rw [f3]; exact fun x hx => hopt.key_walk x (hsub x hx)
      · rw [f4]; exact hopt.dist_walk
      · intro x hx
        rw [f4]
        rcases List.mem_append.1 hx with h | h
        · exact hopt.order_exact x h
        · rw [List.mem_singleton] at h; subst h; exact hkD
      · intro x hx
        rcases List.mem_append.1 hx with h | h
        · exact hopt.settled_opt x h
        · rw [List.mem_singleton] at h; subst h; exact hkopt
  · rw [hb, hst]
    exact ⟨⟨hopt1.key_walk, hopt1.dist_walk, hopt1.order_exact, hopt1.settled_opt⟩,
      fun h => absurd h (by simp)⟩
  · rw [hb, hst]
    have hbs := base_settle graph n start ws cap o s hbase top pq1 hpop hv0
    have hused : used_edges graph (o ++ [top]) < n * 2 := by
      have := used_edges_le graph n (o ++ [top]) hbs.order_nodup hbs.order_range
      omega
    have hcs : ChainInv graph start (o ++ [top])
        (settle ws cap top.node top.distance { s with pq := pq1 }) := by
      have := chain_step graph n start top.node ws cap hg hw o s hbase hchain hsz
      obtain ⟨top2, pq2, hpop2, _, _, _, _, _, hcase2⟩ :=
        loop_body_cases graph top.node ws cap s hsz hbase.ordered
      rw [hpop] at hpop2
      simp only [Option.some.injEq, Prod.mk.injEq] at hpop2
      obtain ⟨rfl, rfl⟩ := hpop2
      rcases hcase2 with ⟨hvis, _, _⟩ | ⟨_, _, hb2, hs2⟩ | ⟨_, hne, _, _⟩
      · exact absurd hv0 hvis
      · rw [hb2, hs2] at this
        exact ⟨this.key_nonneg, this.key_ge, this.order_dist, this.order_le_heap,
          this.order_keys, this.start_dist, this.start_prev, this.heap_prev, this.prev_edge,
          this.chain⟩
      · exact absurd rfl hne
    have hk : ∀ x ∈ o ++ [top], x.distance ≤ top.distance := by
      intro x hx
      rcases List.mem_append.1 hx with h | h
      · exact hchain.order_le_heap x h top htop
      · rw [List.mem_singleton] at h; subst h; exact le_refl _
    have hph0 : PhaseInv graph (o ++ [top]) top.node top.distance [] (graph top.node)
        (settle ws cap top.node top.distance { s with pq := pq1 }) := by
      refine ⟨?_, ?_, ?_, ?_⟩
      · rw [f3, f4]
        intro v hdv
        rw [List.map_append, List.map_singleton]
        rcases hfront.complete v hdv with h | h
        · exact Or.inl (List.mem_append_left _ h)
        · rcases hsplit _ h with h1 | h1
          · left
            have hv : v = top.node := by rw [← h1]
            rw [hv]
            exact List.mem_append_right _ (List.mem_singleton_self _)
          · exact Or.inr h1
      · intro x hx hxu e he
        rw [f4]
        rcases List.mem_append.1 hx with h | h
        · exact hfront.relaxed x h e he
        · rw [List.mem_singleton] at h; subst h; exact absurd rfl hxu
      · intro e he
        simp at he
      · rw [f3, used_edges_append]
        show pq1.size + _ ≤ _
        omega
    obtain ⟨_, _, hopt2, hph2⟩ := relax_edges_full graph n start ws cap hg hw (o ++ [top])
      (by simp) top.node top.distance (hbase.heap_range top htop)
      (by simp) (hchain.key_nonneg top htop) hused (hopt.key_walk top htop) hk
      (graph top.node) [] _ (fun _ h => h) hbs hcs hopt1 hph0
    refine ⟨hopt2, fun _ => ⟨hph2.complete, ?_, ?_⟩⟩
    · intro x hx e he
      by_cases hxu : x.node = top.node
      · rw [hxu] at he
        have h1 := hph2.relaxed_done e (by simpa using he)
        have h2 := hopt2.order_exact x hx
        have h3 := hopt2.order_exact top (by simp)
        rw [hxu] at h2
        have goal : (relax_edges top.node top.distance (graph top.node)
            (settle ws cap top.node top.distance { s with pq := pq1 })).distances e.to_ ≤
            x.distance + e.dist := by omega
        exact goal
      · exact hph2.relaxed_old x hx hxu e he
    · have := hph2.budget
      simp only [List.length_nil, Nat.add_zero] at this
      exact le_trans this (Nat.le_succ _)

theorem init_opt (graph : Graph) (n : Nat) (start : Int) (h0 : 0 ≤ start) (hn : start < n) :
    OptInv graph start [] (init_state n start) ∧ FrontInv graph [] (init_state n start) := by
  obtain ⟨_, hsize, hent⟩ := init_base graph n start false 0 h0 hn
  have hd : ∀ v, (init_state n start).distances v < DBL_MAX → v = start := by
    intro v hv
    by_contra hne
    have : (init_state n start).distances v = DBL_MAX := by
      simp [init_state, Function.update_noteq hne]
    omega
  have hds : (init_state n start).distances start = 0 := by simp [init_state]
  constructor
  · refine ⟨?_, ?_, ?_, ?_⟩
    · intro e he
      rw [hent, List.mem_singleton] at he
      subst he
      exact ⟨[], rfl, rfl⟩
    · intro v hv
      rw [hd v hv, hds]
      exact ⟨[], rfl, rfl⟩
    · intro x hx; simp at hx
    · intro x hx; simp at hx
  · refine ⟨?_, ?_, ?_⟩
    · intro v hv
      right
      rw [hd v hv, hds, hent]
      exact List.mem_singleton_self _
    · intro x hx; simp at hx
    · rw [hsize]; exact Nat.le_add_left _ _

/-- With non-negative weights and fewer than `2 * node_count` edges, the state
a search ends in carries exact distances for the settled nodes; a search that
ends without `destination_found` has emptied the queue with its frontier
complete. -/
theorem search_optimal (graph : Graph) (n : Nat) (start end_ : Int) (ws : Bool)
    (hg : GraphInRange graph n) (hw : NonNegWeights graph n)
    (hE : edge_count graph n < 2 * n) (hs : ValidNode n start)
    (fuel : Nat) (hfuel : enough_fuel n ≤ fuel) :
    ∃ s1 r, dijkstra_search fuel graph n start end_ ws = some s1 ∧
      dijkstra_path_c fuel graph n start end_ ws = some r ∧
      BaseInv graph n start ws (trace_capacity ws)
        (settle_order fuel graph n start end_ ws) s1 ∧
      FoundInv end_ (settle_order fuel graph n start end_ ws) s1 ∧
      ChainInv graph start (settle_order fuel graph n start end_ ws) s1 ∧
      OptInv graph start (settle_order fuel graph n start end_ ws) s1 ∧
      (s1.destination_found = false →
        FrontInv graph (settle_order fuel graph n start end_ ws) s1 ∧ s1.pq.size = 0) ∧
      ((s1.destination_found = false ∧ r.path = none ∧ r.path_length = 0 ∧
          r.distance = DBL_MAX) ∨
        (s1.destination_found = true ∧
          ∃ p, r.path = some p ∧ r.path_length = p.length ∧
            r.distance = s1.distances end_ ∧
            p = pred_chain s1.previous p.length end_ ∧
            p.head? = some start ∧ p.getLast? = some end_ ∧
            List.Chain' (HasEdge graph) p ∧ p.Nodup ∧
            ∀ x ∈ p, x ∈ (settle_order fuel graph n start end_ ws).map (fun e => e.node))) := by
  obtain ⟨hi1, hi2⟩ := init_opt graph n start hs.1 hs.2
  obtain ⟨s1, r, hrun, hres, hbase, hfound, hchain, hextra, _, _, _, hcases⟩ :=
    search_result graph n start end_ ws hg hw hs
      (fun o s => OptInv graph start o s ∧ (s.destination_found = false → FrontInv graph o s))
      ⟨hi1, fun _ => hi2⟩
      (fun o s hb _ hc hx hnf hsz =>
        opt_step graph n start end_ ws _ hg hw hE hs o s hb hc hx.1 (hx.2 hnf) hsz)
      fuel hfuel
  refine ⟨s1, r, hrun, hres, hbase, hfound, hchain, hextra.1, ?_, hcases⟩
  intro hnf
  refine ⟨hextra.2 hnf, ?_⟩
  rcases search_loop_end graph end_ ws _ fuel _ s1 hrun with h | h
  · exact h
  · rw [hnf] at h
    exact absurd h Bool.false_ne_true

/-- With non-negative weights and fewer than `2 * node_count` edges, a target
joined to the source by a walk lighter than `DBL_MAX` is found, and the
distance returned is the least weight of a walk. -/
theorem shortest_distance (graph : Graph) (n : Nat) (start end_ : Int) (ws : Bool)
    (hg : GraphInRange graph n) (hw : NonNegWeights graph n)
    (hE : edge_count graph n < 2 * n) (hs : ValidNode n start)
    (es0 : List Edge) (hwalk : IsWalk graph start es0 end_) (hfin : walk_weight es0 < DBL_MAX)
    (fuel : Nat) (hfuel : enough_fuel n ≤ fuel) :
    ∃ r, dijkstra_path_c fuel graph n start end_ ws = some r ∧
      r.path ≠ none ∧
      (∃ es, IsWalk graph start es end_ ∧ walk_weight es = r.distance) ∧
      (∀ es, IsWalk graph start es end_ → r.distance ≤ walk_weight es) := by
  obtain ⟨s1, r, _, hres, hbase, hfound, _, hopt, hnotfound, hcases⟩ :=
    search_optimal graph n start end_ ws hg hw hE hs fuel hfuel
  refine ⟨r, hres, ?_⟩
  rcases hcases with ⟨hnf, _, _, _⟩ | ⟨hf, p, hp, _, hdist, _⟩
  · exfalso
    obtain ⟨hfront, hsize⟩ := hnotfound hnf
    have hent : entries s1.pq = [] := by simp [entries, hsize]
    have hend : end_ ∉ (settle_order fuel graph n start end_ ws).map (fun e => e.node) := by
      intro h
      have h1 := (hbase.order_mem end_).1 h
      have h2 := hfound.found.2 h1
      rw [hnf] at h2
      exact Bool.false_ne_true h2
    have hstart : start ∈ (settle_order fuel graph n start end_ ws).map (fun e => e.node) := by
      rcases hbase.first with ⟨_, h2⟩ | ⟨rest, h2⟩
      · rw [hent] at h2
        exact absurd h2 (by simp)
      · rw [h2]; simp
    obtain ⟨p, x, e, hp, hSx, _, he, hSy, hle⟩ := walk_crossing graph n hg hw
      (fun v => v ∈ (settle_order fuel graph n start end_ ws).map (fun e => e.node))
      es0 start end_ hs hstart hend hwalk
    obtain ⟨x', hx', hxx⟩ := List.mem_map.1 hSx
    have hxx' : x'.node = x := hxx
    rw [← hxx'] at hp he
    have h3 := hopt.settled_opt x' hx' p hp
    have h4 := hfront.relaxed x' hx' e he
    rcases hfront.complete e.to_ (by omega) with h | h
    · exact hSy h
    · rw [hent] at h
      exact absurd h (by simp)
  · have hv := hfound.found.1 hf
    have hmem := (hbase.order_mem end_).2 hv
    obtain ⟨x, hx, hxe⟩ := List.mem_map.1 hmem
    have hxe' : x.node = end_ := hxe
    have hex := hopt.order_exact x hx
    rw [hxe'] at hex
    refine ⟨by rw [hp]; simp, ?_, ?_⟩
    · rw [hdist]
      exact hopt.dist_walk end_ (hbase.order_lt end_ hmem)
    · intro es hes
      rw [hdist, hex]
      rw [← hxe'] at hes
      exact hopt.settled_opt x hx es hes

/-! ## Counting and the fields copied into the result -/

theorem visited_count_eq (visited : Int → Int) (n : Nat) (l : List Int) (hnd : l.Nodup)
    (hr : ∀ v ∈ l, 0 ≤ v ∧ v < (n : Int)) (hmem : ∀ v, v ∈ l ↔ visited v ≠ 0) :
    l.length = visited_count visited n := by
  unfold visited_count
  have hperm : (l.map Int.toNat).Perm
      ((List.range n).filter (fun i : Nat => visited (i : Int) ≠ 0)) := by
    rw [List.perm_ext_iff_of_nodup]
    · intro i
      simp only [List.mem_map, List.mem_filter, List.mem_range, decide_eq_true_eq]
      constructor
      · rintro ⟨v, hv, rfl⟩
        have h1 := hr v hv
        refine ⟨by omega, ?_⟩
        rw [Int.toNat_of_nonneg h1.1]
        exact (hmem v).1 hv
      · rintro ⟨_, hi⟩
        exact ⟨(i : Int), (hmem _).2 hi, by simp⟩
    · apply List.Nodup.map_on _ hnd
      intro a ha b hb hab
      have h1 := (hr a ha).1
      have h2 := (hr b hb).1
      omega
    · exact (List.nodup_range n).filter _
  rw [← hperm.length_eq, List.length_map]

theorem finish_else (fuel : Nat) (end_ : Int) (ws : Bool) (s : SearchState)
    (h : ¬ (s.destination_found = true ∧ s.distances end_ ≠ DBL_MAX)) :
    finish fuel end_ ws s =
      some { path := none
             path_length := 0
             distance := DBL_MAX
             explored :=
               if ws = true ∧ s.explored_count > 0 then some (explored_list s) else none
             explored_count := s.explored_count
             iterations := s.iterations } := by
  unfold finish
  simp only [explored_list]
  rw [if_neg h]

theorem finish_stuck (fuel : Nat) (end_ : Int) (ws : Bool) (s : SearchState)
    (h : s.destination_found = true ∧ s.distances end_ ≠ DBL_MAX)
    (hc : count_path s.previous fuel end_ 0 = none) :
    finish fuel end_ ws s = none := by
  unfold finish
  simp only []
  rw [if_pos h, hc]

theorem finish_fields (fuel : Nat) (end_ : Int) (ws : Bool) (s : SearchState)
    (r : DijkstraResult) (h : finish fuel end_ ws s = some r) :
    r.iterations = s.iterations ∧ r.explored_count = s.explored_count ∧
    r.explored =
      (if ws = true ∧ s.explored_count > 0 then some (explored_list s) else none) ∧
    (s.destination_found = false → r.path = none ∧ r.path_length = 0 ∧
      r.distance = DBL_MAX) := by
  by_cases h1 : s.destination_found = true ∧ s.distances end_ ≠ DBL_MAX
  · cases hc : count_path s.previous fuel end_ 0 with
    | none =>
      rw [finish_stuck fuel end_ ws s h1 hc] at h
      exact absurd h (by simp)
    | some len =>
      rw [finish_found fuel end_ ws s len h1.1 h1.2 hc] at h
      simp only [Option.some.injEq] at h
      subst h
      refine ⟨rfl, rfl, rfl, fun hnf => ?_⟩
      rw [hnf] at h1
      exact absurd h1.1 Bool.false_ne_true
  · rw [finish_else fuel end_ ws s h1] at h
    simp only [Option.some.injEq] at h
    subst h
    exact ⟨rfl, rfl, rfl, fun _ => ⟨rfl, rfl, rfl⟩⟩

theorem final_order_ne_nil (graph : Graph) (n : Nat) (start end_ : Int) (ws : Bool)
    (cap : Nat) (o : List HeapNode) (s : SearchState)
    (hbase : BaseInv graph n start ws cap o s) (hfound : FoundInv end_ o s)
    (hend : s.pq.size = 0 ∨ s.destination_found = true) : o ≠ [] := by
  intro ho
  rcases hbase.first with ⟨_, h2⟩ | ⟨rest, h2⟩
  · rcases hend with h | h
    · have : entries s.pq = [] := by simp [entries, h]
      rw [this] at h2
      exact absurd h2 (by simp)
    · have := (hbase.order_mem end_).2 (hfound.found.1 h)
      rw [ho] at this
      simp at this
  · rw [ho] at h2
    exact absurd h2 (by simp)

/-! ## Source equal to target -/

theorem same_node_search (graph : Graph) (n : Nat) (s : Int) (ws : Bool) (hs : ValidNode n s)
    (fuel : Nat) (hfuel : 1 ≤ fuel) :
    ∃ st, dijkstra_search fuel graph n s s ws = some st ∧
      st.destination_found = true ∧
      st.distances = (init_state n s).distances ∧
      st.previous = (init_state n s).previous ∧
      st.iterations = 1 ∧
      st.explored_count = (if ws = true then 1 else 0) ∧
      explored_list st = (if ws = true then [s] else []) := by
  obtain ⟨f, rfl⟩ : ∃ f, fuel = f + 1 := ⟨fuel - 1, by omega⟩
  obtain ⟨hbase, hsize, hent⟩ := init_base graph n s ws (trace_capacity ws) hs.1 hs.2
  have hsz : (init_state n s).pq.size ≠ 0 := by rw [hsize]; decide
  obtain ⟨top, pq1, _, _, _, _, hperm, _, hcase⟩ :=
    loop_body_cases graph s ws (trace_capacity ws) (init_state n s) hsz hbase.ordered
  have htop : top = ⟨s, 0⟩ := by
    have : top ∈ entries (init_state n s).pq := hperm.mem_iff.2 (List.mem_cons_self _ _)
    rw [hent, List.mem_singleton] at this
    exact this
  subst htop
  have hne : heap_is_empty (init_state n s).pq = false := by
    simp [heap_is_empty, hsize]
  rcases hcase with ⟨hvis, _, _⟩ | ⟨_, _, hb, _⟩ | ⟨_, hne2, _, _⟩
  · exact absurd rfl hvis
  · have hrun : dijkstra_search (f + 1) graph n s s ws =
        some { settle ws (trace_capacity ws) s 0 { init_state n s with pq := pq1 } with
                destination_found := true } := by
      rw [dijkstra_search_eq]
      simp only [search_loop, hne, hb]
      rfl
    refine ⟨_, hrun, ?_⟩
    · obtain ⟨_, f2, _, f4, f5, _⟩ := settle_fields ws (trace_capacity ws) s 0
        { init_state n s with pq := pq1 }
      refine ⟨rfl, f4, f5, ?_, ?_, ?_⟩
      · show (settle ws (trace_capacity ws) s 0 { init_state n s with pq := pq1 }).iterations = 1
        rw [f2]; rfl
      · show (settle ws (trace_capacity ws) s 0
          { init_state n s with pq := pq1 }).explored_count = _
        cases ws <;> simp [settle, trace_capacity, init_state]
      · show explored_list (settle ws (trace_capacity ws) s 0
          { init_state n s with pq := pq1 }) = _
        rw [explored_list_settle]
        cases ws <;> simp [trace_capacity, init_state, explored_list]
  · exact absurd rfl hne2

/-! ## The line graph -/

theorem lineGraph_in_range : GraphInRange lineGraph 10001 := by
  intro u h0 h1 e he
  unfold lineGraph at he
  split_ifs at he with h
  · rw [List.mem_singleton] at he
    subst he
    simp only
    omega
  · simp at he

theorem lineGraph_nonneg : NonNegWeights lineGraph 10001 := by
  intro u h0 h1 e he
  unfold lineGraph at he
  split_ifs at he with h
  · rw [List.mem_singleton] at he
    subst he
    simp
  · simp at he

theorem edge_count_le (graph : Graph) (hdeg : ∀ u, (graph u).length ≤ 1) :
    ∀ n, edge_count graph n ≤ n := by
  intro n
  induction n with
  | zero => simp [edge_count]
  | succ n ih =>
    unfold edge_count at ih ⊢
    rw [List.range_succ, List.map_append, List.sum_append]
    have := hdeg (n : Int)
    simp only [List.map_singleton, List.sum_singleton]
    omega

theorem lineGraph_edges : edge_count lineGraph 10001 < 2 * 10001 := by
  have := edge_count_le lineGraph (fun u => by unfold lineGraph; split_ifs <;> simp) 10001
  omega

theorem line_walk_isWalk :
    ∀ (k : Nat) (a : Int), 0 ≤ a → a + k ≤ 10000 →
      IsWalk lineGraph a (line_walk a k) (a + k) ∧ walk_weight (line_walk a k) = k := by
  intro k
  induction k with
  | zero =>
    intro a _ _
    simp [line_walk, IsWalk, walk_weight]
  | succ k ih =>
    intro a h0 h1
    push_cast at h1
    obtain ⟨w1, w2⟩ := ih (a + 1) (by omega) (by omega)
    simp only [line_walk, IsWalk]
    refine ⟨⟨?_, ?_⟩, ?_⟩
    · unfold lineGraph
      rw [if_pos ⟨h0, by omega⟩]
      exact List.mem_singleton_self _
    · have : a + ((k + 1 : Nat) : Int) = a + 1 + (k : Int) := by push_cast; ring
      rw [this]
      exact w1
    · rw [walk_weight_cons, w2]
      push_cast
      ring

theorem line_path_length :
    ∀ (p : List Int) (a b : Int), List.Chain' (HasEdge lineGraph) p → p.head? = some a →
      p.getLast? = some b → b + 1 = a + p.length := by
  intro p
  induction p with
  | nil => intro a b _ h; simp at h
  | cons x rest ih =>
    intro a b hch hhead hlast
    have hx : x = a := by simpa using hhead
    subst hx
    cases rest with
    | nil =>
      have : x = b := by simpa using hlast
      subst this
      simp
    | cons y rest2 =>
      rw [List.chain'_cons] at hch
      obtain ⟨e, he, hey⟩ := hch.1
      have hy : y = x + 1 := by
        unfold lineGraph at he
        split_ifs at he with h
        · rw [List.mem_singleton] at he
          subst he
          exact hey.symm
        · simp at he
      have hlast2 : (y :: rest2).getLast? = some b := by
        rw [List.getLast?_cons_cons] at hlast
        exact hlast
      have := ih y b hch.2 rfl hlast2
      simp only [List.length_cons] at this ⊢
      push_cast at this ⊢
      omega

/-! ## More fuel never changes a result -/

theorem count_path_fuel_mono (previous : Int → Int) :
    ∀ (fuel : Nat) (v : Int) (len m : Nat), count_path previous fuel v len = some m →
      ∀ fuel2, fuel ≤ fuel2 → count_path previous fuel2 v len = some m := by
  intro fuel
  induction fuel with
  | zero =>
    intro v len m h fuel2 _
    simp only [count_path] at h
    split_ifs at h with hv
    have hv' : v = -1 := not_not.1 hv
    subst hv'
    rw [count_path_stop]
    exact h
  | succ fuel ih =>
    intro v len m h fuel2 hle
    obtain ⟨f2, rfl⟩ : ∃ f2, fuel2 = f2 + 1 := ⟨fuel2 - 1, by omega⟩
    by_cases hv : v = -1
    · subst hv
      rw [count_path_stop] at h ⊢
      exact h
    · rw [count_path_next _ _ _ _ hv] at h ⊢
      exact ih _ _ _ h f2 (by omega)

theorem finish_fuel_mono (fuel : Nat) (end_ : Int) (ws : Bool) (s : SearchState)
    (r : DijkstraResult) (h : finish fuel end_ ws s = some r) (fuel2 : Nat)
    (hle : fuel ≤ fuel2) : finish fuel2 end_ ws s = some r := by
  by_cases h1 : s.destination_found = true ∧ s.distances end_ ≠ DBL_MAX
  · cases hc : count_path s.previous fuel end_ 0 with
    | none =>
      rw [finish_stuck fuel end_ ws s h1 hc] at h
      exact absurd h (by simp)
    | some len =>
      rw [finish_found fuel end_ ws s len h1.1 h1.2 hc] at h
      rw [finish_found fuel2 end_ ws s len h1.1 h1.2
        (count_path_fuel_mono _ _ _ _ _ hc fuel2 hle)]
      exact h
  · rw [finish_else fuel end_ ws s h1] at h
    rw [finish_else fuel2 end_ ws s h1]
    exact h

theorem dijkstra_path_c_fuel_mono (fuel : Nat) (graph : Graph) (n : Nat) (start end_ : Int)
    (ws : Bool) (r : DijkstraResult)
    (h : dijkstra_path_c fuel graph n start end_ ws = some r) (fuel2 : Nat)
    (hle : fuel ≤ fuel2) : dijkstra_path_c fuel2 graph n start end_ ws = some r := by
  cases hs : dijkstra_search fuel graph n start end_ ws with
  | none =>
    unfold dijkstra_path_c at h
    rw [hs] at h
    exact absurd h (by simp)
  | some s =>
    rw [dijkstra_path_c_eq fuel graph n start end_ ws s hs] at h
    have hs2 : dijkstra_search fuel2 graph n start end_ ws = some s := by
      rw [dijkstra_search_eq] at hs ⊢
      exact search_loop_fuel_mono graph end_ ws _ fuel _ s hs fuel2 hle
    rw [dijkstra_path_c_eq fuel2 graph n start end_ ws s hs2]
    exact finish_fuel_mono fuel end_ ws s r h fuel2 hle

theorem finish_count (fuel : Nat) (end_ : Int) (ws : Bool) (s : SearchState)
    (r : DijkstraResult) (h : finish fuel end_ ws s = some r)
    (hf : s.destination_found = true) (hd : s.distances end_ ≠ DBL_MAX) :
    count_path s.previous fuel end_ 0 = some r.path_length ∧
    r.path = some (build_path s.previous r.path_length end_ []) ∧
    r.distance = s.distances end_ := by
  cases hc : count_path s.previous fuel end_ 0 with
  | none =>
    rw [finish_stuck fuel end_ ws s ⟨hf, hd⟩ hc] at h
    exact absurd h (by simp)
  | some len =>
    rw [finish_found fuel end_ ws s len hf hd hc] at h
    simp only [Option.some.injEq] at h
    subst h
    exact ⟨rfl, rfl, rfl⟩

/-! ## The trace of a finished search -/

/-- The state a search ends in, with the facts about its settle order that
need nothing but in-range edges: the order is not empty and begins with the
source at distance 0. -/
theorem search_trace (graph : Graph) (n : Nat) (start end_ : Int) (ws : Bool)
    (hg : GraphInRange graph n) (hs : ValidNode n start) (fuel : Nat)
    (hfuel : enough_fuel n ≤ fuel) :
    ∃ s1, dijkstra_search fuel graph n start end_ ws = some s1 ∧
      BaseInv graph n start ws (trace_capacity ws)
        (settle_order fuel graph n start end_ ws) s1 ∧
      (∃ rest, settle_order fuel graph n start end_ ws = ⟨start, 0⟩ :: rest) ∧
      explored_list s1 =
        (if ws = true then
          ((settle_order fuel graph n start end_ ws).map (fun e => e.node)).take 10000
        else []) ∧
      s1.explored_count = (if ws = true then min s1.iterations 10000 else 0) := by
  obtain ⟨s1, hrun, hbase, hfound⟩ := search_base graph n start end_ ws hg hs fuel hfuel
  have hne := final_order_ne_nil graph n start end_ ws _ _ s1 hbase hfound
    (search_loop_end graph end_ ws _ fuel _ s1 hrun)
  have hfirst : ∃ rest, settle_order fuel graph n start end_ ws = ⟨start, 0⟩ :: rest := by
    rcases hbase.first with ⟨h1, _⟩ | h
    · exact absurd h1 hne
    · exact h
  have htrace := hbase.trace
  have hcnt : s1.explored_count = (explored_list s1).length := by simp [explored_list]
  refine ⟨s1, hrun, hbase, hfirst, ?_, ?_⟩
  · cases ws with
    | false => simpa using htrace
    | true => simpa [trace_capacity] using htrace
  · rw [hcnt, htrace, hbase.iters]
    cases ws with
    | false => simp
    | true => simp [trace_capacity, Nat.min_comm]

/-! ## Insertion without the order hypothesis -/

theorem heap_push_inserts (pq : PriorityQueue) (node distance : Int)
    (hcap : pq.size < pq.capacity) :
    (heap_push pq node distance).size = pq.size + 1 ∧
    (heap_push pq node distance).capacity = pq.capacity ∧
    (entries (heap_push pq node distance)).Perm (⟨node, distance⟩ :: entries pq) := by
  have hnot : ¬ (pq.size ≥ pq.capacity) := by omega
  unfold heap_push
  simp only [hnot, if_false, heap_bubble_up, entries]
  refine ⟨trivial, trivial, ?_⟩
  refine (bubble_up_loop_perm (pq.size + 1) _ _ _ (by omega)).trans ?_
  rw [List.range_succ, List.map_append, List.map_singleton, Function.update_same]
  have : (List.range pq.size).map (Function.update pq.heap pq.size ⟨node, distance⟩) =
      (List.range pq.size).map pq.heap := by
    apply List.map_congr_left
    intro a ha
    rw [List.mem_range] at ha
    exact Function.update_noteq (by omega) _ _
  rw [this]
  exact List.perm_append_singleton _ _

/-! ## The predecessor walk -/

/-- On a predecessor array in which `a` and `b` name each other the
predecessor walk from either never reaches the `-1` sentinel. -/
theorem count_path_two_cycle (previous : Int → Int) (a b : Int) (ha : a ≠ -1) (hb : b ≠ -1)
    (hab : previous a = b) (hba : previous b = a) :
    ∀ (fuel : Nat) (c : Int) (len : Nat), c = a ∨ c = b →
      count_path previous fuel c len = none := by
  intro fuel
  induction fuel with
  | zero =>
    intro c len hc
    have hc1 : c ≠ -1 := by rcases hc with h | h <;> rw [h] <;> assumption
    simp [count_path, hc1]
  | succ fuel ih =>
    intro c len hc
    have hc1 : c ≠ -1 := by rcases hc with h | h <;> rw [h] <;> assumption
    rw [count_path_next _ _ _ _ hc1]
    apply ih
    rcases hc with h | h
    · right; rw [h, hab]
    · left; rw [h, hba]

/-- With non-negative weights the search returns, the predecessor walk from a
found target reaches the sentinel, and the path is simple and no longer than
the number of nodes. -/
theorem path_is_short (graph : Graph) (n : Nat) (start end_ : Int) (ws : Bool)
    (hg : GraphInRange graph n) (hw : NonNegWeights graph n) (hs : ValidNode n start)
    (fuel : Nat) (hfuel : enough_fuel n ≤ fuel) :
    ∃ s1 r, dijkstra_search fuel graph n start end_ ws = some s1 ∧
      dijkstra_path_c fuel graph n start end_ ws = some r ∧
      BaseInv graph n start ws (trace_capacity ws)
        (settle_order fuel graph n start end_ ws) s1 ∧
      ChainInv graph start (settle_order fuel graph n start end_ ws) s1 ∧
      r.path_length ≤ n ∧
      (s1.destination_found = false → r.path = none ∧ r.path_length = 0) ∧
      (s1.destination_found = true →
        count_path s1.previous fuel end_ 0 = some r.path_length ∧
        ∃ p, r.path = some p ∧ p.length = r.path_length ∧ p.Nodup ∧
          p.head? = some start ∧ p.getLast? = some end_) := by
  obtain ⟨s1, r, hrun, hres, hbase, _, hchain, _, _, _, _, hcase⟩ :=
    search_result graph n start end_ ws hg hw hs
      (fun _ _ => True) trivial (fun _ _ _ _ _ _ _ _ => trivial) fuel hfuel
  refine ⟨s1, r, hrun, hres, hbase, hchain, ?_, ?_, ?_⟩
  · rcases hcase with ⟨_, _, h0, _⟩ | ⟨_, p, _, hlen, _, _, _, _, _, hnd, hsub⟩
    · rw [h0]; exact Nat.zero_le _
    · rw [hlen]
      have h1 := (List.subperm_of_subset hnd hsub).length_le
      have h2 := base_order_length graph n start ws _ _ s1 hbase
      rw [List.length_map] at h1
      omega
  · intro hnf
    rcases hcase with ⟨_, h1, h0, _⟩ | ⟨hf, _⟩
    · exact ⟨h1, h0⟩
    · rw [hnf] at hf; exact absurd hf (by simp)
  · intro hf
    rcases hcase with ⟨hnf, _⟩ | ⟨_, p, hp, hlen, _, _, hhead, hlast, _, hnd, _⟩
    · rw [hf] at hnf; exact absurd hnf (by simp)
    · have hfin := dijkstra_path_c_eq fuel graph n start end_ ws s1 hrun
      rw [hres] at hfin
      have hd : s1.distances end_ ≠ DBL_MAX := by
        intro hd
        rw [finish_else fuel end_ ws s1 (fun h => h.2 hd)] at hfin
        simp only [Option.some.injEq] at hfin
        rw [hfin] at hp
        exact absurd hp (by simp)
      exact ⟨(finish_count fuel end_ ws s1 r hfin.symm hf hd).1, p, hp, hlen.symm, hnd,
        hhead, hlast⟩

/-- With non-negative weights the source is the only settled node whose
predecessor is the `-1` sentinel. -/
theorem settled_pred_sentinel (graph : Graph) (n : Nat) (start : Int) (ws : Bool) (cap : Nat)
    (o : List HeapNode) (s : SearchState) (hbase : BaseInv graph n start ws cap o s)
    (hchain : ChainInv graph start o s) (v : Int) (hv : s.visited v ≠ 0) :
    s.previous v = -1 ↔ v = start := by
  constructor
  · intro hp
    by_contra hne
    have hmem := (hbase.order_mem v).2 hv
    have h1 := hbase.order_range _ (hchain.chain v hmem hne).1
    omega
  · intro h
    rw [h]
    exact hchain.start_prev

/-! ## Distances only fall, settled nodes are not written -/

theorem frozen_refl (s : SearchState) : Frozen s s :=
  ⟨fun _ => le_refl _, fun _ hv => ⟨hv, rfl, rfl⟩⟩

theorem frozen_trans (a b c : SearchState) (hab : Frozen a b) (hbc : Frozen b c) :
    Frozen a c := by
  refine ⟨fun v => le_trans (hbc.1 v) (hab.1 v), fun v hv => ?_⟩
  obtain ⟨h1, h2, h3⟩ := hab.2 v hv
  obtain ⟨k1, k2, k3⟩ := hbc.2 v h1
  exact ⟨k1, k2.trans h2, k3.trans h3⟩

/-- A relaxation from a node settled with the greatest key so far writes no
settled node and raises no distance. -/
theorem relax_edge_frozen (graph : Graph) (start : Int) (u k : Int) (o : List HeapNode)
    (s : SearchState) (e : Edge) (hw : 0 ≤ e.dist) (hk : ∀ x ∈ o, x.distance ≤ k)
    (hvis : ∀ v, s.visited v ≠ 0 → v ∈ o.map (fun e => e.node))
    (hinv : ChainInv graph start o s) :
    Frozen s (relax_edge u k s e) := by
  unfold relax_edge
  simp only []
  split_ifs with hlt
  · have hnotin : e.to_ ∉ o.map (fun e => e.node) := by
      intro hmem
      obtain ⟨x, hx, hxe⟩ := List.mem_map.1 hmem
      have h1 := hinv.order_dist x hx
      have h2 := hk x hx
      have hxe' : x.node = e.to_ := hxe
      rw [hxe'] at h1
      omega
    refine ⟨?_, ?_⟩
    · intro v
      show Function.update s.distances e.to_ (k + e.dist) v ≤ s.distances v
      by_cases hv : v = e.to_
      · subst hv; rw [Function.update_same]; exact le_of_lt hlt
      · rw [Function.update_noteq hv]
    · intro v hv
      have hne : v ≠ e.to_ := fun h => hnotin (h ▸ hvis v hv)
      refine ⟨hv, ?_, ?_⟩
      · show Function.update s.distances e.to_ (k + e.dist) v = s.distances v
        rw [Function.update_noteq hne]
      · show Function.update s.previous e.to_ u v = s.previous v
        rw [Function.update_noteq hne]
  · exact frozen_refl s

/-- A relation kept by the single-edge step, under an invariant of that step,
links the states of the neighbour loop. -/
theorem relax_states_chain (J : SearchState → Prop) (R : SearchState → SearchState → Prop)
    (u k : Int) :
    ∀ (es : List Edge),
      (∀ s e, e ∈ es → J s → J (relax_edge u k s e) ∧ R s (relax_edge u k s e)) →
      ∀ s, J s → List.Chain R s (relax_states u k es s) := by
  intro es
  induction es with
  | nil => intro _ s _; exact List.Chain.nil
  | cons e rest ih =>
    intro hJ s hs
    simp only [relax_states]
    have h := hJ s e (List.mem_cons_self _ _) hs
    exact List.Chain.cons h.2
      (ih (fun s' e' he' => hJ s' e' (List.mem_cons_of_mem _ he')) _ h.1)

/-- The neighbour loop ends in the last of its states. -/
theorem relax_states_last (u k : Int) :
    ∀ (es : List Edge) (s : SearchState),
      ∃ init, s :: relax_states u k es s = init ++ [relax_edges u k es s] := by
  intro es
  induction es with
  | nil => intro s; exact ⟨[], rfl⟩
  | cons e rest ih =>
    intro s
    obtain ⟨init, h⟩ := ih (relax_edge u k s e)
    refine ⟨s :: init, ?_⟩
    simp only [relax_states, relax_edges, List.cons_append]
    rw [h]

theorem trip_states_eq (graph : Graph) (end_ : Int) (ws : Bool) (cap : Nat) (s : SearchState)
    (top : HeapNode) (pq1 : PriorityQueue) (h : heap_pop s.pq = some (top, pq1)) :
    trip_states graph end_ ws cap s =
      if s.visited top.node ≠ 0 then [{ s with pq := pq1 }]
      else if top.node = end_ then
        [{ s with pq := pq1 }, settle ws cap top.node top.distance { s with pq := pq1 },
          { settle ws cap top.node top.distance { s with pq := pq1 } with
            destination_found := true }]
      else
        { s with pq := pq1 } :: settle ws cap top.node top.distance { s with pq := pq1 } ::
          relax_states top.node top.distance (graph top.node)
            (settle ws cap top.node top.distance { s with pq := pq1 }) := by
  unfold trip_states
  rw [h]

/-- One trip of the loop body: its states are linked by `Frozen`, and the
last of them is the state the trip ends in. -/
theorem trip_states_chain (graph : Graph) (n : Nat) (start end_ : Int) (ws : Bool) (cap : Nat)
    (hg : GraphInRange graph n) (hw : NonNegWeights graph n) (o : List HeapNode)
    (s : SearchState) (hbase : BaseInv graph n start ws cap o s)
    (hinv : ChainInv graph start o s) (hsz : s.pq.size ≠ 0) :
    List.Chain Frozen s (trip_states graph end_ ws cap s) ∧
    ∃ init, trip_states graph end_ ws cap s = init ++ [(loop_body graph end_ ws cap s).1] := by
  obtain ⟨top, pq1, hpop, _, _, _, hperm, _, _⟩ :=
    loop_body_cases graph end_ ws cap s hsz hbase.ordered
  have htop : top ∈ entries s.pq := hperm.mem_iff.2 (List.mem_cons_self _ _)
  have hpopped : Frozen s { s with pq := pq1 } :=
    ⟨fun _ => le_refl _, fun _ hv => ⟨hv, rfl, rfl⟩⟩
  rw [trip_states_eq graph end_ ws cap s top pq1 hpop,
    loop_body_eq graph end_ ws cap s top pq1 hpop]
  by_cases hvis : s.visited top.node ≠ 0
  · rw [if_pos hvis, if_pos hvis]
    exact ⟨List.Chain.cons hpopped List.Chain.nil, [], rfl⟩
  · rw [if_neg hvis, if_neg hvis]
    have hv0 : s.visited top.node = 0 := not_not.1 hvis
    obtain ⟨f1, _, _, f4, f5, _⟩ :=
      settle_fields ws cap top.node top.distance { s with pq := pq1 }
    have hsettled : Frozen { s with pq := pq1 }
        (settle ws cap top.node top.distance { s with pq := pq1 }) := by
      refine ⟨fun v => by rw [f4], fun v hv => ⟨?_, by rw [f4], by rw [f5]⟩⟩
      rw [f1]
      by_cases hvt : v = top.node
      · rw [hvt, Function.update_same]; decide
      · rw [Function.update_noteq hvt]; exact hv
    by_cases hend : top.node = end_
    · rw [if_pos hend, if_pos hend]
      refine ⟨List.Chain.cons hpopped (List.Chain.cons hsettled (List.Chain.cons ?_
        List.Chain.nil)), [_, _], rfl⟩
      exact ⟨fun _ => le_refl _, fun _ hv => ⟨hv, rfl, rfl⟩⟩
    · rw [if_neg hend, if_neg hend]
      obtain ⟨r0, rn⟩ := hbase.heap_range top htop
      have hbs := base_settle graph n start ws cap o s hbase top pq1 hpop hv0
      have hcs : ChainInv graph start (o ++ [top])
          (settle ws cap top.node top.distance { s with pq := pq1 }) := by
        have h := chain_step graph n start top.node ws cap hg hw o s hbase hinv hsz
        rw [loop_body_eq graph top.node ws cap s top pq1 hpop, settled_now_eq s top pq1 hpop,
          if_neg hvis, if_neg hvis, if_pos rfl] at h
        exact ⟨h.key_nonneg, h.key_ge, h.order_dist, h.order_le_heap, h.order_keys,
          h.start_dist, h.start_prev, h.heap_prev, h.prev_edge, h.chain⟩
      have hk : ∀ x ∈ o ++ [top], x.distance ≤ top.distance := by
        intro x hx
        rcases List.mem_append.1 hx with h | h
        · exact hinv.order_le_heap x h top htop
        · rw [List.mem_singleton] at h; subst h; exact le_refl _
      have hrel := relax_states_chain
        (fun s' => BaseInv graph n start ws cap (o ++ [top]) s' ∧
          ChainInv graph start (o ++ [top]) s') Frozen
        top.node top.distance (graph top.node)
        (fun s' e he hs' =>
          ⟨⟨relax_edge_base graph n start ws cap hg top.node top.distance r0 rn
              (hbase.heap_reach top htop) _ (by simp) s' e he hs'.1,
            relax_edge_chain graph start top.node top.distance _ s' e he
              (hw top.node r0 rn e he) (hinv.key_nonneg top htop) (by simp) hk
              hs'.1.size_le hs'.1.ordered hs'.2⟩,
            relax_edge_frozen graph start top.node top.distance _ s' e
              (hw top.node r0 rn e he) hk (fun v hv => (hs'.1.order_mem v).2 hv) hs'.2⟩)
        _ ⟨hbs, hcs⟩
      obtain ⟨init, hlast⟩ := relax_states_last top.node top.distance (graph top.node)
        (settle ws cap top.node top.distance { s with pq := pq1 })
      refine ⟨List.Chain.cons hpopped (List.Chain.cons hsettled hrel),
        { s with pq := pq1 } :: init, ?_⟩
      rw [hlast, List.cons_append]

/-- With in-range edges and non-negative weights the states of the main loop
are linked by `Frozen`. -/
theorem search_steps_chain (graph : Graph) (n : Nat) (start end_ : Int) (ws : Bool) (cap : Nat)
    (hg : GraphInRange graph n) (hw : NonNegWeights graph n) :
    ∀ (fuel : Nat) (o : List HeapNode) (s : SearchState),
      BaseInv graph n start ws cap o s → ChainInv graph start o s →
      List.Chain Frozen s (search_steps graph end_ ws cap fuel s) := by
  intro fuel
  induction fuel with
  | zero => intro o s _ _; exact List.Chain.nil
  | succ fuel ih =>
    intro o s hbase hinv
    simp only [search_steps]
    by_cases hempty : heap_is_empty s.pq = true
    · simp only [hempty, if_true]
      exact List.Chain.nil
    · simp only [hempty, Bool.false_eq_true, if_false]
      have hsz : s.pq.size ≠ 0 := by
        intro h0
        apply hempty
        simp [heap_is_empty, h0]
      obtain ⟨htrip, init, hlast⟩ :=
        trip_states_chain graph n start end_ ws cap hg hw o s hbase hinv hsz
      by_cases hgo : (loop_body graph end_ ws cap s).2 = true
      · simp only [hgo, if_true]
        have hnext := ih _ _ (base_step graph n start end_ ws cap hg o s hbase hsz)
          (chain_step graph n start end_ ws cap hg hw o s hbase hinv hsz)
        rw [hlast, List.append_assoc, List.singleton_append, List.chain_split]
        rw [hlast] at htrip
        exact ⟨htrip, hnext⟩
      · simp only [hgo, Bool.false_eq_true, if_false, List.append_nil]
        exact htrip

/-- The state the main loop ends in is the last of the states it passes through. -/
theorem search_steps_last (graph : Graph) (end_ : Int) (ws : Bool) (cap : Nat) :
    ∀ (fuel : Nat) (s s1 : SearchState), search_loop graph end_ ws cap fuel s = some s1 →
      (s :: search_steps graph end_ ws cap fuel s).getLast? = some s1 := by
  intro fuel
  induction fuel with
  | zero =>
    intro s s1 hrun
    simp only [search_loop] at hrun
    split_ifs at hrun
    cases hrun
    simp [search_steps]
  | succ fuel ih =>
    intro s s1 hrun
    simp only [search_loop] at hrun
    simp only [search_steps]
    by_cases hempty : heap_is_empty s.pq = true
    · simp only [hempty, if_true] at hrun ⊢
      cases hrun
      simp
    · simp only [hempty, Bool.false_eq_true, if_false] at hrun ⊢
      have hsz : s.pq.size ≠ 0 := by
        intro h0
        apply hempty
        simp [heap_is_empty, h0]
      have hlast : ∃ init, trip_states graph end_ ws cap s =
          init ++ [(loop_body graph end_ ws cap s).1] := by
        cases hpop : heap_pop s.pq with
        | none =>
          rcases Nat.eq_zero_or_pos s.pq.size with h | h
          · exact absurd h hsz
          · exfalso
            unfold heap_pop at hpop
            simp only [hsz, if_false] at hpop
            split_ifs at hpop
        | some r =>
          obtain ⟨top, pq1⟩ := r
          rw [trip_states_eq graph end_ ws cap s top pq1 hpop,
            loop_body_eq graph end_ ws cap s top pq1 hpop]
          by_cases hvis : s.visited top.node ≠ 0
          · rw [if_pos hvis, if_pos hvis]; exact ⟨[], rfl⟩
          · rw [if_neg hvis, if_neg hvis]
            by_cases hend : top.node = end_
            · rw [if_pos hend, if_pos hend]; exact ⟨[_, _], rfl⟩
            · rw [if_neg hend, if_neg hend]
              obtain ⟨init, h⟩ := relax_states_last top.node top.distance (graph top.node)
                (settle ws cap top.node top.distance { s with pq := pq1 })
              exact ⟨{ s with pq := pq1 } :: init, by rw [h, List.cons_append]⟩
      obtain ⟨init, hl⟩ := hlast
      by_cases hgo : (loop_body graph end_ ws cap s).2 = true
      · simp only [hgo, if_true] at hrun ⊢
        have := ih _ _ hrun
        rw [hl, List.append_assoc, List.singleton_append, ← List.cons_append,
          List.getLast?_append_of_ne_nil _ (List.cons_ne_nil _ _)]
        exact this
      · simp only [hgo, Bool.false_eq_true, if_false, List.append_nil] at hrun ⊢
        have hrun1 : (loop_body graph end_ ws cap s).1 = s1 := by simpa using hrun
        rw [hl, ← hrun1, ← List.cons_append]
        exact List.getLast?_concat _

/-- With in-range edges, non-negative weights and a valid source, any two
states of a search, the earlier first, are related by `Frozen`. -/
theorem search_history_frozen (graph : Graph) (n : Nat) (start end_ : Int) (ws : Bool)
    (hg : GraphInRange graph n) (hw : NonNegWeights graph n) (hs : ValidNode n start)
    (fuel : Nat) :
    (search_history fuel graph n start end_ ws).Pairwise Frozen := by
  haveI : IsTrans SearchState Frozen := ⟨frozen_trans⟩
  unfold search_history
  rw [← List.chain_iff_pairwise]
  exact search_steps_chain graph n start end_ ws (trace_capacity ws) hg hw fuel []
    (init_state n start) (init_base graph n start ws (trace_capacity ws) hs.1 hs.2).1
    (init_chain graph n start hs.1 hs.2)

/-! ## The returned distance is the weight of the returned path -/

theorem relax_edge_pred (graph : Graph) (o : List HeapNode) (top : HeapNode)
    (s : SearchState) (e : Edge) (he : e ∈ graph top.node) (htop : top ∈ o)
    (hinv : PredInv graph o s) :
    PredInv graph o (relax_edge top.node top.distance s e) := by
  unfold relax_edge
  simp only []
  split_ifs with hlt
  · intro v
    show Function.update s.previous e.to_ top.node v ≠ -1 →
      ∃ x ∈ o, x.node = Function.update s.previous e.to_ top.node v ∧
        ∃ e' ∈ graph (Function.update s.previous e.to_ top.node v), e'.to_ = v ∧
          Function.update s.distances e.to_ (top.distance + e.dist) v = x.distance + e'.dist
    by_cases hv : v = e.to_
    · subst hv
      rw [Function.update_same, Function.update_same]
      intro _
      exact ⟨top, htop, rfl, e, he, rfl, rfl⟩
    · rw [Function.update_noteq hv, Function.update_noteq hv]
      exact hinv v
  · exact hinv

theorem pred_step (graph : Graph) (n : Nat) (start end_ : Int) (ws : Bool) (cap : Nat)
    (o : List HeapNode) (s : SearchState) (hbase : BaseInv graph n start ws cap o s)
    (hinv : PredInv graph o s) (hsz : s.pq.size ≠ 0) :
    PredInv graph (o ++ settled_now s) (loop_body graph end_ ws cap s).1 := by
  obtain ⟨top, pq1, _, _, _, _, _, _, hcase⟩ :=
    loop_body_cases graph end_ ws cap s hsz hbase.ordered
  have hsettle : PredInv graph (o ++ [top])
      (settle ws cap top.node top.distance { s with pq := pq1 }) := by
    obtain ⟨_, _, _, f4, f5, _⟩ :=
      settle_fields ws cap top.node top.distance { s with pq := pq1 }
    intro v
    rw [f4, f5]
    intro hv
    obtain ⟨x, hx, h1, h2⟩ := hinv v hv
    exact ⟨x, List.mem_append_left _ hx, h1, h2⟩
  rcases hcase with ⟨_, hb, hs⟩ | ⟨_, _, hb, hs⟩ | ⟨_, _, hb, hs⟩
  · rw [hb, hs, List.append_nil]
    exact hinv
  · rw [hb, hs]
    exact hsettle
  · rw [hb, hs]
    exact relax_edges_induct (PredInv graph (o ++ [top])) top.node top.distance
      (graph top.node)
      (fun s' e he hs' => relax_edge_pred graph _ top s' e he (by simp) hs')
      _ hsettle

/-- Along a predecessor chain that starts at `start`, when every predecessor
link is a graph edge that accounts for the difference of the distances, the
chain is the node list of a walk whose weight is the difference of the
distances of its ends. -/
theorem pred_chain_walk (graph : Graph) (start : Int) (previous D : Int → Int)
    (hlink : ∀ v, previous v ≠ -1 →
      ∃ e ∈ graph (previous v), e.to_ = v ∧ D v = D (previous v) + e.dist) :
    ∀ (m : Nat) (v : Int), (pred_chain previous m v).head? = some start →
      (∀ x ∈ pred_chain previous m v, 0 ≤ x) →
      ∃ es, IsWalk graph start es v ∧ walk_nodes start es = pred_chain previous m v ∧
        D start + walk_weight es = D v := by
  intro m
  induction m with
  | zero =>
    intro v hhead _
    simp [pred_chain] at hhead
  | succ m ih =>
    intro v hhead hpos
    cases m with
    | zero =>
      simp only [pred_chain, List.nil_append, List.head?_cons, Option.some.injEq] at hhead
      subst hhead
      exact ⟨[], rfl, by simp [walk_nodes, pred_chain], by simp [walk_weight]⟩
    | succ m =>
      have hmem : previous v ∈ pred_chain previous (m + 1) (previous v) := by
        simp [pred_chain]
      have hne : pred_chain previous (m + 1) (previous v) ≠ [] := List.ne_nil_of_mem hmem
      have hsplit : pred_chain previous (m + 1 + 1) v =
          pred_chain previous (m + 1) (previous v) ++ [v] := rfl
      rw [hsplit] at hhead hpos
      have hhead1 : (pred_chain previous (m + 1) (previous v)).head? = some start := by
        rw [List.head?_append_of_ne_nil _ hne] at hhead
        exact hhead
      obtain ⟨es, hwalk, hnodes, hweight⟩ := ih (previous v) hhead1
        (fun x hx => hpos x (List.mem_append_left _ hx))
      have hprev : previous v ≠ -1 := by
        have := hpos (previous v) (List.mem_append_left _ hmem)
        omega
      obtain ⟨e, he, hto, hd⟩ := hlink v hprev
      refine ⟨es ++ [e], ?_, ?_, ?_⟩
      · have := isWalk_snoc graph es start (previous v) e hwalk he
        rw [hto] at this
        exact this
      · rw [hsplit, ← hnodes]
        simp [walk_nodes, hto]
      · rw [walk_weight_append, hd, ← hweight]
        simp [walk_weight]
        ring

/-- With non-negative weights and fewer than `2 * node_count` edges a returned
path is the node list of a walk whose weight is the returned distance. -/
theorem path_realises_distance (graph : Graph) (n : Nat) (start end_ : Int) (ws : Bool)
    (hg : GraphInRange graph n) (hw : NonNegWeights graph n)
    (hE : edge_count graph n < 2 * n) (hs : ValidNode n start)
    (fuel : Nat) (hfuel : enough_fuel n ≤ fuel) :
    ∃ r, dijkstra_path_c fuel graph n start end_ ws = some r ∧
      ∀ p, r.path = some p →
        ∃ es, IsWalk graph start es end_ ∧ walk_nodes start es = p ∧
          walk_weight es = r.distance := by
  obtain ⟨s1, r, hrun, hres, hbase, _, hchain, hpred, _, _, _, hcase⟩ :=
    search_result graph n start end_ ws hg hw hs
      (fun o s => PredInv graph o s)
      (fun v hv => absurd rfl hv)
      (fun o s hb _ _ hx _ hsz => pred_step graph n start end_ ws _ o s hb hx hsz)
      fuel hfuel
  obtain ⟨s2, _, hrun2, _, _, _, _, hopt, _⟩ :=
    search_optimal graph n start end_ ws hg hw hE hs fuel hfuel
  rw [hrun] at hrun2
  have hs12 : s1 = s2 := Option.some.inj hrun2
  rw [← hs12] at hopt
  refine ⟨r, hres, ?_⟩
  intro p hp
  rcases hcase with ⟨_, hnone, _⟩ | ⟨_, q, hq, _, hdist, hchainq, hhead, _, _, _, hsub⟩
  · rw [hnone] at hp
    exact absurd hp (by simp)
  · rw [hq] at hp
    have hqp : q = p := Option.some.inj hp
    rw [← hqp]
    have hlink : ∀ v, s1.previous v ≠ -1 →
        ∃ e ∈ graph (s1.previous v), e.to_ = v ∧
          s1.distances v = s1.distances (s1.previous v) + e.dist := by
      intro v hv
      obtain ⟨x, hx, hxn, e, he, hto, hd⟩ := hpred v hv
      refine ⟨e, he, hto, ?_⟩
      rw [hd, ← hxn, hopt.order_exact x hx]
    rw [hchainq] at hhead hsub
    obtain ⟨es, hwalk, hnodes, hweight⟩ :=
      pred_chain_walk graph start s1.previous s1.distances hlink q.length end_ hhead
        (fun x hx => (hbase.order_range x (hsub x hx)).1)
    rw [hchain.start_dist, zero_add] at hweight
    exact ⟨es, hwalk, by rw [hnodes, ← hchainq], by rw [hweight, hdist]⟩

/-! ## Tracing does not influence the search -/

theorem sameSearch_symm (s t : SearchState) (h : SameSearch s t) : SameSearch t s :=
  ⟨h.1.symm, h.2.1.symm, h.2.2.1.symm, h.2.2.2.1.symm, h.2.2.2.2.1.symm, h.2.2.2.2.2.symm⟩

theorem relax_edge_same (u k : Int) (s t : SearchState) (e : Edge) (h : SameSearch s t) :
    SameSearch (relax_edge u k s e) (relax_edge u k t e) := by
  obtain ⟨h1, h2, h3, h4, h5, h6⟩ := h
  unfold relax_edge
  simp only []
  rw [h1, h2, h4]
  split_ifs
  · exact ⟨rfl, rfl, h3, rfl, h5, h6⟩
  · exact ⟨h1, h2, h3, h4, h5, h6⟩

theorem relax_edges_same (u k : Int) (es : List Edge) :
    ∀ (s t : SearchState), SameSearch s t →
      SameSearch (relax_edges u k es s) (relax_edges u k es t) := by
  induction es with
  | nil => intro s t h; exact h
  | cons e rest ih =>
    intro s t h
    simp only [relax_edges]
    exact ih _ _ (relax_edge_same u k s t e h)

theorem settle_same (ws1 ws2 : Bool) (cap1 cap2 : Nat) (u k : Int) (s t : SearchState)
    (h : SameSearch s t) :
    SameSearch (settle ws1 cap1 u k s) (settle ws2 cap2 u k t) := by
  obtain ⟨h1, h2, h3, h4, h5, h6⟩ := h
  obtain ⟨a1, a2, a3, a4, a5, a6⟩ := settle_fields ws1 cap1 u k s
  obtain ⟨b1, b2, b3, b4, b5, b6⟩ := settle_fields ws2 cap2 u k t
  exact ⟨by rw [a4, b4, h1], by rw [a5, b5, h2], by rw [a1, b1, h3], by rw [a3, b3, h4],
    by rw [a2, b2, h5], by rw [a6, b6, h6]⟩

/-- One trip of the loop body does the same to two states that agree, whatever
the tracing flag and the trace capacity of either. -/
theorem loop_body_same (graph : Graph) (end_ : Int) (ws1 ws2 : Bool) (cap1 cap2 : Nat)
    (s t : SearchState) (h : SameSearch s t) :
    SameSearch (loop_body graph end_ ws1 cap1 s).1 (loop_body graph end_ ws2 cap2 t).1 ∧
    (loop_body graph end_ ws1 cap1 s).2 = (loop_body graph end_ ws2 cap2 t).2 := by
  have hpq : t.pq = s.pq := h.2.2.2.1.symm
  cases hpop : heap_pop s.pq with
  | none =>
    have hpop2 : heap_pop t.pq = none := by rw [hpq, hpop]
    unfold loop_body
    rw [hpop, hpop2]
    exact ⟨h, rfl⟩
  | some r =>
    obtain ⟨top, pq1⟩ := r
    have hpop2 : heap_pop t.pq = some (top, pq1) := by rw [hpq, hpop]
    rw [loop_body_eq graph end_ ws1 cap1 s top pq1 hpop,
      loop_body_eq graph end_ ws2 cap2 t top pq1 hpop2]
    have hpopped : SameSearch { s with pq := pq1 } { t with pq := pq1 } :=
      ⟨h.1, h.2.1, h.2.2.1, rfl, h.2.2.2.2.1, h.2.2.2.2.2⟩
    have hsettled := settle_same ws1 ws2 cap1 cap2 top.node top.distance _ _ hpopped
    have hvis : t.visited top.node = s.visited top.node := by rw [h.2.2.1]
    by_cases hv : s.visited top.node ≠ 0
    · have hv2 : t.visited top.node ≠ 0 := by rw [hvis]; exact hv
      rw [if_pos hv, if_pos hv2]
      exact ⟨hpopped, rfl⟩
    · have hv2 : ¬ t.visited top.node ≠ 0 := by rw [hvis]; exact hv
      rw [if_neg hv, if_neg hv2]
      by_cases hend : top.node = end_
      · rw [if_pos hend, if_pos hend]
        exact ⟨⟨hsettled.1, hsettled.2.1, hsettled.2.2.1, hsettled.2.2.2.1,
          hsettled.2.2.2.2.1, rfl⟩, rfl⟩
      · rw [if_neg hend, if_neg hend]
        exact ⟨relax_edges_same _ _ _ _ _ hsettled, rfl⟩

/-- The main loop does the same to two states that agree, whatever the
tracing flag and the trace capacity of either. -/
theorem search_loop_same (graph : Graph) (end_ : Int) (ws1 ws2 : Bool) (cap1 cap2 : Nat) :
    ∀ (fuel : Nat) (s t s1 : SearchState), SameSearch s t →
      search_loop graph end_ ws1 cap1 fuel s = some s1 →
      ∃ t1, search_loop graph end_ ws2 cap2 fuel t = some t1 ∧ SameSearch s1 t1 := by
  intro fuel
  induction fuel with
  | zero =>
    intro s t s1 h hrun
    simp only [search_loop] at hrun ⊢
    have hpq : t.pq = s.pq := h.2.2.2.1.symm
    rw [hpq]
    split_ifs at hrun ⊢
    cases hrun
    exact ⟨t, rfl, h⟩
  | succ fuel ih =>
    intro s t s1 h hrun
    simp only [search_loop] at hrun ⊢
    have hpq : t.pq = s.pq := h.2.2.2.1.symm
    rw [hpq]
    obtain ⟨hb1, hb2⟩ := loop_body_same graph end_ ws1 ws2 cap1 cap2 s t h
    rw [← hb2]
    by_cases hempty : heap_is_empty s.pq = true
    · simp only [hempty, if_true] at hrun ⊢
      cases hrun
      exact ⟨t, rfl, h⟩
    · simp only [hempty, Bool.false_eq_true, if_false] at hrun ⊢
      by_cases hgo : (loop_body graph end_ ws1 cap1 s).2 = true
      · simp only [hgo, if_true] at hrun ⊢
        exact ih _ _ _ hb1 hrun
      · simp only [hgo, Bool.false_eq_true, if_false] at hrun ⊢
        cases hrun
        exact ⟨_, rfl, hb1⟩

/-- The result built from two states that agree has the same path, path
length, distance and iteration count. -/
theorem finish_same (fuel : Nat) (end_ : Int) (ws1 ws2 : Bool) (s t : SearchState)
    (h : SameSearch s t) :
    (finish fuel end_ ws1 s).map search_outcome =
      (finish fuel end_ ws2 t).map search_outcome := by
  obtain ⟨h1, h2, _, _, h5, h6⟩ := h
  unfold finish
  simp only []
  rw [h1, h2, h5, h6]
  split_ifs <;> first | rfl | (cases count_path t.previous fuel end_ 0 <;> rfl)

/-- The outcome of a search does not depend on the tracing flag. -/
theorem outcome_same (fuel : Nat) (graph : Graph) (n : Nat) (start end_ : Int)
    (ws1 ws2 : Bool) :
    (dijkstra_path_c fuel graph n start end_ ws1).map search_outcome =
      (dijkstra_path_c fuel graph n start end_ ws2).map search_outcome := by
  have hinit : SameSearch (init_state n start) (init_state n start) :=
    ⟨rfl, rfl, rfl, rfl, rfl, rfl⟩
  unfold dijkstra_path_c
  rw [dijkstra_search_eq, dijkstra_search_eq]
  cases hrun1 : search_loop graph end_ ws1 (trace_capacity ws1) fuel (init_state n start) with
  | none =>
    cases hrun2 : search_loop graph end_ ws2 (trace_capacity ws2) fuel (init_state n start) with
    | none => rfl
    | some t1 =>
      obtain ⟨s1, hs1, _⟩ := search_loop_same graph end_ ws2 ws1 _ _ fuel _ _ t1 hinit hrun2
      rw [hrun1] at hs1
      exact absurd hs1 (by simp)
  | some s1 =>
    obtain ⟨t1, ht1, hsame⟩ := search_loop_same graph end_ ws1 ws2 _ (trace_capacity ws2) fuel
      _ _ s1 hinit hrun1
    rw [ht1]
    exact finish_same fuel end_ ws1 ws2 s1 t1 hsame

/-! ## Popped keys never fall -/

theorem popped_now_eq (s : SearchState) (top : HeapNode) (pq1 : PriorityQueue)
    (h : heap_pop s.pq = some (top, pq1)) : popped_now s = [top] := by
  unfold popped_now
  rw [h]

/-- With in-range edges and non-negative weights every key popped from a
state on is at least any lower bound `b` of the keys in the queue, and the
popped keys never fall. -/
theorem pop_trace_sorted (graph : Graph) (n : Nat) (start end_ : Int) (ws : Bool) (cap : Nat)
    (hg : GraphInRange graph n) (hw : NonNegWeights graph n) :
    ∀ (fuel : Nat) (o : List HeapNode) (s : SearchState),
      BaseInv graph n start ws cap o s → ChainInv graph start o s →
      ∀ b : Int, (∀ e ∈ entries s.pq, b ≤ e.distance) →
      List.Chain (fun a c : Int => a ≤ c) b
        ((pop_trace graph end_ ws cap fuel s).map (fun e => e.distance)) := by
  intro fuel
  induction fuel with
  | zero => intro o s _ _ b _; exact List.Chain.nil
  | succ fuel ih =>
    intro o s hbase hinv b hb
    simp only [pop_trace]
    by_cases hempty : heap_is_empty s.pq = true
    · simp only [hempty, if_true]
      exact List.Chain.nil
    · simp only [hempty, Bool.false_eq_true, if_false]
      have hsz : s.pq.size ≠ 0 := by
        intro h0
        apply hempty
        simp [heap_is_empty, h0]
      obtain ⟨top, pq1, hpop, _, _, _, hperm, hmin, hcase⟩ :=
        loop_body_cases graph end_ ws cap s hsz hbase.ordered
      have hsub : ∀ x ∈ entries pq1, x ∈ entries s.pq :=
        fun x hx => hperm.mem_iff.2 (List.mem_cons_of_mem _ hx)
      have htop : top ∈ entries s.pq := hperm.mem_iff.2 (List.mem_cons_self _ _)
      rw [popped_now_eq s top pq1 hpop, List.singleton_append, List.map_cons]
      refine List.Chain.cons (hb top htop) ?_
      by_cases hgo : (loop_body graph end_ ws cap s).2 = true
      · simp only [hgo, if_true]
        have hnext_base := base_step graph n start end_ ws cap hg o s hbase hsz
        have hnext_chain := chain_step graph n start end_ ws cap hg hw o s hbase hinv hsz
        refine ih _ _ hnext_base hnext_chain top.distance ?_
        rcases hcase with ⟨_, hbody, _⟩ | ⟨_, _, hbody, _⟩ | ⟨_, _, hbody, hset⟩
        · rw [hbody]
          exact fun e he => hmin e (hsub e he)
        · rw [hbody] at hgo
          exact absurd hgo Bool.false_ne_true
        · rw [hset] at hnext_chain
          exact fun e he => hnext_chain.order_le_heap top (by simp) e he
      · simp only [hgo, Bool.false_eq_true, if_false]
        exact List.Chain.nil

/-- The settle events are among the pops, in the same order. -/
theorem settle_trace_sublist (graph : Graph) (end_ : Int) (ws : Bool) (cap : Nat) :
    ∀ (fuel : Nat) (s : SearchState),
      (settle_trace graph end_ ws cap fuel s).Sublist (pop_trace graph end_ ws cap fuel s) := by
  intro fuel
  induction fuel with
  | zero => intro s; exact List.Sublist.refl _
  | succ fuel ih =>
    intro s
    simp only [settle_trace, pop_trace]
    by_cases hempty : heap_is_empty s.pq = true
    · simp only [hempty, if_true]
      exact List.Sublist.refl _
    · simp only [hempty, Bool.false_eq_true, if_false]
      have hnow : (settled_now s).Sublist (popped_now s) := by
        unfold settled_now popped_now
        cases heap_pop s.pq with
        | none => exact List.Sublist.refl _
        | some r =>
          obtain ⟨top, pq1⟩ := r
          simp only []
          split_ifs
          · exact List.nil_sublist _
          · exact List.Sublist.refl _
      refine List.Sublist.append hnow ?_
      by_cases hgo : (loop_body graph end_ ws cap s).2 = true
      · simp only [hgo, if_true]
        exact ih _
      · simp only [hgo, Bool.false_eq_true, if_false]
        exact List.Sublist.refl _

/-- The first pop of a search delivers the source with key 0. -/
theorem pop_order_head (fuel : Nat) (graph : Graph) (n : Nat) (start end_ : Int) (ws : Bool)
    (hs : ValidNode n start) (hfuel : 1 ≤ fuel) :
    ∃ rest, pop_order fuel graph n start end_ ws = ⟨start, 0⟩ :: rest := by
  obtain ⟨f, rfl⟩ : ∃ f, fuel = f + 1 := ⟨fuel - 1, by omega⟩
  obtain ⟨hbase, hsize, hent⟩ := init_base graph n start ws (trace_capacity ws) hs.1 hs.2
  have hsz : (init_state n start).pq.size ≠ 0 := by omega
  have hempty : heap_is_empty (init_state n start).pq = false := by
    simp [heap_is_empty, hsz]
  obtain ⟨top, pq1, hpop, _, _, _, _, hperm, _⟩ :=
    heap_pop_spec (init_state n start).pq (Nat.pos_of_ne_zero hsz) hbase.ordered
  have htop : top ∈ entries (init_state n start).pq :=
    hperm.mem_iff.2 (List.mem_cons_self _ _)
  rw [hent, List.mem_singleton] at htop
  unfold pop_order
  simp only [pop_trace, hempty, Bool.false_eq_true, if_false]
  rw [popped_now_eq _ top pq1 hpop, htop]
  exact ⟨_, rfl⟩

theorem explored_distance_list_settle (ws : Bool) (cap : Nat) (u k : Int) (s : SearchState) :
    explored_distance_list (settle ws cap u k s) =
      if ws = true ∧ s.explored_count < cap then explored_distance_list s ++ [k]
      else explored_distance_list s := by
  unfold settle
  simp only []
  split_ifs with h
  · simp only [explored_distance_list, List.range_succ, List.map_append, List.map_singleton,
      Function.update_same]
    congr 1
    apply List.map_congr_left
    intro a ha
    rw [List.mem_range] at ha
    exact Function.update_noteq (by omega) _ _
  · rfl

/-- One trip of the loop body keeps the buffer of distances equal to the
keys of the settle events so far, cut at the trace capacity. -/
theorem distance_trace_step (graph : Graph) (n : Nat) (start end_ : Int) (ws : Bool) (cap : Nat)
    (o : List HeapNode) (s : SearchState) (hbase : BaseInv graph n start ws cap o s)
    (hinv : explored_distance_list s =
      if ws = true then (o.map (fun e => e.distance)).take cap else [])
    (hsz : s.pq.size ≠ 0) :
    explored_distance_list (loop_body graph end_ ws cap s).1 =
      if ws = true then ((o ++ settled_now s).map (fun e => e.distance)).take cap else [] := by
  obtain ⟨top, pq1, _, _, _, _, _, _, hcase⟩ :=
    loop_body_cases graph end_ ws cap s hsz hbase.ordered
  have hsettle : explored_distance_list
      (settle ws cap top.node top.distance { s with pq := pq1 }) =
      if ws = true then ((o ++ [top]).map (fun e => e.distance)).take cap else [] := by
    rw [explored_distance_list_settle]
    have htr := hbase.trace
    have hcount : ({ s with pq := pq1 } : SearchState).explored_count = s.explored_count := rfl
    have hlist : explored_distance_list ({ s with pq := pq1 } : SearchState) =
        explored_distance_list s := rfl
    rw [hcount, hlist]
    have hlen : s.explored_count = (explored_list s).length := by
      simp [explored_list]
    by_cases hws : ws = true
    · simp only [hws, if_true, true_and] at htr hinv ⊢
      rw [List.map_append, List.map_singleton]
      rw [htr, List.length_take, List.length_map] at hlen
      by_cases hc : s.explored_count < cap
      · simp only [hc, if_true]
        have hol : o.length < cap := by omega
        rw [hinv, List.take_of_length_le (by simp; omega),
          List.take_of_length_le (by simp; omega)]
      · simp only [hc, if_false]
        have hol : cap ≤ o.length := by omega
        rw [hinv, List.take_append_of_le_length (by simp; omega)]
    · simp only [hws, if_false, false_and] at hinv ⊢
      exact hinv
  rcases hcase with ⟨_, hb, hs⟩ | ⟨_, _, hb, hs⟩ | ⟨_, _, hb, hs⟩
  · rw [hb, hs, List.append_nil]
    exact hinv
  · rw [hb, hs]
    exact hsettle
  · rw [hb, hs]
    obtain ⟨_, _, _, h4, h5, _⟩ := relax_edges_frame top.node top.distance (graph top.node)
      (settle ws cap top.node top.distance { s with pq := pq1 })
    have : explored_distance_list (relax_edges top.node top.distance (graph top.node)
        (settle ws cap top.node top.distance { s with pq := pq1 })) =
        explored_distance_list (settle ws cap top.node top.distance { s with pq := pq1 }) := by
      simp only [explored_distance_list, h4, h5]
    rw [this]
    exact hsettle

/-- With non-negative weights: the keys popped in a search never fall, the
settle events are among the pops, and the buffer of distances holds the keys
of the first settle events, which never fall and begin with 0. -/
theorem pops_nondecreasing (graph : Graph) (n : Nat) (start end_ : Int) (ws : Bool)
    (hg : GraphInRange graph n) (hw : NonNegWeights graph n) (hs : ValidNode n start)
    (fuel : Nat) (hfuel : enough_fuel n ≤ fuel) :
    ∃ s1, dijkstra_search fuel graph n start end_ ws = some s1 ∧
      ((pop_order fuel graph n start end_ ws).map (fun e => e.distance)).Pairwise
        (fun a b => a ≤ b) ∧
      (∃ rest, pop_order fuel graph n start end_ ws = ⟨start, 0⟩ :: rest) ∧
      (settle_order fuel graph n start end_ ws).Sublist
        (pop_order fuel graph n start end_ ws) ∧
      (∃ rest, settle_order fuel graph n start end_ ws = ⟨start, 0⟩ :: rest) ∧
      ((settle_order fuel graph n start end_ ws).map (fun e => e.distance)).Pairwise
        (fun a b => a ≤ b) ∧
      explored_distance_list s1 =
        (if ws = true then
          ((settle_order fuel graph n start end_ ws).map (fun e => e.distance)).take 10000
        else []) ∧
      (explored_distance_list s1).Pairwise (fun a b => a ≤ b) ∧
      (ws = true → (explored_distance_list s1).head? = some 0) := by
  obtain ⟨s1, _, hrun, _, _, _, hchain, hdist, _⟩ :=
    search_result graph n start end_ ws hg hw hs
      (fun o s => explored_distance_list s =
        if ws = true then (o.map (fun e => e.distance)).take (trace_capacity ws) else [])
      (by cases ws <;> rfl)
      (fun o s hb _ _ hx _ hsz => distance_trace_step graph n start end_ ws _ o s hb hx hsz)
      fuel hfuel
  obtain ⟨_, _, _, hfirst, _, _⟩ := search_trace graph n start end_ ws hg hs fuel hfuel
  obtain ⟨hbase0, _, hent0⟩ := init_base graph n start ws (trace_capacity ws) hs.1 hs.2
  have hpops := pop_trace_sorted graph n start end_ ws (trace_capacity ws) hg hw fuel []
    (init_state n start) hbase0 (init_chain graph n start hs.1 hs.2) 0
    (by
      intro e he
      rw [hent0, List.mem_singleton] at he
      rw [he])
  have hpair : ((pop_order fuel graph n start end_ ws).map (fun e => e.distance)).Pairwise
      (fun a b => a ≤ b) := by
    have h := (List.chain_iff_pairwise.1 hpops)
    exact (List.pairwise_cons.1 h).2
  have hdist2 : explored_distance_list s1 =
      (if ws = true then
        ((settle_order fuel graph n start end_ ws).map (fun e => e.distance)).take 10000
      else []) := by
    rw [hdist]
    cases ws with
    | false => rfl
    | true => rfl
  refine ⟨s1, hrun, hpair,
    pop_order_head fuel graph n start end_ ws hs (le_trans (by unfold enough_fuel; omega) hfuel),
    settle_trace_sublist graph end_ ws (trace_capacity ws) fuel (init_state n start),
    hfirst, hchain.order_keys, hdist2, ?_, ?_⟩
  · rw [hdist2]
    split_ifs
    · exact hchain.order_keys.sublist (List.take_sublist _ _)
    · exact List.Pairwise.nil
  · intro hws
    obtain ⟨rest, hrest⟩ := hfirst
    rw [hdist2, if_pos hws, hrest]
    rfl

/-! ## Machine addition: where it is exact -/

theorem bit_length_le : ∀ (fuel m k : Nat), m < 2 ^ k → bit_length fuel m ≤ k := by
  intro fuel
  induction fuel with
  | zero => intro m k _; exact Nat.zero_le _
  | succ fuel ih =>
    intro m k hm
    simp only [bit_length]
    split_ifs with h0
    · exact Nat.zero_le _
    · cases k with
      | zero =>
        simp only [pow_zero] at hm
        omega
      | succ k =>
        have hhalf : m / 2 < 2 ^ k := by
          rw [pow_succ] at hm
          omega
        have := ih (m / 2) k hhalf
        omega

/-- With enough fuel `bit_length` is the number of binary digits. -/
theorem bit_length_spec : ∀ (fuel m : Nat), m ≤ fuel → m ≠ 0 →
    2 ^ (bit_length fuel m - 1) ≤ m ∧ m < 2 ^ bit_length fuel m := by
  intro fuel
  induction fuel with
  | zero => intro m h1 h2; omega
  | succ fuel ih =>
    intro m hm h0
    simp only [bit_length, if_neg h0]
    by_cases h1 : m / 2 = 0
    · have hm1 : m = 1 := by omega
      subst hm1
      cases fuel <;> simp [bit_length]
    · obtain ⟨a, b⟩ := ih (m / 2) (by omega) h1
      have hpos : 1 ≤ bit_length fuel (m / 2) := by
        cases fuel with
        | zero => omega
        | succ f => simp only [bit_length, if_neg h1]; omega
      constructor
      · have hsplit : bit_length fuel (m / 2) + 1 - 1 = (bit_length fuel (m / 2) - 1) + 1 := by
          omega
        rw [hsplit, pow_succ]
        omega
      · rw [pow_succ]
        omega

/-- A whole number from `0` to `2^53` is a `double`: rounding keeps it. -/
theorem double_round_exact (x : Int) (h0 : 0 ≤ x) (h1 : x ≤ MAX_EXACT) : double_round x = x := by
  rcases eq_or_lt_of_le h1 with h | h
  · rw [h]
    decide!
  · obtain ⟨m, rfl⟩ := Int.eq_ofNat_of_zero_le h0
    have hm : m < 2 ^ 53 := by
      unfold MAX_EXACT at h
      omega
    have he : bit_length m m - DBL_MANT_DIG = 0 := by
      have := bit_length_le m m 53 hm
      unfold DBL_MANT_DIG
      omega
    unfold double_round
    simp only [Int.natAbs_ofNat, he, pow_zero, Nat.div_one, Nat.mod_one, mul_zero, mul_one]
    have hc : ¬ (1 < 0 ∨ (0 = 1 ∧ m % 2 = 1)) := by omega
    rw [if_neg hc]
    rcases Nat.eq_zero_or_pos m with hz | hp
    · subst hz; rfl
    · have : Int.sign (m : Int) = 1 := Int.sign_eq_one_of_pos (by exact_mod_cast hp)
      rw [this, one_mul]

theorem double_add_exact (a b : Int) (h0 : 0 ≤ a + b) (h1 : a + b ≤ MAX_EXACT) :
    double_add a b = a + b :=
  double_round_exact (a + b) h0 h1

theorem relax_edges_ieee_eq (u k : Int) :
    ∀ (es : List Edge), (∀ e ∈ es, double_add k e.dist = k + e.dist) →
      ∀ s : SearchState, relax_edges_ieee u k es s = relax_edges u k es s := by
  intro es
  induction es with
  | nil => intro _ s; rfl
  | cons e rest ih =>
    intro hex s
    have h1 : relax_edge_ieee u k s e = relax_edge u k s e := by
      unfold relax_edge_ieee relax_edge
      rw [hex e (List.mem_cons_self _ _)]
    simp only [relax_edges_ieee, relax_edges]
    rw [h1]
    exact ih (fun e' he' => hex e' (List.mem_cons_of_mem _ he')) _

theorem loop_body_ieee_eq (graph : Graph) (end_ : Int) (ws : Bool) (cap : Nat) (s : SearchState)
    (hex : ∀ top pq1, heap_pop s.pq = some (top, pq1) → s.visited top.node = 0 →
      ∀ e ∈ graph top.node, double_add top.distance e.dist = top.distance + e.dist) :
    loop_body_ieee graph end_ ws cap s = loop_body graph end_ ws cap s := by
  unfold loop_body_ieee loop_body
  cases hpop : heap_pop s.pq with
  | none => rfl
  | some r =>
    obtain ⟨top, pq1⟩ := r
    simp only []
    by_cases hvis : s.visited top.node ≠ 0
    · rw [if_pos hvis, if_pos hvis]
    · rw [if_neg hvis, if_neg hvis]
      by_cases hend : top.node = end_
      · rw [if_pos hend, if_pos hend]
      · rw [if_neg hend, if_neg hend]
        rw [relax_edges_ieee_eq top.node top.distance (graph top.node)
          (hex top pq1 hpop (not_not.1 hvis))]

theorem init_bound (n : Nat) (start : Int) (W : Int) (graph : Graph)
    (h0 : 0 ≤ start) (hn : start < n) : BoundInv W [] (init_state n start) := by
  obtain ⟨_, _, hent⟩ := init_base graph n start false 0 h0 hn
  refine ⟨?_, fun x hx => absurd hx (List.not_mem_nil _)⟩
  intro e he
  rw [hent, List.mem_singleton] at he
  rw [he]
  simp

/-- One trip of the loop body keeps the keys bounded. -/
theorem bound_step (graph : Graph) (n : Nat) (start end_ : Int) (ws : Bool) (cap : Nat)
    (hg : GraphInRange graph n) (W : Int) (hW0 : 0 ≤ W) (hmax : WeightsAtMost graph n W)
    (o : List HeapNode) (s : SearchState) (hbase : BaseInv graph n start ws cap o s)
    (hinv : BoundInv W o s) (hsz : s.pq.size ≠ 0) :
    BoundInv W (o ++ settled_now s) (loop_body graph end_ ws cap s).1 := by
  obtain ⟨top, pq1, hpop, _, _, _, hperm, _, hcase⟩ :=
    loop_body_cases graph end_ ws cap s hsz hbase.ordered
  have hsub : ∀ x ∈ entries pq1, x ∈ entries s.pq :=
    fun x hx => hperm.mem_iff.2 (List.mem_cons_of_mem _ hx)
  have htop : top ∈ entries s.pq := hperm.mem_iff.2 (List.mem_cons_self _ _)
  have hlen : (((o ++ [top]).length : Nat) : Int) * W = (o.length : Int) * W + W := by
    rw [List.length_append, List.length_singleton]
    push_cast
    ring
  have hgrow : (o.length : Int) * W ≤ (((o ++ [top]).length : Nat) : Int) * W := by
    rw [hlen]; omega
  have holdo : ∀ x ∈ o ++ [top], x.distance ≤ (((o ++ [top]).length : Nat) : Int) * W := by
    intro x hx
    rcases List.mem_append.1 hx with h | h
    · exact le_trans (hinv.2 x h) hgrow
    · rw [List.mem_singleton] at h
      subst h
      exact le_trans (hinv.1 x htop) hgrow
  have hsettle : BoundInv W (o ++ [top])
      (settle ws cap top.node top.distance { s with pq := pq1 }) := by
    obtain ⟨_, _, f3, _, _, _⟩ :=
      settle_fields ws cap top.node top.distance { s with pq := pq1 }
    refine ⟨?_, holdo⟩
    rw [f3]
    intro e he
    exact le_trans (hinv.1 e (hsub e he)) hgrow
  rcases hcase with ⟨_, hb, hs⟩ | ⟨_, _, hb, hs⟩ | ⟨hv0, _, hb, hs⟩
  · rw [hb, hs, List.append_nil]
    exact ⟨fun e he => hinv.1 e (hsub e he), hinv.2⟩
  · rw [hb, hs]
    exact ⟨hsettle.1, hsettle.2⟩
  · rw [hb, hs]
    obtain ⟨r0, rn⟩ := hbase.heap_range top htop
    have hbs := base_settle graph n start ws cap o s hbase top pq1 hpop hv0
    have hJ := relax_edges_induct
      (fun s' => BaseInv graph n start ws cap (o ++ [top]) s' ∧ BoundInv W (o ++ [top]) s')
      top.node top.distance (graph top.node)
      (fun s' e he hs' => by
        refine ⟨relax_edge_base graph n start ws cap hg top.node top.distance r0 rn
          (hbase.heap_reach top htop) _ (by simp) s' e he hs'.1, ?_, holdo⟩
        unfold relax_edge
        simp only []
        split_ifs with hlt
        · obtain ⟨_, _, _, _, _, h6, _⟩ := heap_push_general s'.pq e.to_
            (top.distance + e.dist) hs'.1.size_le hs'.1.ordered
          intro x hx
          rcases h6 x hx with h | h
          · exact hs'.2.1 x h
          · subst h
            have h1 := hinv.1 top htop
            have h2 := hmax top.node r0 rn e he
            show top.distance + e.dist ≤ _
            rw [hlen]
            omega
        · exact hs'.2.1)
      _ ⟨hbs, hsettle⟩
    exact hJ.2

/-- With whole-number weights from `0` to `W` and `node_count * W ≤ 2^53`,
every sum the main loop forms is a whole number of at most `2^53`, so the
loop with machine addition passes through the same states as the loop with
exact addition. -/
theorem search_loop_ieee_eq (graph : Graph) (n : Nat) (start end_ : Int) (ws : Bool) (cap : Nat)
    (hg : GraphInRange graph n) (hw : NonNegWeights graph n)
    (W : Int) (hW0 : 0 ≤ W) (hmax : WeightsAtMost graph n W)
    (hexact : (n : Int) * W ≤ MAX_EXACT) :
    ∀ (fuel : Nat) (o : List HeapNode) (s : SearchState),
      BaseInv graph n start ws cap o s → ChainInv graph start o s → BoundInv W o s →
      search_loop_ieee graph end_ ws cap fuel s = search_loop graph end_ ws cap fuel s := by
  intro fuel
  induction fuel with
  | zero => intro o s _ _ _; rfl
  | succ fuel ih =>
    intro o s hbase hchain hbound
    simp only [search_loop_ieee, search_loop]
    by_cases hempty : heap_is_empty s.pq = true
    · simp only [hempty, if_true]
    · simp only [hempty, Bool.false_eq_true, if_false]
      have hsz : s.pq.size ≠ 0 := by
        intro h0
        apply hempty
        simp [heap_is_empty, h0]
      have hbody : loop_body_ieee graph end_ ws cap s = loop_body graph end_ ws cap s := by
        apply loop_body_ieee_eq
        intro top pq1 hpop hv0 e he
        obtain ⟨top', pq1', hpop', _, _, _, _, hperm, _⟩ :=
          heap_pop_spec s.pq (Nat.pos_of_ne_zero hsz) hbase.ordered
        rw [hpop] at hpop'
        simp only [Option.some.injEq, Prod.mk.injEq] at hpop'
        obtain ⟨rfl, rfl⟩ := hpop'
        have htop : top ∈ entries s.pq := hperm.mem_iff.2 (List.mem_cons_self _ _)
        obtain ⟨r0, rn⟩ := hbase.heap_range top htop
        have hbs := base_settle graph n start ws cap o s hbase top pq1 hpop hv0
        have hlen := base_order_length graph n start ws cap _ _ hbs
        rw [List.length_append, List.length_singleton] at hlen
        have h1 := hchain.key_nonneg top htop
        have h2 := hbound.1 top htop
        have h3 := hw top.node r0 rn e he
        have h4 := hmax top.node r0 rn e he
        have h5 : ((o.length : Int) + 1) * W ≤ (n : Int) * W :=
          mul_le_mul_of_nonneg_right (by exact_mod_cast hlen) hW0
        have h6 : ((o.length : Int) + 1) * W = (o.length : Int) * W + W := by ring
        exact double_add_exact _ _ (by omega) (by omega)
      rw [hbody]
      by_cases hgo : (loop_body graph end_ ws cap s).2 = true
      · simp only [hgo, if_true]
        exact ih _ _ (base_step graph n start end_ ws cap hg o s hbase hsz)
          (chain_step graph n start end_ ws cap hg hw o s hbase hchain hsz)
          (bound_step graph n start end_ ws cap hg W hW0 hmax o s hbase hbound hsz)
      · simp only [hgo, Bool.false_eq_true, if_false]

/-- With whole-number weights from `0` to `W` and `node_count * W ≤ 2^53`,
`dijkstra_path_c` with machine addition and with exact addition give the same
result, for every fuel. -/
theorem ieee_search_agrees (graph : Graph) (n : Nat) (start end_ : Int) (ws : Bool)
    (hg : GraphInRange graph n) (hw : NonNegWeights graph n)
    (W : Int) (hW0 : 0 ≤ W) (hmax : WeightsAtMost graph n W)
    (hexact : (n : Int) * W ≤ MAX_EXACT) (hs : ValidNode n start) (fuel : Nat) :
    dijkstra_path_c_ieee fuel graph n start end_ ws =
      dijkstra_path_c fuel graph n start end_ ws := by
  have h := search_loop_ieee_eq graph n start end_ ws (trace_capacity ws) hg hw W hW0 hmax
    hexact fuel [] (init_state n start)
    (init_base graph n start ws (trace_capacity ws) hs.1 hs.2).1
    (init_chain graph n start hs.1 hs.2) (init_bound n start W graph hs.1 hs.2)
  unfold dijkstra_path_c_ieee dijkstra_path_c dijkstra_search_ieee dijkstra_search
  rw [h]

/-- With whole-number weights from `0` to `W`, `node_count * W ≤ 2^53` and
fewer than `2 * node_count` edges, a target joined to the source by a walk is
found, and the distance returned is the least weight of a walk. -/
theorem shortest_distance_bounded (graph : Graph) (n : Nat) (start end_ : Int) (ws : Bool)
    (hg : GraphInRange graph n) (hw : NonNegWeights graph n)
    (W : Int) (hW0 : 0 ≤ W) (hmax : WeightsAtMost graph n W)
    (hexact : (n : Int) * W ≤ MAX_EXACT)
    (hE : edge_count graph n < 2 * n) (hs : ValidNode n start)
    (es0 : List Edge) (hwalk : IsWalk graph start es0 end_)
    (fuel : Nat) (hfuel : enough_fuel n ≤ fuel) :
    ∃ r, dijkstra_path_c fuel graph n start end_ ws = some r ∧
      r.path ≠ none ∧
      (∃ es, IsWalk graph start es end_ ∧ walk_weight es = r.distance) ∧
      (∀ es, IsWalk graph start es end_ → r.distance ≤ walk_weight es) := by
  obtain ⟨s1, r, hrun, hres, hbase, hfound, _, hopt, hnotfound, hcases⟩ :=
    search_optimal graph n start end_ ws hg hw hE hs fuel hfuel
  obtain ⟨s2, hrun2, _, _, hbound⟩ := search_invariant graph n start end_ ws hg hs
    (fun o s => BoundInv W o s) (init_bound n start W graph hs.1 hs.2)
    (fun o s hb _ hx _ hsz => bound_step graph n start end_ ws _ hg W hW0 hmax o s hb hx hsz)
    fuel hfuel
  rw [hrun] at hrun2
  have hs12 : s1 = s2 := Option.some.inj hrun2
  rw [← hs12] at hbound
  refine ⟨r, hres, ?_⟩
  rcases hcases with ⟨hnf, _, _, _⟩ | ⟨hf, p, hp, _, hdist, _⟩
  · exfalso
    obtain ⟨hfront, hsize⟩ := hnotfound hnf
    have hent : entries s1.pq = [] := by simp [entries, hsize]
    have hend : end_ ∉ (settle_order fuel graph n start end_ ws).map (fun e => e.node) := by
      intro h
      have h1 := (hbase.order_mem end_).1 h
      have h2 := hfound.found.2 h1
      rw [hnf] at h2
      exact Bool.false_ne_true h2
    have hstart : start ∈ (settle_order fuel graph n start end_ ws).map (fun e => e.node) := by
      rcases hbase.first with ⟨_, h2⟩ | ⟨rest, h2⟩
      · rw [hent] at h2
        exact absurd h2 (by simp)
      · rw [h2]; simp
    obtain ⟨p, x, e, hp, hSx, hxv, he, hSy, _⟩ := walk_crossing graph n hg hw
      (fun v => v ∈ (settle_order fuel graph n start end_ ws).map (fun e => e.node))
      es0 start end_ hs hstart hend hwalk
    obtain ⟨x', hx', hxx⟩ := List.mem_map.1 hSx
    have hxx' : x'.node = x := hxx
    have h2 := hmax x hxv.1 hxv.2 e he
    rw [← hxx'] at he
    have h4 := hfront.relaxed x' hx' e he
    have h5 := hbound.2 x' hx'
    have h6 := base_order_length graph n start ws _ _ s1 hbase
    have h7 : ((settle_order fuel graph n start end_ ws).length : Int) * W ≤ (n : Int) * W :=
      mul_le_mul_of_nonneg_right (by exact_mod_cast h6) hW0
    have h8 : W ≤ (n : Int) * W := by
      have hn1 : (1 : Int) ≤ (n : Int) := by
        have := hs.1
        have := hs.2
        omega
      have := mul_le_mul_of_nonneg_right hn1 hW0
      omega
    have hlt : s1.distances e.to_ < DBL_MAX := by
      unfold MAX_EXACT at hexact
      unfold DBL_MAX
      omega
    rcases hfront.complete e.to_ hlt with h | h
    · exact hSy h
    · rw [hent] at h
      exact absurd h (by simp)
  · have hv := hfound.found.1 hf
    have hmem := (hbase.order_mem end_).2 hv
    obtain ⟨x, hx, hxe⟩ := List.mem_map.1 hmem
    have hxe' : x.node = end_ := hxe
    have hex := hopt.order_exact x hx
    rw [hxe'] at hex
    refine ⟨by rw [hp]; simp, ?_, ?_⟩
    · rw [hdist]
      exact hopt.dist_walk end_ (hbase.order_lt end_ hmem)
    · intro es hes
      rw [hdist, hex]
      rw [← hxe'] at hes
      exact hopt.settled_opt x hx es hes

/-! ## Facts about the concrete inputs -/

theorem DBL_MAX_eq : DBL_MAX = 2 ^ 1024 - 2 ^ 971 := by
  unfold DBL_MAX
  norm_num

theorem HUGE_WEIGHT_eq : HUGE_WEIGHT = 2 ^ 1023 := by
  unfold HUGE_WEIGHT
  norm_num

theorem scenarioA_in_range : GraphInRange scenarioA 4 := by
  intro u _ _ e he
  unfold scenarioA at he
  split_ifs at he <;> simp at he
  · rcases he with rfl | rfl <;> simp
  · subst he; simp
  · subst he; simp

theorem scenarioA_nonneg : NonNegWeights scenarioA 4 := by
  intro u _ _ e he
  unfold scenarioA at he
  split_ifs at he <;> simp at he
  · rcases he with rfl | rfl <;> simp
  · subst he; simp
  · subst he; simp

theorem scenarioB_in_range (n : Nat) : GraphInRange scenarioB n := by
  intro u _ _ e he
  simp [scenarioB] at he

theorem scenarioB_no_walk : ∀ es, ¬ IsWalk scenarioB 0 es 2 := by
  intro es h
  cases es with
  | nil => simp [IsWalk] at h
  | cons e rest => simp [IsWalk, scenarioB] at h

theorem scenarioC_in_range : GraphInRange scenarioC 2 := by
  intro u _ _ e he
  unfold scenarioC at he
  split_ifs at he <;> simp at he
  rcases he with rfl | rfl <;> simp

theorem scenarioC_nonneg : NonNegWeights scenarioC 2 := by
  intro u _ _ e he
  unfold scenarioC at he
  split_ifs at he <;> simp at he
  rcases he with rfl | rfl <;> simp

theorem dropGraph_in_range : GraphInRange dropGraph 3 := by
  intro u _ _ e he
  unfold dropGraph at he
  split_ifs at he <;> simp at he
  rcases he with rfl | rfl | rfl | rfl | rfl | rfl | rfl <;> simp

theorem dropGraph_nonneg : NonNegWeights dropGraph 3 := by
  intro u _ _ e he
  unfold dropGraph at he
  split_ifs at he <;> simp at he
  rcases he with rfl | rfl | rfl | rfl | rfl | rfl | rfl <;> simp

theorem overflowGraph_in_range : GraphInRange overflowGraph 3 := by
  intro u _ _ e he
  unfold overflowGraph at he
  split_ifs at he <;> simp at he <;> subst he <;> simp

theorem overflowGraph_nonneg : NonNegWeights overflowGraph 3 := by
  intro u _ _ e he
  unfold overflowGraph at he
  split_ifs at he <;> simp at he <;> subst he <;> decide

theorem overflowGraph_walks (es : List Edge) (h : IsWalk overflowGraph 0 es 2) :
    walk_weight es = HUGE_WEIGHT + HUGE_WEIGHT := by
  cases es with
  | nil => simp [IsWalk] at h
  | cons e1 r1 =>
    simp only [IsWalk] at h
    obtain ⟨h1, h2⟩ := h
    have he1 : e1 = ⟨1, HUGE_WEIGHT⟩ := by simpa [overflowGraph] using h1
    subst he1
    cases r1 with
    | nil => simp [IsWalk] at h2
    | cons e2 r2 =>
      simp only [IsWalk] at h2
      obtain ⟨h3, h4⟩ := h2
      have he2 : e2 = ⟨2, HUGE_WEIGHT⟩ := by simpa [overflowGraph] using h3
      subst he2
      cases r2 with
      | nil => simp [walk_weight]
      | cons e3 r3 =>
        simp only [IsWalk] at h4
        have := h4.1
        simp [overflowGraph] at this

theorem sampleQueue_ordered : HeapOrdered sampleQueue.heap sampleQueue.size := by
  intro i h0 h1
  have hi : i = 1 ∨ i = 2 := by
    have : i < 3 := h1
    omega
  rcases hi with rfl | rfl <;> simp [sampleQueue]

/-- The search of the line graph from end to end settles all 10001 nodes and
records 10000 of them. -/
theorem line_search_counts :
    ∃ r, dijkstra_path_c (enough_fuel 10001) lineGraph 10001 0 10000 true = some r ∧
      r.iterations = 10001 ∧ r.explored_count = 10000 := by
  have hs : ValidNode 10001 0 := ⟨by decide, by decide⟩
  obtain ⟨hw1, hw2⟩ := line_walk_isWalk 10000 0 (le_refl _) (by norm_num)
  obtain ⟨r1, hres1, hpath, _⟩ := shortest_distance lineGraph 10001 0 10000 true
    lineGraph_in_range lineGraph_nonneg lineGraph_edges hs (line_walk 0 10000)
    (by simpa using hw1) (by rw [hw2]; decide) (enough_fuel 10001) (le_refl _)
  obtain ⟨s1, r, hrun, hres, hbase, _, _, _, _, hcases⟩ := search_optimal lineGraph 10001 0
    10000 true lineGraph_in_range lineGraph_nonneg lineGraph_edges hs (enough_fuel 10001)
    (le_refl _)
  rw [hres] at hres1
  simp only [Option.some.injEq] at hres1
  subst hres1
  refine ⟨r, hres, ?_⟩
  rw [dijkstra_path_c_eq _ _ _ _ _ _ s1 hrun] at hres
  obtain ⟨hit, hcount, _, _⟩ := finish_fields _ _ _ s1 r hres
  rcases hcases with ⟨_, hnone, _, _⟩ | ⟨_, p, _, _, _, _, hhead, hlast, hch, hnd, hsub⟩
  · exact absurd hnone hpath
  · have hplen := line_path_length p 0 10000 hch hhead hlast
    have hle : p.length ≤
        ((settle_order (enough_fuel 10001) lineGraph 10001 0 10000 true).map
          (fun e => e.node)).length :=
      (List.subperm_of_subset hnd hsub).length_le
    rw [List.length_map] at hle
    have hub := base_order_length lineGraph 10001 0 true _ _ s1 hbase
    have hol : (settle_order (enough_fuel 10001) lineGraph 10001 0 10000 true).length =
        10001 := by omega
    have htrace := hbase.trace
    simp only [if_true] at htrace
    have hcnt : s1.explored_count = (explored_list s1).length := by simp [explored_list]
    rw [htrace, List.length_take, List.length_map, hol] at hcnt
    refine ⟨?_, ?_⟩
    · rw [hit, hbase.iters, hol]
    · rw [hcount, hcnt]
      simp [trace_capacity]

theorem scenarioA_swapped_in_range : GraphInRange scenarioA_swapped 4 := by
  intro u _ _ e he
  unfold scenarioA_swapped at he
  split_ifs at he <;> simp at he
  · rcases he with rfl | rfl <;> simp
  · subst he; simp
  · subst he; simp

theorem negCycleGraph_in_range : GraphInRange negCycleGraph 3 := by
  intro u _ _ e he
  unfold negCycleGraph at he
  split_ifs at he <;> simp at he
  · subst he; simp
  · rcases he with rfl | rfl <;> simp

theorem fullQueue_ordered : HeapOrdered fullQueue.heap fullQueue.size := by
  intro i h0 h1
  have : i < 1 := h1
  omega

theorem scenarioA_run (ws : Bool) :
    dijkstra_path_c (enough_fuel 4) scenarioA 4 0 3 ws =
      some ⟨some [0, 1, 2, 3], 4, 3, if ws = true then some [0, 1, 2, 3] else none,
        if ws = true then 4 else 0, 4⟩ := by
  cases ws <;> decide!

theorem scenarioA_swapped_run (ws : Bool) :
    dijkstra_path_c (enough_fuel 4) scenarioA_swapped 4 0 3 ws =
      some ⟨some [0, 1, 2, 3], 4, 3, if ws = true then some [0, 1, 2, 3] else none,
        if ws = true then 4 else 0, 4⟩ := by
  cases ws <;> decide!

/-- With non-negative weights a search with a valid source returns. -/
theorem returns_when_nonneg (graph : Graph) (n : Nat) (start end_ : Int) (ws : Bool)
    (hg : GraphInRange graph n) (hw : NonNegWeights graph n) (hs : ValidNode n start)
    (fuel : Nat) (hfuel : enough_fuel n ≤ fuel) :
    ∃ r, dijkstra_path_c fuel graph n start end_ ws = some r := by
  obtain ⟨_, r, _, hres, _⟩ := search_result graph n start end_ ws hg hw hs
    (fun _ _ => True) trivial (fun _ _ _ _ _ _ _ _ => trivial) fuel hfuel
  exact ⟨r, hres⟩

/-- The main loop on the negative-cycle graph, query (0, 2): the target is
found at distance 4 and nodes 0 and 1 name each other as predecessor. -/
theorem negCycle_search (ws : Bool) :
    ∃ s1, dijkstra_search 4 negCycleGraph 3 0 2 ws = some s1 ∧
      s1.destination_found = true ∧ s1.distances 2 = 4 ∧
      s1.previous 2 = 1 ∧ s1.previous 1 = 0 ∧ s1.previous 0 = 1 := by
  have h : (dijkstra_search 4 negCycleGraph 3 0 2 ws).map
      (fun s => (s.destination_found, s.distances 2, s.previous 2, s.previous 1,
        s.previous 0)) = some (true, 4, 1, 0, 1) := by
    cases ws <;> decide!
  cases hrun : dijkstra_search 4 negCycleGraph 3 0 2 ws with
  | none =>
    rw [hrun] at h
    exact absurd h (by simp)
  | some s1 =>
    rw [hrun] at h
    simp only [Option.map_some', Option.some.injEq, Prod.mk.injEq] at h
    exact ⟨s1, rfl, h.1, h.2.1, h.2.2.1, h.2.2.2.1, h.2.2.2.2⟩

/-- On the negative-cycle graph, query (0, 2), no amount of fuel lets the
predecessor walk end. -/
theorem negCycle_stuck (ws : Bool) (fuel : Nat) :
    dijkstra_path_c fuel negCycleGraph 3 0 2 ws = none := by
  obtain ⟨s1, hrun4, hf, hd, h2, h1, h0⟩ := negCycle_search ws
  have hd4 : s1.distances 2 ≠ DBL_MAX := by
    rw [hd]
    unfold DBL_MAX
    omega
  have hcount : ∀ f, count_path s1.previous f 2 0 = none := by
    intro f
    cases f with
    | zero => simp [count_path]
    | succ f =>
      rw [count_path_next _ _ _ _ (by omega), h2]
      exact count_path_two_cycle s1.previous 0 1 (by omega) (by omega) h0 h1 f 1 1 (Or.inr rfl)
  cases hrun : dijkstra_search fuel negCycleGraph 3 0 2 ws with
  | none =>
    unfold dijkstra_path_c
    rw [hrun]
  | some s =>
    rw [dijkstra_path_c_eq fuel negCycleGraph 3 0 2 ws s hrun]
    have hs : s = s1 := by
      rw [dijkstra_search_eq] at hrun hrun4
      rcases le_total fuel 4 with h | h
      · have := search_loop_fuel_mono negCycleGraph 2 ws (trace_capacity ws) fuel _ s hrun 4 h
        rw [hrun4] at this
        exact (Option.some.inj this).symm
      · have := search_loop_fuel_mono negCycleGraph 2 ws (trace_capacity ws) 4 _ s1 hrun4 fuel h
        rw [hrun] at this
        exact Option.some.inj this
    rw [hs]
    exact finish_stuck fuel 2 ws s1 ⟨hf, hd4⟩ (hcount fuel)

theorem scenarioA_in_range_five : GraphInRange scenarioA 5 := by
  intro u _ _ e he
  unfold scenarioA at he
  split_ifs at he <;> simp at he
  · rcases he with rfl | rfl <;> simp
  · subst he; simp
  · subst he; simp

theorem scenarioA_nonneg_five : NonNegWeights scenarioA 5 := by
  intro u _ _ e he
  unfold scenarioA at he
  split_ifs at he <;> simp at he
  · rcases he with rfl | rfl <;> simp
  · subst he; simp
  · subst he; simp

theorem scenarioA_at_most : WeightsAtMost scenarioA 4 5 := by
  intro u _ _ e he
  unfold scenarioA at he
  split_ifs at he <;> simp at he
  · rcases he with rfl | rfl <;> simp
  · subst he; simp
  · subst he; simp

theorem scenarioC_at_most : WeightsAtMost scenarioC 2 2 := by
  intro u _ _ e he
  unfold scenarioC at he
  split_ifs at he <;> simp at he
  rcases he with rfl | rfl <;> simp

theorem roundGraph_in_range : GraphInRange roundGraph 3 := by
  intro u _ _ e he
  unfold roundGraph at he
  split_ifs at he <;> simp at he
  · rcases he with rfl | rfl <;> simp
  · subst he; simp

theorem roundGraph_nonneg : NonNegWeights roundGraph 3 := by
  intro u _ _ e he
  unfold roundGraph at he
  split_ifs at he <;> simp at he
  · rcases he with rfl | rfl <;> simp
  · subst he; simp

theorem tieGraph_in_range : GraphInRange tieGraph 3 := by
  intro u _ _ e he
  unfold tieGraph at he
  split_ifs at he <;> simp at he <;> subst he <;> simp

theorem tieGraph_nonneg : NonNegWeights tieGraph 3 := by
  intro u _ _ e he
  unfold tieGraph at he
  split_ifs at he <;> simp at he <;> subst he <;> simp

/-- The only walk from 0 to 2 in `tieGraph` takes both edges and weighs `2^53 + 1`. -/
theorem tieGraph_walks (es : List Edge) (h : IsWalk tieGraph 0 es 2) :
    es = [⟨1, 9007199254740992⟩, ⟨2, 1⟩] ∧ walk_weight es = 9007199254740993 := by
  cases es with
  | nil => simp [IsWalk] at h
  | cons e1 r1 =>
    simp only [IsWalk] at h
    obtain ⟨h1, h2⟩ := h
    have he1 : e1 = ⟨1, 9007199254740992⟩ := by simpa [tieGraph] using h1
    subst he1
    cases r1 with
    | nil => simp [IsWalk] at h2
    | cons e2 r2 =>
      simp only [IsWalk] at h2
      obtain ⟨h3, h4⟩ := h2
      have he2 : e2 = ⟨2, 1⟩ := by simpa [tieGraph] using h3
      subst he2
      cases r2 with
      | nil => exact ⟨rfl, by simp [walk_weight]⟩
      | cons e3 r3 =>
        simp only [IsWalk] at h4
        have := h4.1
        simp [tieGraph] at this

/-- Rounding at work: below `2^53` nothing is rounded; between `2^53` and
`2^54` odd numbers go to the neighbour with the even significand; `DBL_MAX`
is kept, and twice `2^1023` exceeds it. -/
theorem double_round_examples :
    double_round 0 = 0 ∧ double_round 9007199254740991 = 9007199254740991 ∧
    double_round 9007199254740993 = 9007199254740992 ∧
    double_round 9007199254740995 = 9007199254740996 ∧
    double_round 9007199254740994 = 9007199254740994 ∧
    double_round (-9007199254740995) = -9007199254740996 ∧
    double_round 18014398509481986 = 18014398509481984 ∧
    double_round 18014398509481990 = 18014398509481992 ∧
    double_round 18014398509481987 = 18014398509481988 ∧
    double_round DBL_MAX = DBL_MAX ∧ double_round (DBL_MAX + 1) = DBL_MAX ∧
    DBL_MAX < double_round (HUGE_WEIGHT + HUGE_WEIGHT) := by
  decide!

/-! ## The claims -/

/-- C1 (fails on the code, evaluated at the failing input): every edge endpoint
of `dropGraph` is in range, no weight is negative and the edge `0 → 2` of
weight 1 is a walk from 0 to 2, yet `dijkstra_path_c` answers the query (0, 2)
with the no-path result and the distance `DBL_MAX`: the seventh push of the
neighbour loop of node 0 meets a full queue (capacity `2 * 3`) and is dropped. -/
theorem C1_dropped_push_loses_the_target :
    GraphInRange dropGraph 3 ∧ NonNegWeights dropGraph 3 ∧
    IsWalk dropGraph 0 [⟨2, 1⟩] 2 ∧ walk_weight [⟨2, 1⟩] = 1 ∧
    dijkstra_path_c (enough_fuel 3) dropGraph 3 0 2 false =
      some ⟨none, 0, DBL_MAX, none, 0, 2⟩ :=
  ⟨dropGraph_in_range, dropGraph_nonneg, by simp [IsWalk, dropGraph], by simp [walk_weight],
    by decide!⟩

/-- C2, as stated, fails in two ways, both shown with machine addition.
Rounding: in `roundGraph` (3 edges, fewer than `2 * 3`) the walk from 0 to 2
through node 1 weighs `3 + 2^53`, but the machine sum of 3 and `2^53` is
`2^53 + 4`, which is not below the weight `2^53 + 4` of the direct edge, and
`dijkstra_path_c` returns the path `[0, 2]` with distance `2^53 + 4`, more
than the weight of that walk.  Overflow: in `overflowGraph` the only walk from
0 to 2 weighs `2^1023 + 2^1023`, the machine sum is not below `DBL_MAX`, and
`dijkstra_path_c` returns the no-path result with distance `DBL_MAX`, which
is the weight of no walk. -/
theorem C2_counterexample_rounding_and_overflow :
    (GraphInRange roundGraph 3 ∧ NonNegWeights roundGraph 3 ∧
      edge_count roundGraph 3 < 2 * 3 ∧
      IsWalk roundGraph 0 [⟨1, 3⟩, ⟨2, 9007199254740992⟩] 2 ∧
      walk_weight [⟨1, 3⟩, ⟨2, 9007199254740992⟩] = 9007199254740995 ∧
      double_add 3 9007199254740992 = 9007199254740996 ∧
      dijkstra_path_c_ieee (enough_fuel 3) roundGraph 3 0 2 false =
        some ⟨some [0, 2], 2, 9007199254740996, none, 0, 3⟩) ∧
    (GraphInRange overflowGraph 3 ∧ NonNegWeights overflowGraph 3 ∧
      edge_count overflowGraph 3 < 2 * 3 ∧
      IsWalk overflowGraph 0 [⟨1, HUGE_WEIGHT⟩, ⟨2, HUGE_WEIGHT⟩] 2 ∧
      DBL_MAX < double_add HUGE_WEIGHT HUGE_WEIGHT ∧
      dijkstra_path_c_ieee (enough_fuel 3) overflowGraph 3 0 2 false =
        some ⟨none, 0, DBL_MAX, none, 0, 2⟩ ∧
      ∀ es, IsWalk overflowGraph 0 es 2 → walk_weight es ≠ DBL_MAX) := by
  refine ⟨⟨roundGraph_in_range, roundGraph_nonneg, by decide,
    by simp [IsWalk, roundGraph], by decide, by decide!, by decide!⟩,
    overflowGraph_in_range, overflowGraph_nonneg, by decide,
    by simp [IsWalk, overflowGraph], by decide!, by decide!, ?_⟩
  intro es hes
  rw [overflowGraph_walks es hes]
  decide

/-- C2 (amended): for every graph with in-range edge endpoints, whole-number
weights from `0` to `W` with `node_count * W ≤ 2^53`, and fewer than
`2 * node_count` edges, and every valid source and target joined by a walk,
`dijkstra_path_c`, run with machine addition, returns a result, the same as
with exact addition: it holds a path, and its distance is the weight of a
source-to-target walk and is at most the weight of every source-to-target
walk. -/
theorem C2_distance_is_minimum_walk_weight (graph : Graph) (node_count : Nat)
    (start end_ : Int) (with_steps : Bool) (W : Int)
    (hrange : GraphInRange graph node_count) (hweights : NonNegWeights graph node_count)
    (hmost : WeightsAtMost graph node_count W) (hW : 0 ≤ W)
    (hexact : (node_count : Int) * W ≤ MAX_EXACT)
    (hedges : edge_count graph node_count < 2 * node_count)
    (hstart : ValidNode node_count start) (_hend : ValidNode node_count end_)
    (es0 : List Edge) (hwalk : IsWalk graph start es0 end_)
    (fuel : Nat) (hfuel : enough_fuel node_count ≤ fuel) :
    ∃ r, dijkstra_path_c_ieee fuel graph node_count start end_ with_steps = some r ∧
      dijkstra_path_c fuel graph node_count start end_ with_steps = some r ∧
      r.path ≠ none ∧
      (∃ es, IsWalk graph start es end_ ∧ walk_weight es = r.distance) ∧
      (∀ es, IsWalk graph start es end_ → r.distance ≤ walk_weight es) := by
  obtain ⟨r, hres, h1, h2, h3⟩ := shortest_distance_bounded graph node_count start end_
    with_steps hrange hweights W hW hmost hexact hedges hstart es0 hwalk fuel hfuel
  refine ⟨r, ?_, hres, h1, h2, h3⟩
  rw [ieee_search_agrees graph node_count start end_ with_steps hrange hweights W hW hmost
    hexact hstart fuel]
  exact hres

/-- C2 at scenario C (parallel edges `0→1 (2)`, `0→1 (1)`, query (0, 1)) with
`W = 2`: the hypotheses hold, and the distance returned is `1`. -/
theorem C2_distance_is_minimum_walk_weight_witness :
    (∃ r, dijkstra_path_c_ieee (enough_fuel 2) scenarioC 2 0 1 false = some r ∧
      dijkstra_path_c (enough_fuel 2) scenarioC 2 0 1 false = some r ∧
      r.path ≠ none ∧
      (∃ es, IsWalk scenarioC 0 es 1 ∧ walk_weight es = r.distance) ∧
      (∀ es, IsWalk scenarioC 0 es 1 → r.distance ≤ walk_weight es)) ∧
    dijkstra_path_c_ieee (enough_fuel 2) scenarioC 2 0 1 false =
      some ⟨some [0, 1], 2, 1, none, 0, 2⟩ ∧
    dijkstra_path_c_ieee (enough_fuel 4) scenarioA 4 0 3 false =
      some ⟨some [0, 1, 2, 3], 4, 3, none, 0, 4⟩ :=
  ⟨C2_distance_is_minimum_walk_weight scenarioC 2 0 1 false 2 scenarioC_in_range
      scenarioC_nonneg scenarioC_at_most (by decide) (by decide) (by decide)
      ⟨by decide, by decide⟩ ⟨by decide, by decide⟩
      [⟨1, 1⟩] (by simp [IsWalk, scenarioC]) (enough_fuel 2) (le_refl _),
    by decide!, by decide!⟩

/-- C3: for every graph with in-range edge endpoints and non-negative weights
and every valid source and target, `dijkstra_path_c` returns, and if the path
it returns is non-empty then its first node is the source, its last node is
the target, and every two consecutive nodes are joined by an edge of the
graph. -/
theorem C3_path_runs_from_source_to_target (graph : Graph) (node_count : Nat)
    (start end_ : Int) (with_steps : Bool)
    (hrange : GraphInRange graph node_count) (hweights : NonNegWeights graph node_count)
    (hstart : ValidNode node_count start) (_hend : ValidNode node_count end_)
    (fuel : Nat) (hfuel : enough_fuel node_count ≤ fuel) :
    ∃ r, dijkstra_path_c fuel graph node_count start end_ with_steps = some r ∧
      ∀ p, r.path = some p → p ≠ [] →
        p.head? = some start ∧ p.getLast? = some end_ ∧ List.Chain' (HasEdge graph) p := by
  obtain ⟨s1, r, _, hres, _, _, _, _, _, _, _, hcases⟩ :=
    search_result graph node_count start end_ with_steps hrange hweights hstart
      (fun _ _ => True) trivial (fun _ _ _ _ _ _ _ _ => trivial) fuel hfuel
  refine ⟨r, hres, ?_⟩
  intro p hp _
  rcases hcases with ⟨_, hnone, _, _⟩ | ⟨_, q, hq, _, _, _, h1, h2, h3, _, _⟩
  · rw [hnone] at hp
    exact absurd hp (by simp)
  · rw [hq] at hp
    simp only [Option.some.injEq] at hp
    subst hp
    exact ⟨h1, h2, h3⟩

/-- C3 at scenario A, query (0, 3): the path returned is `[0, 1, 2, 3]`. -/
theorem C3_path_runs_from_source_to_target_witness :
    (∃ r, dijkstra_path_c (enough_fuel 4) scenarioA 4 0 3 true = some r ∧
      ∀ p, r.path = some p → p ≠ [] →
        p.head? = some 0 ∧ p.getLast? = some 3 ∧ List.Chain' (HasEdge scenarioA) p) ∧
    (dijkstra_path_c (enough_fuel 4) scenarioA 4 0 3 true).map (fun r => r.path) =
      some (some [0, 1, 2, 3]) :=
  ⟨C3_path_runs_from_source_to_target scenarioA 4 0 3 true scenarioA_in_range
      scenarioA_nonneg ⟨by decide, by decide⟩ ⟨by decide, by decide⟩ (enough_fuel 4)
      (le_refl _),
    by decide!⟩

/-- C4: for every graph with in-range edge endpoints and every valid source
and target such that no walk leads from the source to the target,
`dijkstra_path_c` returns a result whose path is absent (`path_length` 0) and
whose distance is `DBL_MAX`. -/
theorem C4_unreachable_target_gives_no_path (graph : Graph) (node_count : Nat)
    (start end_ : Int) (with_steps : Bool)
    (hrange : GraphInRange graph node_count)
    (hstart : ValidNode node_count start) (_hend : ValidNode node_count end_)
    (hnowalk : ∀ es, ¬ IsWalk graph start es end_)
    (fuel : Nat) (hfuel : enough_fuel node_count ≤ fuel) :
    ∃ r, dijkstra_path_c fuel graph node_count start end_ with_steps = some r ∧
      r.path = none ∧ r.path_length = 0 ∧ r.distance = DBL_MAX :=
  no_path_result graph node_count start end_ with_steps hrange hstart
    (fun h => h.2.elim fun es hes => hnowalk es hes) fuel hfuel

/-- C4 at scenario B (3 nodes, no edges, query (0, 2)). -/
theorem C4_unreachable_target_gives_no_path_witness :
    (∃ r, dijkstra_path_c (enough_fuel 3) scenarioB 3 0 2 false = some r ∧
      r.path = none ∧ r.path_length = 0 ∧ r.distance = DBL_MAX) ∧
    dijkstra_path_c (enough_fuel 3) scenarioB 3 0 2 false =
      some ⟨none, 0, DBL_MAX, none, 0, 1⟩ :=
  ⟨C4_unreachable_target_gives_no_path scenarioB 3 0 2 false (scenarioB_in_range 3)
      ⟨by decide, by decide⟩ ⟨by decide, by decide⟩ scenarioB_no_walk (enough_fuel 3)
      (le_refl _),
    by decide!⟩

/-- C5: for every graph and every node `s` of `[0, node_count)`,
`dijkstra_path_c` with source = target = `s` returns distance 0, the path `[s]`
and `iterations = 1` (one trip of the loop is enough fuel), and the search
ends with `distances` and `previous` as initialised: no edge is relaxed. -/
theorem C5_source_equals_target (graph : Graph) (node_count : Nat) (s : Int)
    (with_steps : Bool) (hs : ValidNode node_count s) (fuel : Nat) (hfuel : 1 ≤ fuel) :
    dijkstra_path_c fuel graph node_count s s with_steps =
      some { path := some [s]
             path_length := 1
             distance := 0
             explored := if with_steps = true then some [s] else none
             explored_count := if with_steps = true then 1 else 0
             iterations := 1 } ∧
    ∃ st, dijkstra_search fuel graph node_count s s with_steps = some st ∧
      st.distances = (init_state node_count s).distances ∧
      st.previous = (init_state node_count s).previous := by
  obtain ⟨st, hrun, hf, hd, hp, hit, hcount, hlist⟩ :=
    same_node_search graph node_count s with_steps hs fuel hfuel
  refine ⟨?_, st, hrun, hd, hp⟩
  obtain ⟨f, rfl⟩ : ∃ f, fuel = f + 1 := ⟨fuel - 1, by omega⟩
  have hs1 : s ≠ -1 := by have := hs.1; omega
  have hprev : st.previous s = -1 := by rw [hp]; rfl
  have hdist : st.distances s = 0 := by rw [hd]; simp [init_state]
  have hcp : count_path st.previous (f + 1) s 0 = some 1 := by
    rw [count_path_next _ _ _ _ hs1, hprev, count_path_stop]
  have hne : st.distances s ≠ DBL_MAX := by
    rw [hdist]
    exact ne_of_lt DBL_MAX_pos
  rw [dijkstra_path_c_eq (f + 1) graph node_count s s with_steps st hrun,
    finish_found (f + 1) s with_steps st 1 hf hne hcp, hdist, hit, hcount, hlist]
  cases with_steps <;> simp [build_path]

/-- C5 at scenario A with source = target = 0 (scenario D of the specification). -/
theorem C5_source_equals_target_witness :
    dijkstra_path_c 1 scenarioA 4 0 0 false = some ⟨some [0], 1, 0, none, 0, 1⟩ ∧
    ∃ st, dijkstra_search 1 scenarioA 4 0 0 false = some st ∧
      st.distances = (init_state 4 0).distances ∧
      st.previous = (init_state 4 0).previous :=
  C5_source_equals_target scenarioA 4 0 false ⟨by decide, by decide⟩ 1 (le_refl _)

/-- C6, as stated, fails: with the valid source 0 and the targets 7 and -1,
both outside `[0, 3)`, `dijkstra_path_c` reports no error; it returns the
ordinary no-path result (absent path, distance `DBL_MAX`). -/
theorem C6_counterexample_invalid_target_not_reported :
    dijkstra_path_c (enough_fuel 3) scenarioB 3 0 7 false =
      some ⟨none, 0, DBL_MAX, none, 0, 1⟩ ∧
    dijkstra_path_c (enough_fuel 3) scenarioB 3 0 (-1) false =
      some ⟨none, 0, DBL_MAX, none, 0, 1⟩ := by
  decide!

/-- C6 (amended): for every graph with in-range edge endpoints and every valid
source, when the target lies outside `[0, node_count)` `dijkstra_path_c`
returns the ordinary no-path result: absent path, `path_length` 0 and
distance `DBL_MAX`. -/
theorem C6_invalid_target_gives_no_path (graph : Graph) (node_count : Nat)
    (start end_ : Int) (with_steps : Bool)
    (hrange : GraphInRange graph node_count) (hstart : ValidNode node_count start)
    (hend : ¬ ValidNode node_count end_)
    (fuel : Nat) (hfuel : enough_fuel node_count ≤ fuel) :
    ∃ r, dijkstra_path_c fuel graph node_count start end_ with_steps = some r ∧
      r.path = none ∧ r.path_length = 0 ∧ r.distance = DBL_MAX :=
  no_path_result graph node_count start end_ with_steps hrange hstart
    (fun h => hend h.1) fuel hfuel

/-- C6 (amended) at scenario A with the target 4, one past the last node. -/
theorem C6_invalid_target_gives_no_path_witness :
    ∃ r, dijkstra_path_c (enough_fuel 4) scenarioA 4 0 4 false = some r ∧
      r.path = none ∧ r.path_length = 0 ∧ r.distance = DBL_MAX :=
  C6_invalid_target_gives_no_path scenarioA 4 0 4 false scenarioA_in_range
    ⟨by decide, by decide⟩ (fun h => absurd h.2 (by decide)) (enough_fuel 4) (le_refl _)

/-- C7: for every non-empty priority queue in heap order, `heap_pop` returns 1
with an entry of the queue whose distance is at most the distance of every
entry stored, and the entries left are the original multiset of entries minus
one occurrence of the entry returned; the size drops by one. -/
theorem C7_heap_pop_returns_minimum (pq : PriorityQueue) (hsize : pq.size ≠ 0)
    (hord : HeapOrdered pq.heap pq.size) :
    ∃ top pq1, heap_pop pq = some (top, pq1) ∧
      top ∈ entries pq ∧
      (∀ e ∈ entries pq, top.distance ≤ e.distance) ∧
      (entries pq1 : Multiset HeapNode) = (entries pq : Multiset HeapNode).erase top ∧
      pq1.size = pq.size - 1 := by
  obtain ⟨top, pq1, hpop, _, hsz, _, _, hperm, hmin⟩ :=
    heap_pop_spec pq (Nat.pos_of_ne_zero hsize) hord
  refine ⟨top, pq1, hpop, hperm.mem_iff.2 (List.mem_cons_self _ _), hmin, ?_, hsz⟩
  have : (entries pq : Multiset HeapNode) = top ::ₘ (entries pq1 : Multiset HeapNode) := by
    rw [Multiset.cons_coe]
    exact Quotient.sound hperm
  rw [this, Multiset.erase_cons_head]

/-- C7 at the three-entry heap `(5, 1)`, `(7, 3)`, `(9, 2)`: the entry popped
is `(5, 1)`. -/
theorem C7_heap_pop_returns_minimum_witness :
    (∃ top pq1, heap_pop sampleQueue = some (top, pq1) ∧
      top ∈ entries sampleQueue ∧
      (∀ e ∈ entries sampleQueue, top.distance ≤ e.distance) ∧
      (entries pq1 : Multiset HeapNode) = (entries sampleQueue : Multiset HeapNode).erase top ∧
      pq1.size = sampleQueue.size - 1) ∧
    (heap_pop sampleQueue).map (fun r => (r.1, entries r.2)) =
      some (⟨5, 1⟩, [⟨9, 2⟩, ⟨7, 3⟩]) :=
  ⟨C7_heap_pop_returns_minimum sampleQueue (by decide) sampleQueue_ordered, by decide⟩

/-- C8 (fails on the code, evaluated at the failing input): in the search on
`dropGraph` for (0, 2), once the first six edges of node 0 are relaxed the
queue holds `size = capacity = 6` entries and `distances[2]` is still
`DBL_MAX`; relaxing the seventh edge `0 → 2` writes the improved distance 1
for node 2 while its `heap_push` returns at once, leaving the size at 6.  The
whole search then ends with an empty queue, `distances[2] = 1`,
`previous[2] = 0`, node 2 never visited and `destination_found` unset. -/
theorem C8_push_dropped_at_full_queue :
    dropState6.map (fun s =>
        (s.pq.size, s.pq.capacity, s.distances 2,
          (relax_edge 0 0 s ⟨2, 1⟩).pq.size, (relax_edge 0 0 s ⟨2, 1⟩).distances 2)) =
      some (6, 6, DBL_MAX, 6, 1) ∧
    (dijkstra_search (enough_fuel 3) dropGraph 3 0 2 false).map
      (fun s => (s.distances 2, s.previous 2, s.visited 2, s.pq.size, s.destination_found)) =
      some (1, 0, 0, 0, false) := by
  constructor <;> decide!

/-- C9: for every graph with in-range edge endpoints and every valid source
and target, the main loop ends, `iterations` then equals the number of nodes
of `[0, node_count)` marked visited and is at most `node_count`, every result
`dijkstra_path_c` returns carries that value in its `iterations` field, and
with non-negative weights a result is returned. -/
theorem C9_iterations_counts_settled_nodes (graph : Graph) (node_count : Nat)
    (start end_ : Int) (with_steps : Bool)
    (hrange : GraphInRange graph node_count)
    (hstart : ValidNode node_count start) (_hend : ValidNode node_count end_)
    (fuel : Nat) (hfuel : enough_fuel node_count ≤ fuel) :
    ∃ s1, dijkstra_search fuel graph node_count start end_ with_steps = some s1 ∧
      s1.iterations = visited_count s1.visited node_count ∧
      s1.iterations ≤ node_count ∧
      (∀ v, s1.visited v ≠ 0 → ValidNode node_count v) ∧
      (∀ r, dijkstra_path_c fuel graph node_count start end_ with_steps = some r →
        r.iterations = s1.iterations) ∧
      (NonNegWeights graph node_count →
        ∃ r, dijkstra_path_c fuel graph node_count start end_ with_steps = some r) := by
  obtain ⟨s1, hrun, hbase, _⟩ :=
    search_base graph node_count start end_ with_steps hrange hstart fuel hfuel
  have hlen : s1.iterations =
      ((settle_order fuel graph node_count start end_ with_steps).map
        (fun e => e.node)).length := by
    rw [hbase.iters, List.length_map]
  refine ⟨s1, hrun, ?_, ?_, ?_, ?_, ?_⟩
  · rw [hlen]
    exact visited_count_eq s1.visited node_count _ hbase.order_nodup hbase.order_range
      hbase.order_mem
  · rw [hbase.iters]
    exact base_order_length graph node_count start with_steps _ _ s1 hbase
  · intro v hv
    exact hbase.order_range v ((hbase.order_mem v).2 hv)
  · intro r hr
    rw [dijkstra_path_c_eq fuel graph node_count start end_ with_steps s1 hrun] at hr
    exact (finish_fields fuel end_ with_steps s1 r hr).1
  · intro hweights
    obtain ⟨_, r, _, hres, _⟩ :=
      search_result graph node_count start end_ with_steps hrange hweights hstart
        (fun _ _ => True) trivial (fun _ _ _ _ _ _ _ _ => trivial) fuel hfuel
    exact ⟨r, hres⟩

/-- C9 at scenario A, query (0, 3): four nodes are settled. -/
theorem C9_iterations_counts_settled_nodes_witness :
    (∃ s1, dijkstra_search (enough_fuel 4) scenarioA 4 0 3 false = some s1 ∧
      s1.iterations = visited_count s1.visited 4 ∧
      s1.iterations ≤ 4 ∧
      (∀ v, s1.visited v ≠ 0 → ValidNode 4 v) ∧
      (∀ r, dijkstra_path_c (enough_fuel 4) scenarioA 4 0 3 false = some r →
        r.iterations = s1.iterations) ∧
      (NonNegWeights scenarioA 4 →
        ∃ r, dijkstra_path_c (enough_fuel 4) scenarioA 4 0 3 false = some r)) ∧
    (dijkstra_path_c (enough_fuel 4) scenarioA 4 0 3 false).map (fun r => r.iterations) =
      some 4 :=
  ⟨C9_iterations_counts_settled_nodes scenarioA 4 0 3 false scenarioA_in_range
      ⟨by decide, by decide⟩ ⟨by decide, by decide⟩ (enough_fuel 4) (le_refl _),
    by decide!⟩

/-- C10, as stated, fails past the trace capacity: on the line graph of 10001
nodes, searched from node 0 to node 10000 with tracing, 10001 nodes are
settled (`iterations = 10001`) while the explored sequence holds 10000. -/
theorem C10_counterexample_trace_stops_at_capacity :
    GraphInRange lineGraph 10001 ∧ ValidNode 10001 0 ∧ ValidNode 10001 10000 ∧
    ∃ r, dijkstra_path_c (enough_fuel 10001) lineGraph 10001 0 10000 true = some r ∧
      r.iterations = 10001 ∧ r.explored_count = 10000 :=
  ⟨lineGraph_in_range, ⟨by decide, by decide⟩, ⟨by decide, by decide⟩, line_search_counts⟩

/-- C10 (amended): for every graph with in-range edge endpoints and every
valid source and target, when tracing is enabled the main loop ends, and when
at most 10000 nodes are settled the explored sequence is exactly the sequence
of settled nodes in settle order, its length being `iterations`; every result
`dijkstra_path_c` returns carries these values, and with non-negative weights a
result is returned. -/
theorem C10_trace_is_settle_order (graph : Graph) (node_count : Nat)
    (start end_ : Int)
    (hrange : GraphInRange graph node_count)
    (hstart : ValidNode node_count start) (_hend : ValidNode node_count end_)
    (fuel : Nat) (hfuel : enough_fuel node_count ≤ fuel) :
    ∃ s1, dijkstra_search fuel graph node_count start end_ true = some s1 ∧
      s1.iterations = (settle_order fuel graph node_count start end_ true).length ∧
      (s1.iterations ≤ 10000 →
        explored_list s1 =
          (settle_order fuel graph node_count start end_ true).map (fun e => e.node) ∧
        s1.explored_count = s1.iterations) ∧
      (∀ r, dijkstra_path_c fuel graph node_count start end_ true = some r →
        r.iterations = s1.iterations ∧ r.explored_count = s1.explored_count ∧
        (r.iterations ≤ 10000 →
          r.explored =
            some ((settle_order fuel graph node_count start end_ true).map
              (fun e => e.node)))) ∧
      (NonNegWeights graph node_count →
        ∃ r, dijkstra_path_c fuel graph node_count start end_ true = some r) := by
  obtain ⟨s1, hrun, hbase, hfound⟩ :=
    search_base graph node_count start end_ true hrange hstart fuel hfuel
  have hfull : s1.iterations ≤ 10000 →
      explored_list s1 =
        (settle_order fuel graph node_count start end_ true).map (fun e => e.node) ∧
      s1.explored_count = s1.iterations := by
    intro hle
    have htrace := hbase.trace
    simp only [if_true] at htrace
    rw [hbase.iters] at hle
    have htake : ((settle_order fuel graph node_count start end_ true).map
        (fun e => e.node)).take (trace_capacity true) =
        (settle_order fuel graph node_count start end_ true).map (fun e => e.node) := by
      apply List.take_of_length_le
      rw [List.length_map]
      exact hle
    rw [htake] at htrace
    have hcnt : s1.explored_count = (explored_list s1).length := by simp [explored_list]
    rw [htrace, List.length_map] at hcnt
    exact ⟨htrace, by rw [hcnt, hbase.iters]⟩
  refine ⟨s1, hrun, hbase.iters, hfull, ?_, ?_⟩
  · intro r hr
    rw [dijkstra_path_c_eq fuel graph node_count start end_ true s1 hrun] at hr
    obtain ⟨hit, hcount, hexp, _⟩ := finish_fields fuel end_ true s1 r hr
    refine ⟨hit, hcount, ?_⟩
    intro hle
    rw [hit] at hle
    obtain ⟨h1, h2⟩ := hfull hle
    have hne := final_order_ne_nil graph node_count start end_ true _ _ s1 hbase hfound
      (search_loop_end graph end_ true _ fuel _ s1 hrun)
    have hlen : 0 < (settle_order fuel graph node_count start end_ true).length :=
      List.length_pos.2 hne
    have hpos : s1.explored_count > 0 := by
      rw [h2, hbase.iters]
      exact hlen
    rw [hexp, if_pos ⟨rfl, hpos⟩, h1]
  · intro hweights
    obtain ⟨_, r, _, hres, _⟩ :=
      search_result graph node_count start end_ true hrange hweights hstart
        (fun _ _ => True) trivial (fun _ _ _ _ _ _ _ _ => trivial) fuel hfuel
    exact ⟨r, hres⟩

/-- C10 (amended) at scenario A, query (0, 3): the trace is `[0, 1, 2, 3]`, the
settle order. -/
theorem C10_trace_is_settle_order_witness :
    (∃ s1, dijkstra_search (enough_fuel 4) scenarioA 4 0 3 true = some s1 ∧
      s1.iterations = (settle_order (enough_fuel 4) scenarioA 4 0 3 true).length ∧
      (s1.iterations ≤ 10000 →
        explored_list s1 =
          (settle_order (enough_fuel 4) scenarioA 4 0 3 true).map (fun e => e.node) ∧
        s1.explored_count = s1.iterations) ∧
      (∀ r, dijkstra_path_c (enough_fuel 4) scenarioA 4 0 3 true = some r →
        r.iterations = s1.iterations ∧ r.explored_count = s1.explored_count ∧
        (r.iterations ≤ 10000 →
          r.explored =
            some ((settle_order (enough_fuel 4) scenarioA 4 0 3 true).map
              (fun e => e.node)))) ∧
      (NonNegWeights scenarioA 4 →
        ∃ r, dijkstra_path_c (enough_fuel 4) scenarioA 4 0 3 true = some r)) ∧
    (settle_order (enough_fuel 4) scenarioA 4 0 3 true).map (fun e => e.node) =
      [0, 1, 2, 3] ∧
    (dijkstra_path_c (enough_fuel 4) scenarioA 4 0 3 true).map
      (fun r => (r.explored, r.explored_count, r.iterations)) =
      some (some [0, 1, 2, 3], 4, 4) :=
  ⟨C10_trace_is_settle_order scenarioA 4 0 3 scenarioA_in_range
      ⟨by decide, by decide⟩ ⟨by decide, by decide⟩ (enough_fuel 4) (le_refl _),
    by decide!, by decide!⟩

/-- C11: for every graph with in-range edge endpoints and every valid source
and target, the main loop of a search with tracing ends with a trace buffer
that holds no node twice, and so does the explored sequence of every result
`dijkstra_path_c` returns; with non-negative weights a result is returned. -/
theorem C11_trace_has_no_duplicates (graph : Graph) (node_count : Nat)
    (start end_ : Int)
    (hrange : GraphInRange graph node_count)
    (hstart : ValidNode node_count start) (_hend : ValidNode node_count end_)
    (fuel : Nat) (hfuel : enough_fuel node_count ≤ fuel) :
    ∃ s1, dijkstra_search fuel graph node_count start end_ true = some s1 ∧
      (explored_list s1).Nodup ∧
      (∀ r, dijkstra_path_c fuel graph node_count start end_ true = some r →
        ∀ l, r.explored = some l → l.Nodup) ∧
      (NonNegWeights graph node_count →
        ∃ r, dijkstra_path_c fuel graph node_count start end_ true = some r) := by
  obtain ⟨s1, hrun, hbase, _, htrace, _⟩ :=
    search_trace graph node_count start end_ true hrange hstart fuel hfuel
  have hnd : (explored_list s1).Nodup := by
    rw [htrace, if_pos rfl]
    exact (List.take_sublist _ _).nodup hbase.order_nodup
  refine ⟨s1, hrun, hnd, ?_, fun hw =>
    returns_when_nonneg graph node_count start end_ true hrange hw hstart fuel hfuel⟩
  intro r hr l hl
  rw [dijkstra_path_c_eq fuel graph node_count start end_ true s1 hrun] at hr
  obtain ⟨_, _, hexp, _⟩ := finish_fields fuel end_ true s1 r hr
  rw [hexp] at hl
  split_ifs at hl
  simp only [Option.some.injEq] at hl
  rw [← hl]
  exact hnd

/-- C11 at scenario A, query (0, 3), with tracing. -/
theorem C11_trace_has_no_duplicates_witness :
    (∃ s1, dijkstra_search (enough_fuel 4) scenarioA 4 0 3 true = some s1 ∧
      (explored_list s1).Nodup ∧
      (∀ r, dijkstra_path_c (enough_fuel 4) scenarioA 4 0 3 true = some r →
        ∀ l, r.explored = some l → l.Nodup) ∧
      (NonNegWeights scenarioA 4 →
        ∃ r, dijkstra_path_c (enough_fuel 4) scenarioA 4 0 3 true = some r)) ∧
    (dijkstra_path_c (enough_fuel 4) scenarioA 4 0 3 true).map (fun r => r.explored) =
      some (some [0, 1, 2, 3]) :=
  ⟨C11_trace_has_no_duplicates scenarioA 4 0 3 scenarioA_in_range ⟨by decide, by decide⟩
      ⟨by decide, by decide⟩ (enough_fuel 4) (le_refl _),
    by decide!⟩

/-- C14: for every graph with in-range edge endpoints and every valid source
and target, the explored sequence of every result `dijkstra_path_c` returns is
present if and only if tracing was requested: without tracing it is absent
with `explored_count = 0`; with tracing it is present, begins with the source
and has `explored_count ≥ 1` elements.  The main loop always ends, and with
non-negative weights a result is returned. -/
theorem C14_trace_present_iff_requested (graph : Graph) (node_count : Nat)
    (start end_ : Int) (with_steps : Bool)
    (hrange : GraphInRange graph node_count)
    (hstart : ValidNode node_count start) (_hend : ValidNode node_count end_)
    (fuel : Nat) (hfuel : enough_fuel node_count ≤ fuel) :
    (∃ s1, dijkstra_search fuel graph node_count start end_ with_steps = some s1) ∧
    (∀ r, dijkstra_path_c fuel graph node_count start end_ with_steps = some r →
      (r.explored ≠ none ↔ with_steps = true) ∧
      (with_steps = false → r.explored = none ∧ r.explored_count = 0) ∧
      (with_steps = true →
        ∃ l, r.explored = some l ∧ l.head? = some start ∧ l.length = r.explored_count ∧
          0 < r.explored_count)) ∧
    (NonNegWeights graph node_count →
      ∃ r, dijkstra_path_c fuel graph node_count start end_ with_steps = some r) := by
  obtain ⟨s1, hrun, hbase, ⟨rest, hfirst⟩, htrace, hcount⟩ :=
    search_trace graph node_count start end_ with_steps hrange hstart fuel hfuel
  refine ⟨⟨s1, hrun⟩, ?_, fun hw =>
    returns_when_nonneg graph node_count start end_ with_steps hrange hw hstart fuel hfuel⟩
  intro r hr
  rw [dijkstra_path_c_eq fuel graph node_count start end_ with_steps s1 hrun] at hr
  obtain ⟨_, hc, hexp, _⟩ := finish_fields fuel end_ with_steps s1 r hr
  have hlen : s1.explored_count = (explored_list s1).length := by simp [explored_list]
  cases with_steps with
  | false =>
    simp only [if_false, Bool.false_eq_true] at htrace hcount
    have hnone : r.explored = none := by
      rw [hexp]
      simp
    refine ⟨by simp [hnone], fun _ => ⟨hnone, by rw [hc, hcount]⟩, fun h => absurd h (by simp)⟩
  | true =>
    simp only [if_true] at htrace hcount
    have hpos : 0 < s1.explored_count := by
      rw [hcount, hbase.iters, hfirst]
      simp
    have hsome : r.explored = some (explored_list s1) := by
      rw [hexp, if_pos ⟨rfl, hpos⟩]
    have hhead : (explored_list s1).head? = some start := by
      rw [htrace, hfirst]
      simp
    refine ⟨by simp [hsome], fun h => absurd h (by simp), fun _ =>
      ⟨explored_list s1, hsome, hhead, by rw [hc, hlen], by rw [hc]; exact hpos⟩⟩

/-- C14 at scenario B, query (0, 2), without tracing: the trace is absent. -/
theorem C14_trace_present_iff_requested_witness :
    ((∃ s1, dijkstra_search (enough_fuel 3) scenarioB 3 0 2 false = some s1) ∧
    (∀ r, dijkstra_path_c (enough_fuel 3) scenarioB 3 0 2 false = some r →
      (r.explored ≠ none ↔ false = true) ∧
      (false = false → r.explored = none ∧ r.explored_count = 0) ∧
      (false = true →
        ∃ l, r.explored = some l ∧ l.head? = some 0 ∧ l.length = r.explored_count ∧
          0 < r.explored_count)) ∧
    (NonNegWeights scenarioB 3 →
      ∃ r, dijkstra_path_c (enough_fuel 3) scenarioB 3 0 2 false = some r)) ∧
    (dijkstra_path_c (enough_fuel 3) scenarioB 3 0 2 false).map
        (fun r => (r.explored, r.explored_count)) = some (none, 0) ∧
    (dijkstra_path_c (enough_fuel 3) scenarioB 3 0 2 true).map
        (fun r => (r.explored, r.explored_count)) = some (some [0], 1) :=
  ⟨C14_trace_present_iff_requested scenarioB 3 0 2 false (scenarioB_in_range 3)
      ⟨by decide, by decide⟩ ⟨by decide, by decide⟩ (enough_fuel 3) (le_refl _),
    by decide!, by decide!⟩

/-- C15: on the 4-node graph with edges `0→1 (1)`, `1→2 (1)`, `0→2 (5)`,
`2→3 (1)`, with the two edges of node 0 in either order, `dijkstra_path_c`
with source 0 and target 3 returns the path `[0, 1, 2, 3]` and the distance 3,
with or without tracing. -/
theorem C15_scenario_A (with_steps : Bool) (fuel : Nat) (hfuel : enough_fuel 4 ≤ fuel) :
    (∃ r, dijkstra_path_c fuel scenarioA 4 0 3 with_steps = some r ∧
      r.path = some [0, 1, 2, 3] ∧ r.path_length = 4 ∧ r.distance = 3) ∧
    (∃ r, dijkstra_path_c fuel scenarioA_swapped 4 0 3 with_steps = some r ∧
      r.path = some [0, 1, 2, 3] ∧ r.path_length = 4 ∧ r.distance = 3) :=
  ⟨⟨_, dijkstra_path_c_fuel_mono _ _ _ _ _ _ _ (scenarioA_run with_steps) fuel hfuel,
      rfl, rfl, rfl⟩,
    ⟨_, dijkstra_path_c_fuel_mono _ _ _ _ _ _ _ (scenarioA_swapped_run with_steps) fuel hfuel,
      rfl, rfl, rfl⟩⟩

/-- C15 with tracing at the fuel `enough_fuel 4`. -/
theorem C15_scenario_A_witness :
    (∃ r, dijkstra_path_c (enough_fuel 4) scenarioA 4 0 3 true = some r ∧
      r.path = some [0, 1, 2, 3] ∧ r.path_length = 4 ∧ r.distance = 3) ∧
    (∃ r, dijkstra_path_c (enough_fuel 4) scenarioA_swapped 4 0 3 true = some r ∧
      r.path = some [0, 1, 2, 3] ∧ r.path_length = 4 ∧ r.distance = 3) :=
  C15_scenario_A true (enough_fuel 4) (le_refl _)

/-- C16: heap order is an invariant of the priority queue: the queue made by
`create_priority_queue` is in heap order, and from a queue in heap order both
`heap_push` (whether or not the queue is full) and `heap_pop` lead to a queue
in heap order. -/
theorem C16_heap_order_is_invariant (capacity : Nat) (pq : PriorityQueue)
    (node distance : Int) (hord : HeapOrdered pq.heap pq.size) :
    HeapOrdered (create_priority_queue capacity).heap (create_priority_queue capacity).size ∧
    HeapOrdered (heap_push pq node distance).heap (heap_push pq node distance).size ∧
    (∀ top pq1, heap_pop pq = some (top, pq1) → HeapOrdered pq1.heap pq1.size) := by
  refine ⟨?_, ?_, ?_⟩
  · intro i _ hi
    simp only [create_priority_queue] at hi
    omega
  · by_cases hfull : pq.capacity ≤ pq.size
    · rw [heap_push_full pq node distance hfull]
      exact hord
    · exact (heap_push_spec pq node distance (by omega) hord).2.2.1
  · intro top pq1 hpop
    by_cases h0 : pq.size = 0
    · rw [heap_pop_empty pq h0] at hpop
      exact absurd hpop (by simp)
    · obtain ⟨top', pq1', hpop', _, _, _, hord1, _⟩ :=
        heap_pop_spec pq (Nat.pos_of_ne_zero h0) hord
      rw [hpop] at hpop'
      simp only [Option.some.injEq, Prod.mk.injEq] at hpop'
      rw [hpop'.2]
      exact hord1

/-- C16 at the three-entry heap `(5, 1)`, `(7, 3)`, `(9, 2)` with room for one
more entry, pushing `(8, 0)`: the new entry rises to the root. -/
theorem C16_heap_order_is_invariant_witness :
    (HeapOrdered (create_priority_queue 4).heap (create_priority_queue 4).size ∧
    HeapOrdered (heap_push sampleQueue 8 0).heap (heap_push sampleQueue 8 0).size ∧
    (∀ top pq1, heap_pop sampleQueue = some (top, pq1) → HeapOrdered pq1.heap pq1.size)) ∧
    entries (heap_push sampleQueue 8 0) = [⟨8, 0⟩, ⟨5, 1⟩, ⟨9, 2⟩, ⟨7, 3⟩] :=
  ⟨C16_heap_order_is_invariant 4 sampleQueue 8 0 sampleQueue_ordered, by decide⟩

/-- C17, as stated, fails for a full queue: pushing `(2, 1)` into the queue
that holds one entry at capacity 1 leaves the size at 1 and the entries as
they were. -/
theorem C17_counterexample_full_queue :
    fullQueue.size = fullQueue.capacity ∧
    (heap_push fullQueue 2 1).size = 1 ∧
    entries (heap_push fullQueue 2 1) = [⟨4, 9⟩] ∧
    entries fullQueue = [⟨4, 9⟩] := by
  decide

/-- C17 (amended): for every priority queue with `size < capacity` and every
entry `(node, distance)`, `heap_push` inserts the entry: afterwards the size
is one greater and the multiset of stored entries is the previous multiset
plus `(node, distance)`. -/
theorem C17_heap_push_inserts (pq : PriorityQueue) (node distance : Int)
    (hroom : pq.size < pq.capacity) :
    (heap_push pq node distance).size = pq.size + 1 ∧
    (entries (heap_push pq node distance) : Multiset HeapNode) =
      (⟨node, distance⟩ : HeapNode) ::ₘ (entries pq : Multiset HeapNode) := by
  obtain ⟨h1, _, h3⟩ := heap_push_inserts pq node distance hroom
  refine ⟨h1, ?_⟩
  rw [Multiset.cons_coe]
  exact Quotient.sound h3

/-- C17 (amended) at the three-entry heap with capacity 4, pushing `(8, 0)`. -/
theorem C17_heap_push_inserts_witness :
    ((heap_push sampleQueue 8 0).size = sampleQueue.size + 1 ∧
    (entries (heap_push sampleQueue 8 0) : Multiset HeapNode) =
      (⟨8, 0⟩ : HeapNode) ::ₘ (entries sampleQueue : Multiset HeapNode)) ∧
    (heap_push sampleQueue 8 0).size = 4 :=
  ⟨C17_heap_push_inserts sampleQueue 8 0 (by decide), by decide⟩

/-- C18: for every graph with in-range edge endpoints and every valid source
and target, the main loop of a search with tracing ends, and in every result
`dijkstra_path_c` returns `explored_count` is `min(iterations, 10000)` and
the explored sequence is the first `min(iterations, 10000)` nodes of the
settle order, `iterations` being the length of the whole settle order; with
non-negative weights a result is returned. -/
theorem C18_trace_is_capped_settle_order (graph : Graph) (node_count : Nat)
    (start end_ : Int)
    (hrange : GraphInRange graph node_count)
    (hstart : ValidNode node_count start) (_hend : ValidNode node_count end_)
    (fuel : Nat) (hfuel : enough_fuel node_count ≤ fuel) :
    ∃ s1, dijkstra_search fuel graph node_count start end_ true = some s1 ∧
      s1.iterations = (settle_order fuel graph node_count start end_ true).length ∧
      s1.explored_count = min s1.iterations 10000 ∧
      (∀ r, dijkstra_path_c fuel graph node_count start end_ true = some r →
        r.iterations = (settle_order fuel graph node_count start end_ true).length ∧
        r.explored_count = min r.iterations 10000 ∧
        r.explored =
          some (((settle_order fuel graph node_count start end_ true).map
            (fun e => e.node)).take (min r.iterations 10000))) ∧
      (NonNegWeights graph node_count →
        ∃ r, dijkstra_path_c fuel graph node_count start end_ true = some r) := by
  obtain ⟨s1, hrun, hbase, ⟨rest, hfirst⟩, htrace, hcount⟩ :=
    search_trace graph node_count start end_ true hrange hstart fuel hfuel
  simp only [if_true] at htrace hcount
  refine ⟨s1, hrun, hbase.iters, hcount, ?_, fun hw =>
    returns_when_nonneg graph node_count start end_ true hrange hw hstart fuel hfuel⟩
  intro r hr
  rw [dijkstra_path_c_eq fuel graph node_count start end_ true s1 hrun] at hr
  obtain ⟨hit, hc, hexp, _⟩ := finish_fields fuel end_ true s1 r hr
  have hpos : 0 < s1.explored_count := by
    rw [hcount, hbase.iters, hfirst]
    simp
  refine ⟨by rw [hit, hbase.iters], by rw [hc, hit, hcount], ?_⟩
  rw [hexp, if_pos ⟨rfl, hpos⟩, htrace, hit, hbase.iters]
  congr 1
  rw [List.take_eq_take]
  simp only [List.length_map]
  omega

/-- C18 on the line graph of 10001 nodes searched from end to end: 10001
nodes are settled and the trace holds the first 10000 of them. -/
theorem C18_trace_is_capped_settle_order_witness :
    (∃ s1, dijkstra_search (enough_fuel 10001) lineGraph 10001 0 10000 true = some s1 ∧
      s1.iterations = (settle_order (enough_fuel 10001) lineGraph 10001 0 10000 true).length ∧
      s1.explored_count = min s1.iterations 10000 ∧
      (∀ r, dijkstra_path_c (enough_fuel 10001) lineGraph 10001 0 10000 true = some r →
        r.iterations = (settle_order (enough_fuel 10001) lineGraph 10001 0 10000 true).length ∧
        r.explored_count = min r.iterations 10000 ∧
        r.explored =
          some (((settle_order (enough_fuel 10001) lineGraph 10001 0 10000 true).map
            (fun e => e.node)).take (min r.iterations 10000))) ∧
      (NonNegWeights lineGraph 10001 →
        ∃ r, dijkstra_path_c (enough_fuel 10001) lineGraph 10001 0 10000 true = some r)) ∧
    (∃ r, dijkstra_path_c (enough_fuel 10001) lineGraph 10001 0 10000 true = some r ∧
      r.iterations = 10001 ∧ r.explored_count = 10000) :=
  ⟨C18_trace_is_capped_settle_order lineGraph 10001 0 10000 lineGraph_in_range
      ⟨by decide, by decide⟩ ⟨by decide, by decide⟩ (enough_fuel 10001) (le_refl _),
    line_search_counts⟩

/-- C13, as stated, fails: on the 3-node graph with edges `0→1 (-1)`,
`1→0 (-1)`, `1→2 (5)`, source 0 and target 2, the main loop ends with the
target found at distance 4 and with nodes 0 and 1 naming each other as
predecessor, so the predecessor walk from the target never reaches the `-1`
sentinel and `dijkstra_path_c` returns no result, whatever the fuel. -/
theorem C13_counterexample_predecessor_walk_cycles :
    GraphInRange negCycleGraph 3 ∧ ValidNode 3 0 ∧ ValidNode 3 2 ∧
    (∃ s1, dijkstra_search 4 negCycleGraph 3 0 2 false = some s1 ∧
      s1.destination_found = true ∧ s1.distances 2 = 4 ∧
      s1.previous 2 = 1 ∧ s1.previous 1 = 0 ∧ s1.previous 0 = 1) ∧
    (∀ fuel, dijkstra_path_c fuel negCycleGraph 3 0 2 false = none) :=
  ⟨negCycleGraph_in_range, ⟨by decide, by decide⟩, ⟨by decide, by decide⟩,
    negCycle_search false, negCycle_stuck false⟩

/-- C13 (amended): for every graph with in-range edge endpoints and weights
of any sign and every valid source and target, the main loop of
`dijkstra_path_c` ends within `enough_fuel node_count` trips; when it ends
without having found the target, `dijkstra_path_c` returns the no-path
result; and when no weight is negative, `dijkstra_path_c` returns a result
with `path_length ≤ node_count`, the predecessor walk from a found target
reaching the `-1` sentinel after `path_length` steps. -/
theorem C13_search_returns (graph : Graph) (node_count : Nat)
    (start end_ : Int) (with_steps : Bool)
    (hrange : GraphInRange graph node_count)
    (hstart : ValidNode node_count start) (_hend : ValidNode node_count end_)
    (fuel : Nat) (hfuel : enough_fuel node_count ≤ fuel) :
    ∃ s1, dijkstra_search fuel graph node_count start end_ with_steps = some s1 ∧
      (s1.destination_found = false →
        ∃ r, dijkstra_path_c fuel graph node_count start end_ with_steps = some r ∧
          r.path = none ∧ r.path_length = 0 ∧ r.distance = DBL_MAX) ∧
      (NonNegWeights graph node_count →
        ∃ r, dijkstra_path_c fuel graph node_count start end_ with_steps = some r ∧
          r.path_length ≤ node_count ∧
          (s1.destination_found = true →
            count_path s1.previous fuel end_ 0 = some r.path_length)) := by
  obtain ⟨s1, hrun, _, _⟩ :=
    search_base graph node_count start end_ with_steps hrange hstart fuel hfuel
  refine ⟨s1, hrun, ?_, ?_⟩
  · intro hnf
    have hres := dijkstra_path_c_eq fuel graph node_count start end_ with_steps s1 hrun
    rw [finish_not_found fuel end_ with_steps s1 hnf] at hres
    exact ⟨_, hres, rfl, rfl, rfl⟩
  · intro hw
    obtain ⟨s2, r, hrun2, hres, _, _, hlen, _, hfound⟩ :=
      path_is_short graph node_count start end_ with_steps hrange hw hstart fuel hfuel
    rw [hrun] at hrun2
    have hs : s1 = s2 := Option.some.inj hrun2
    rw [← hs] at hfound
    exact ⟨r, hres, hlen, fun hf => (hfound hf).1⟩

/-- C13 (amended) on the negative-cycle graph with source 2 and target 0: the
source has no edge, the main loop ends without finding the target and the
no-path result is returned. -/
theorem C13_search_returns_witness :
    (∃ s1, dijkstra_search (enough_fuel 3) negCycleGraph 3 2 0 false = some s1 ∧
      (s1.destination_found = false →
        ∃ r, dijkstra_path_c (enough_fuel 3) negCycleGraph 3 2 0 false = some r ∧
          r.path = none ∧ r.path_length = 0 ∧ r.distance = DBL_MAX) ∧
      (NonNegWeights negCycleGraph 3 →
        ∃ r, dijkstra_path_c (enough_fuel 3) negCycleGraph 3 2 0 false = some r ∧
          r.path_length ≤ 3 ∧
          (s1.destination_found = true →
            count_path s1.previous (enough_fuel 3) 0 0 = some r.path_length))) ∧
    (dijkstra_path_c (enough_fuel 3) negCycleGraph 3 2 0 false).map
        (fun r => (r.path, r.path_length, r.iterations)) = some (none, 0, 1) :=
  ⟨C13_search_returns negCycleGraph 3 2 0 false negCycleGraph_in_range
      ⟨by decide, by decide⟩ ⟨by decide, by decide⟩ (enough_fuel 3) (le_refl _),
    by decide!⟩

/-- C19: for every graph with in-range edge endpoints and non-negative
weights and every valid source and target, `dijkstra_path_c` returns a
result whose `path_length` is at most `node_count`; when the target was found
the predecessor walk from it reaches the `-1` sentinel after `path_length`
steps, and a returned path has `path_length` nodes, none of them twice,
begins at the source and ends at the target; and the source is the only
settled node whose predecessor is `-1`. -/
theorem C19_path_is_simple_and_short (graph : Graph) (node_count : Nat)
    (start end_ : Int) (with_steps : Bool)
    (hrange : GraphInRange graph node_count) (hweights : NonNegWeights graph node_count)
    (hstart : ValidNode node_count start) (_hend : ValidNode node_count end_)
    (fuel : Nat) (hfuel : enough_fuel node_count ≤ fuel) :
    ∃ s1 r, dijkstra_search fuel graph node_count start end_ with_steps = some s1 ∧
      dijkstra_path_c fuel graph node_count start end_ with_steps = some r ∧
      r.path_length ≤ node_count ∧
      (s1.destination_found = true →
        count_path s1.previous fuel end_ 0 = some r.path_length) ∧
      (∀ p, r.path = some p →
        p.length = r.path_length ∧ p.Nodup ∧ p.head? = some start ∧
          p.getLast? = some end_) ∧
      (∀ v, s1.visited v ≠ 0 → (s1.previous v = -1 ↔ v = start)) := by
  obtain ⟨s1, r, hrun, hres, hbase, hchain, hlen, hnot, hfound⟩ :=
    path_is_short graph node_count start end_ with_steps hrange hweights hstart fuel hfuel
  refine ⟨s1, r, hrun, hres, hlen, fun hf => (hfound hf).1, ?_,
    settled_pred_sentinel graph node_count start with_steps _ _ s1 hbase hchain⟩
  intro p hp
  cases hf : s1.destination_found with
  | false =>
    rw [(hnot hf).1] at hp
    exact absurd hp (by simp)
  | true =>
    obtain ⟨_, q, hq, h1, h2, h3, h4⟩ := hfound hf
    rw [hq] at hp
    have hpq : q = p := Option.some.inj hp
    rw [← hpq]
    exact ⟨h1, h2, h3, h4⟩

/-- C19 at scenario A, query (0, 3): the path has 4 nodes, as many as the graph. -/
theorem C19_path_is_simple_and_short_witness :
    (∃ s1 r, dijkstra_search (enough_fuel 4) scenarioA 4 0 3 false = some s1 ∧
      dijkstra_path_c (enough_fuel 4) scenarioA 4 0 3 false = some r ∧
      r.path_length ≤ 4 ∧
      (s1.destination_found = true →
        count_path s1.previous (enough_fuel 4) 3 0 = some r.path_length) ∧
      (∀ p, r.path = some p →
        p.length = r.path_length ∧ p.Nodup ∧ p.head? = some 0 ∧ p.getLast? = some 3) ∧
      (∀ v, s1.visited v ≠ 0 → (s1.previous v = -1 ↔ v = 0))) ∧
    (dijkstra_path_c (enough_fuel 4) scenarioA 4 0 3 false).map
        (fun r => (r.path, r.path_length)) = some (some [0, 1, 2, 3], 4) :=
  ⟨C19_path_is_simple_and_short scenarioA 4 0 3 false scenarioA_in_range scenarioA_nonneg
      ⟨by decide, by decide⟩ ⟨by decide, by decide⟩ (enough_fuel 4) (le_refl _),
    by decide!⟩

/-- C12: for every graph with in-range edge endpoints and non-negative weights
and every valid source, any two states the search loop of `dijkstra_path_c`
passes through (taken statement by statement: after each pop, each settling
and each relaxed edge), the earlier one first, are related by `Frozen`: no
node has a greater tentative distance in the later state, and every node
settled in the earlier state is still settled in the later one with the same
distance and the same predecessor.  With enough fuel the list of states ends
in the state the main loop ends in. -/
theorem C12_distances_fall_and_settled_nodes_stay (graph : Graph) (node_count : Nat)
    (start end_ : Int) (with_steps : Bool)
    (hrange : GraphInRange graph node_count) (hweights : NonNegWeights graph node_count)
    (hstart : ValidNode node_count start) (fuel : Nat) :
    (search_history fuel graph node_count start end_ with_steps).Pairwise Frozen ∧
    (enough_fuel node_count ≤ fuel →
      ∃ s1, dijkstra_search fuel graph node_count start end_ with_steps = some s1 ∧
        (search_history fuel graph node_count start end_ with_steps).getLast? = some s1) := by
  refine ⟨search_history_frozen graph node_count start end_ with_steps hrange hweights hstart
    fuel, fun hfuel => ?_⟩
  obtain ⟨s1, hrun, _⟩ :=
    search_base graph node_count start end_ with_steps hrange hstart fuel hfuel
  exact ⟨s1, hrun, search_steps_last graph end_ with_steps (trace_capacity with_steps) fuel
    (init_state node_count start) s1 hrun⟩

/-- C12 at scenario A, query (0, 3): the search passes through 14 states. -/
theorem C12_distances_fall_and_settled_nodes_stay_witness :
    ((search_history (enough_fuel 4) scenarioA 4 0 3 false).Pairwise Frozen ∧
    (enough_fuel 4 ≤ enough_fuel 4 →
      ∃ s1, dijkstra_search (enough_fuel 4) scenarioA 4 0 3 false = some s1 ∧
        (search_history (enough_fuel 4) scenarioA 4 0 3 false).getLast? = some s1)) ∧
    (search_history (enough_fuel 4) scenarioA 4 0 3 false).length = 14 ∧
    (search_history (enough_fuel 4) scenarioA 4 0 3 false).map (fun s => s.distances 2) =
      [DBL_MAX, DBL_MAX, DBL_MAX, DBL_MAX, 5, 5, 5, 2, 2, 2, 2, 2, 2, 2] :=
  ⟨C12_distances_fall_and_settled_nodes_stay scenarioA 4 0 3 false scenarioA_in_range
      scenarioA_nonneg ⟨by decide, by decide⟩ (enough_fuel 4),
    by decide!, by decide!⟩

/-- C20, as stated, fails where the machine sum is rounded: in `tieGraph`
(2 edges, fewer than `2 * 3`), source 0 and target 2, the machine sum of
`2^53` and 1 is `2^53`, and `dijkstra_path_c` returns the path `[0, 1, 2]`
with distance `2^53`, while the only walk from 0 to 2 takes the two edges
`0→1` and `1→2`, whose weights sum to `2^53 + 1`. -/
theorem C20_counterexample_rounded_distance :
    GraphInRange tieGraph 3 ∧ NonNegWeights tieGraph 3 ∧ edge_count tieGraph 3 < 2 * 3 ∧
    double_add 9007199254740992 1 = 9007199254740992 ∧
    dijkstra_path_c_ieee (enough_fuel 3) tieGraph 3 0 2 false =
      some ⟨some [0, 1, 2], 3, 9007199254740992, none, 0, 3⟩ ∧
    (∀ es, IsWalk tieGraph 0 es 2 →
      walk_nodes 0 es = [0, 1, 2] ∧ walk_weight es = 9007199254740993) := by
  refine ⟨tieGraph_in_range, tieGraph_nonneg, by decide, by decide!, by decide!, ?_⟩
  intro es hes
  obtain ⟨h1, h2⟩ := tieGraph_walks es hes
  refine ⟨?_, h2⟩
  rw [h1]
  rfl

/-- C20 (amended): for every graph with in-range edge endpoints, whole-number
weights from `0` to `W` with `node_count * W ≤ 2^53`, and fewer than
`2 * node_count` edges, and every valid source and target, `dijkstra_path_c`,
run with machine addition, returns a result, the same as with exact
addition, and whenever the result holds a path the returned distance is
realised by it: there is a list of graph edges, the first leaving the source
and each next one leaving the node the one before it leads to, whose
endpoints are exactly the nodes of the path in order and whose weights sum to
the returned distance. -/
theorem C20_distance_is_weight_of_path (graph : Graph) (node_count : Nat)
    (start end_ : Int) (with_steps : Bool) (W : Int)
    (hrange : GraphInRange graph node_count) (hweights : NonNegWeights graph node_count)
    (hmost : WeightsAtMost graph node_count W) (hW : 0 ≤ W)
    (hexact : (node_count : Int) * W ≤ MAX_EXACT)
    (hedges : edge_count graph node_count < 2 * node_count)
    (hstart : ValidNode node_count start) (_hend : ValidNode node_count end_)
    (fuel : Nat) (hfuel : enough_fuel node_count ≤ fuel) :
    ∃ r, dijkstra_path_c_ieee fuel graph node_count start end_ with_steps = some r ∧
      dijkstra_path_c fuel graph node_count start end_ with_steps = some r ∧
      ∀ p, r.path = some p →
        ∃ es, IsWalk graph start es end_ ∧ walk_nodes start es = p ∧
          walk_weight es = r.distance := by
  obtain ⟨r, hres, h⟩ := path_realises_distance graph node_count start end_ with_steps
    hrange hweights hedges hstart fuel hfuel
  refine ⟨r, ?_, hres, h⟩
  rw [ieee_search_agrees graph node_count start end_ with_steps hrange hweights W hW hmost
    hexact hstart fuel]
  exact hres

/-- C20 (amended) at scenario A, query (0, 3), with `W = 5`: the path
`[0, 1, 2, 3]` with distance 3 is realised by the three edges of weight 1. -/
theorem C20_distance_is_weight_of_path_witness :
    (∃ r, dijkstra_path_c_ieee (enough_fuel 4) scenarioA 4 0 3 false = some r ∧
      dijkstra_path_c (enough_fuel 4) scenarioA 4 0 3 false = some r ∧
      ∀ p, r.path = some p →
        ∃ es, IsWalk scenarioA 0 es 3 ∧ walk_nodes 0 es = p ∧
          walk_weight es = r.distance) ∧
    (dijkstra_path_c_ieee (enough_fuel 4) scenarioA 4 0 3 false).map
        (fun r => (r.path, r.distance)) = some (some [0, 1, 2, 3], 3) ∧
    walk_nodes 0 [⟨1, 1⟩, ⟨2, 1⟩, ⟨3, 1⟩] = [0, 1, 2, 3] ∧
    walk_weight [⟨1, 1⟩, ⟨2, 1⟩, ⟨3, 1⟩] = 3 :=
  ⟨C20_distance_is_weight_of_path scenarioA 4 0 3 false 5 scenarioA_in_range scenarioA_nonneg
      scenarioA_at_most (by decide) (by decide) (by decide) ⟨by decide, by decide⟩
      ⟨by decide, by decide⟩ (enough_fuel 4) (le_refl _),
    by decide!, by decide, by decide⟩

/-- C21: the tracing flag does not influence the search: for every graph,
node count, source and target and every fuel, `dijkstra_path_c` with
`with_steps = true` returns a result exactly when it does with
`with_steps = false`, and the two results have the same path, the same path
length, the same distance and the same iterations; with in-range edges,
non-negative weights and a valid source both calls do return. -/
theorem C21_tracing_does_not_influence_search (fuel : Nat) (graph : Graph)
    (node_count : Nat) (start end_ : Int) :
    (dijkstra_path_c fuel graph node_count start end_ true = none ↔
      dijkstra_path_c fuel graph node_count start end_ false = none) ∧
    (∀ r1 r2, dijkstra_path_c fuel graph node_count start end_ true = some r1 →
      dijkstra_path_c fuel graph node_count start end_ false = some r2 →
      r1.path = r2.path ∧ r1.path_length = r2.path_length ∧ r1.distance = r2.distance ∧
        r1.iterations = r2.iterations) ∧
    (GraphInRange graph node_count → NonNegWeights graph node_count →
      ValidNode node_count start → enough_fuel node_count ≤ fuel →
      ∃ r1 r2, dijkstra_path_c fuel graph node_count start end_ true = some r1 ∧
        dijkstra_path_c fuel graph node_count start end_ false = some r2 ∧
        r1.path = r2.path ∧ r1.path_length = r2.path_length ∧ r1.distance = r2.distance ∧
        r1.iterations = r2.iterations) := by
  have h := outcome_same fuel graph node_count start end_ true false
  have hboth : ∀ r1 r2, dijkstra_path_c fuel graph node_count start end_ true = some r1 →
      dijkstra_path_c fuel graph node_count start end_ false = some r2 →
      r1.path = r2.path ∧ r1.path_length = r2.path_length ∧ r1.distance = r2.distance ∧
        r1.iterations = r2.iterations := by
    intro r1 r2 h1 h2
    rw [h1, h2] at h
    simp only [Option.map_some', Option.some.injEq, search_outcome, Prod.mk.injEq] at h
    exact h
  refine ⟨?_, hboth, ?_⟩
  · constructor
    · intro h1
      rw [h1] at h
      cases h2 : dijkstra_path_c fuel graph node_count start end_ false with
      | none => rfl
      | some r2 =>
        rw [h2] at h
        exact absurd h (by simp)
    · intro h2
      rw [h2] at h
      cases h1 : dijkstra_path_c fuel graph node_count start end_ true with
      | none => rfl
      | some r1 =>
        rw [h1] at h
        exact absurd h (by simp)
  · intro hg hw hs hfuel
    obtain ⟨r1, h1⟩ := returns_when_nonneg graph node_count start end_ true hg hw hs fuel hfuel
    obtain ⟨r2, h2⟩ := returns_when_nonneg graph node_count start end_ false hg hw hs fuel hfuel
    exact ⟨r1, r2, h1, h2, hboth r1 r2 h1 h2⟩

/-- C21 at scenario A, query (0, 3): both calls return the path `[0, 1, 2, 3]`,
distance 3 and 4 iterations; only the trace differs. -/
theorem C21_tracing_does_not_influence_search_witness :
    (∃ r1 r2, dijkstra_path_c (enough_fuel 4) scenarioA 4 0 3 true = some r1 ∧
      dijkstra_path_c (enough_fuel 4) scenarioA 4 0 3 false = some r2 ∧
      r1.path = r2.path ∧ r1.path_length = r2.path_length ∧ r1.distance = r2.distance ∧
      r1.iterations = r2.iterations) ∧
    (dijkstra_path_c (enough_fuel 4) scenarioA 4 0 3 true).map
        (fun r => (r.path, r.distance, r.iterations, r.explored)) =
      some (some [0, 1, 2, 3], 3, 4, some [0, 1, 2, 3]) ∧
    (dijkstra_path_c (enough_fuel 4) scenarioA 4 0 3 false).map
        (fun r => (r.path, r.distance, r.iterations, r.explored)) =
      some (some [0, 1, 2, 3], 3, 4, none) :=
  ⟨(C21_tracing_does_not_influence_search (enough_fuel 4) scenarioA 4 0 3).2.2
      scenarioA_in_range scenarioA_nonneg ⟨by decide, by decide⟩ (le_refl _),
    by decide!, by decide!⟩

/-- C22: for every graph with in-range edge endpoints and non-negative weights
and every valid source and target, the main loop of `dijkstra_path_c` ends,
the distances popped from the frontier (stale pops included) are
non-decreasing in the order of the pops and begin with the source at 0, the
settle events are a subsequence of the pops and begin with the source at 0,
and the values in `explored_distances` are the distances of the first settle
events (up to 10000 with tracing, none without): they form a non-decreasing
sequence that, with tracing, starts at 0. -/
theorem C22_popped_distances_never_fall (graph : Graph) (node_count : Nat)
    (start end_ : Int) (with_steps : Bool)
    (hrange : GraphInRange graph node_count) (hweights : NonNegWeights graph node_count)
    (hstart : ValidNode node_count start) (_hend : ValidNode node_count end_)
    (fuel : Nat) (hfuel : enough_fuel node_count ≤ fuel) :
    ∃ s1, dijkstra_search fuel graph node_count start end_ with_steps = some s1 ∧
      ((pop_order fuel graph node_count start end_ with_steps).map
        (fun e => e.distance)).Pairwise (fun a b => a ≤ b) ∧
      (∃ rest, pop_order fuel graph node_count start end_ with_steps = ⟨start, 0⟩ :: rest) ∧
      (settle_order fuel graph node_count start end_ with_steps).Sublist
        (pop_order fuel graph node_count start end_ with_steps) ∧
      (∃ rest,
        settle_order fuel graph node_count start end_ with_steps = ⟨start, 0⟩ :: rest) ∧
      ((settle_order fuel graph node_count start end_ with_steps).map
        (fun e => e.distance)).Pairwise (fun a b => a ≤ b) ∧
      explored_distance_list s1 =
        (if with_steps = true then
          ((settle_order fuel graph node_count start end_ with_steps).map
            (fun e => e.distance)).take 10000
        else []) ∧
      (explored_distance_list s1).Pairwise (fun a b => a ≤ b) ∧
      (with_steps = true → (explored_distance_list s1).head? = some 0) :=
  pops_nondecreasing graph node_count start end_ with_steps hrange hweights hstart fuel hfuel

/-- C22 at scenario A with a fifth, isolated node as target and tracing: the
popped distances are 0, 1, 2, 3, 5, the last pop being the stale entry
`(2, 5)`, and the recorded distances are 0, 1, 2, 3. -/
theorem C22_popped_distances_never_fall_witness :
    (∃ s1, dijkstra_search (enough_fuel 5) scenarioA 5 0 4 true = some s1 ∧
      ((pop_order (enough_fuel 5) scenarioA 5 0 4 true).map
        (fun e => e.distance)).Pairwise (fun a b => a ≤ b) ∧
      (∃ rest, pop_order (enough_fuel 5) scenarioA 5 0 4 true = ⟨0, 0⟩ :: rest) ∧
      (settle_order (enough_fuel 5) scenarioA 5 0 4 true).Sublist
        (pop_order (enough_fuel 5) scenarioA 5 0 4 true) ∧
      (∃ rest, settle_order (enough_fuel 5) scenarioA 5 0 4 true = ⟨0, 0⟩ :: rest) ∧
      ((settle_order (enough_fuel 5) scenarioA 5 0 4 true).map
        (fun e => e.distance)).Pairwise (fun a b => a ≤ b) ∧
      explored_distance_list s1 =
        (if true = true then
          ((settle_order (enough_fuel 5) scenarioA 5 0 4 true).map
            (fun e => e.distance)).take 10000
        else []) ∧
      (explored_distance_list s1).Pairwise (fun a b => a ≤ b) ∧
      (true = true → (explored_distance_list s1).head? = some 0)) ∧
    (pop_order (enough_fuel 5) scenarioA 5 0 4 true).map (fun e => (e.node, e.distance)) =
      [(0, 0), (1, 1), (2, 2), (3, 3), (2, 5)] ∧
    (settle_order (enough_fuel 5) scenarioA 5 0 4 true).map (fun e => (e.node, e.distance)) =
      [(0, 0), (1, 1), (2, 2), (3, 3)] ∧
    (dijkstra_search (enough_fuel 5) scenarioA 5 0 4 true).map explored_distance_list =
      some [0, 1, 2, 3] :=
  ⟨C22_popped_distances_never_fall scenarioA 5 0 4 true scenarioA_in_range_five
      scenarioA_nonneg_five ⟨by decide, by decide⟩ ⟨by decide, by decide⟩ (enough_fuel 5)
      (le_refl _),
    by decide!, by decide!, by decide!⟩

end PbfRouter
